import Mathlib

/-!
Verification of the Aho–Corasick multi-pattern matcher and its gapped-pattern
extension.  The definitions below are a shallow embedding of the Python sources
`aho_corasick.py` and `aho_gapped.py`: the node arena is a list of nodes
addressed by index (index 0 is the root), child dictionaries are
insertion-ordered association lists, and the imperative loops become folds or
fuel-indexed recursions whose fuel is shown sufficient on well-formed arenas.
-/

/-- Alphabet policy of the scanner: the string "ACGTN" used by
`AhoCorasick.search` and `search_generator`. -/
def ALPHABET : List Char := ['A', 'C', 'G', 'T', 'N']

/-- One automaton state (class `Node` in both `aho_corasick.py` and
`aho_gapped.py`).  `next` is the insertion-ordered transition dictionary,
`fail` the failure link, `out` the output list, `id` the numeric identifier
assigned by `build`.  Python initialises `fail` to `None` and `build` always
sets it to a node before any search; it is modelled as a node index,
initially the root (0). -/
structure Node (α : Type) where
  next : List (Char × Nat)
  fail : Nat
  out : List α
  id : Option Nat
  deriving Repr, DecidableEq

/-- The Aho–Corasick automaton (class `AhoCorasick` in both source files):
the arena `_nodes`, whose element 0 is `root`.  The output entries are kept
generic in `α`: `aho_corasick.py` stores pattern identifiers (or the pattern
itself when `pat_id` is `None`, a default the caller resolves here), while
`aho_gapped.py` stores `(pat_id, meta)` pairs. -/
structure AhoCorasick (α : Type) where
  nodes : List (Node α)
  deriving Repr, DecidableEq

/-- Constructor `AhoCorasick.__init__`: a root-only arena. -/
def AhoCorasick.init : AhoCorasick α := ⟨[⟨[], 0, [], none⟩]⟩

/-- Dictionary lookup `node.next[ch]` (first binding of the key, as in a
Python dict whose keys are unique). -/
def lookupChild : List (Char × Nat) → Char → Option Nat
  | [], _ => none
  | (k, u) :: rest, c => if k = c then some u else lookupChild rest c

/-- Reading `self._nodes[v]`; out-of-range reads (never reached from the
public operations) give an inert empty node. -/
def nodeAt (ns : List (Node α)) (v : Nat) : Node α := ns.getD v ⟨[], 0, [], none⟩

/-- Writing `self._nodes[v] = n`. -/
def setNode (ns : List (Node α)) (v : Nat) (n : Node α) : List (Node α) := ns.set v n

/-- Trie descent of `AhoCorasick.add`: follow or create one node per symbol,
returning the updated arena and the terminal node. -/
def addLoop : List (Node α) → Nat → List Char → List (Node α) × Nat
  | ns, v, [] => (ns, v)
  | ns, v, c :: cs =>
    match lookupChild (nodeAt ns v).next c with
    | some u => addLoop ns u cs
    | none =>
      let u := ns.length
      let ns1 := ns ++ [⟨[], 0, [], none⟩]
      let ns2 := setNode ns1 v { nodeAt ns1 v with next := (nodeAt ns1 v).next ++ [(c, u)] }
      addLoop ns2 u cs

/-- Method `AhoCorasick.add`: insert `pattern` into the trie and append the
identifier to the terminal node output list.  Python defaults `pat_id` to the
pattern itself when `None` is passed; callers of this model resolve that
default. -/
def AhoCorasick.add (ac : AhoCorasick α) (pattern : List Char) (pat_id : α) : AhoCorasick α :=
  let p := addLoop ac.nodes 0 pattern
  ⟨setNode p.1 p.2 { nodeAt p.1 p.2 with out := (nodeAt p.1 p.2).out ++ [pat_id] }⟩

/-- The failure-chain walk `while v is not root and ch not in v.next: v = v.fail`
appearing in `build`, `search` and `search_generator`.  The fuel (always
passed as the arena size) dominates the walk length on a built automaton,
where each failure link strictly decreases trie depth. -/
def failWalk (ns : List (Node α)) : Nat → Nat → Char → Nat
  | 0, v, _ => v
  | fuel + 1, v, c =>
    if v = 0 then v
    else if (lookupChild (nodeAt ns v).next c).isSome then v
    else failWalk ns fuel (nodeAt ns v).fail c

/-- Body of the inner `for ch, u in r.next.items()` loop of `build`: enqueue
the child, compute its failure link by walking from `r.fail`, and propagate
the failure target output list onto the child. -/
def buildChild (r : Nat) (acc : List (Node α) × List Nat) (e : Char × Nat) :
    List (Node α) × List Nat :=
  let ns := acc.1
  let q := acc.2 ++ [e.2]
  let w := failWalk ns ns.length (nodeAt ns r).fail e.1
  let t := (lookupChild (nodeAt ns w).next e.1).getD 0
  let n := nodeAt ns e.2
  (setNode ns e.2 { n with fail := t, out := n.out ++ (nodeAt ns t).out }, q)

/-- The breadth-first `while queue:` loop of `build`, with fuel equal to the
arena size (each dequeued node is distinct, so the fuel never runs out on a
trie-shaped arena). -/
def buildLoop : Nat → List (Node α) → List Nat → List (Node α)
  | 0, ns, _ => ns
  | _ + 1, ns, [] => ns
  | fuel + 1, ns, r :: q =>
    let step := (nodeAt ns r).next.foldl (buildChild r) (ns, q)
    buildLoop fuel step.1 step.2

/-- Seeding loop of `build`: each direct child of the root receives failure
link root and enters the queue. -/
def seedChild (acc : List (Node α) × List Nat) (e : Char × Nat) :
    List (Node α) × List Nat :=
  (setNode acc.1 e.2 { nodeAt acc.1 e.2 with fail := 0 }, acc.2 ++ [e.2])

/-- Identifier assignment `for i, n in enumerate(self._nodes): n.id = i`. -/
def assignIds : Nat → List (Node α) → List (Node α)
  | _, [] => []
  | i, n :: rest => { n with id := some i } :: assignIds (i + 1) rest

/-- Method `AhoCorasick.build` (identical in both source files): set the root
failure link to the root, seed the queue with the root children, run the
breadth-first failure-link and output-propagation loop, then assign numeric
identifiers in arena order. -/
def AhoCorasick.build (ac : AhoCorasick α) : AhoCorasick α :=
  let ns0 := setNode ac.nodes 0 { nodeAt ac.nodes 0 with fail := 0 }
  let seeded := (nodeAt ns0 0).next.foldl seedChild (ns0, [])
  ⟨assignIds 0 (buildLoop seeded.1.length seeded.1 seeded.2)⟩

/-- Loop body of `AhoCorasick.search`: state is (current node, total,
optional match list, position).  A symbol outside the alphabet forces the
state to the root and advances the position; otherwise the goto/failure walk
runs and every output entry of the new state is recorded. -/
def searchLoop (ns : List (Node α)) :
    Nat → Nat → Option (List (Nat × α)) → Nat → List Char → Nat × Option (List (Nat × α))
  | _, total, ms, _, [] => (total, ms)
  | node, total, ms, idx, c :: rest =>
    if c ∈ ALPHABET then
      let w := failWalk ns ns.length node c
      let node' := (lookupChild (nodeAt ns w).next c).getD 0
      let os := (nodeAt ns node').out
      searchLoop ns node' (total + os.length)
        (match ms with
         | some l => some (l ++ os.map (fun o => (idx, o)))
         | none => none) (idx + 1) rest
    else
      searchLoop ns 0 total ms (idx + 1) rest

/-- Method `AhoCorasick.search` of `aho_corasick.py`.  Python returns `total`
alone when `yield_matches` is false and the pair `(total, matches)` when it
is true; the model always returns the pair, with the match list present
exactly when `yield_matches` is true. -/
def AhoCorasick.search (ac : AhoCorasick α) (text : List Char) (yield_matches : Bool) :
    Nat × Option (List (Nat × α)) :=
  searchLoop ac.nodes 0 0 (if yield_matches then some [] else none) 0 text

/-- Loop of `AhoCorasick.search_generator` of `aho_gapped.py`: the lazily
yielded `(idx, pat_id, meta)` triples, collected in yield order.  The output
entries stored by the gapped matcher are `(pat_id, meta)` pairs, so each
yield is modelled as `(idx, (pat_id, meta))`. -/
def sgLoop (ns : List (Node α)) : Nat → Nat → List Char → List (Nat × α)
  | _, _, [] => []
  | node, idx, c :: rest =>
    if c ∈ ALPHABET then
      let w := failWalk ns ns.length node c
      let node' := (lookupChild (nodeAt ns w).next c).getD 0
      (nodeAt ns node').out.map (fun o => (idx, o)) ++ sgLoop ns node' (idx + 1) rest
    else sgLoop ns 0 (idx + 1) rest

/-- Method `AhoCorasick.search_generator` of `aho_gapped.py`. -/
def AhoCorasick.search_generator (ac : AhoCorasick α) (text : List Char) : List (Nat × α) :=
  sgLoop ac.nodes 0 0 text

/-- Token of the gap-pattern parser: a literal run (`('seq', str)` in Python)
or a gap of a given length (`('gap', n)`). -/
inductive Tok where
  | seq (s : List Char)
  | gap (n : Nat)
  deriving Repr, DecidableEq

/-- Python `str.strip()`: remove leading and trailing whitespace. -/
def pyStrip (s : List Char) : List Char :=
  ((s.dropWhile Char.isWhitespace).reverse.dropWhile Char.isWhitespace).reverse

/-- Python `str.upper()` on each character. -/
def pyUpper (s : List Char) : List Char := s.map Char.toUpper

/-- Value of a digit string, as computed by Python `int`. -/
def digitsVal (l : List Char) : Nat := l.foldl (fun a c => a * 10 + (c.toNat - 48)) 0

/-- Scanning loop of `parse_pattern_with_gaps`: a maximal ACGTN run becomes a
literal token; a maximal run of dots becomes a gap of the run length; a brace
expression becomes a gap whose length is the integer value of the brace body
(an unterminated brace, or a body Python `int` rejects, raises `ValueError`;
`int` is modelled on nonempty digit strings, narrower than Python, which also
accepts surrounding-whitespace, sign and digit-underscore forms: on such a
body the model raises where Python parses a gap, so the theorems below assert
a successful parse only for brace-free patterns, and a definite error only
where Python raises as well - an unterminated brace, or the empty brace
body); the bare-N branch of
the source is kept although the first branch already consumes every N; any
other character is skipped.  The fuel argument bounds the number of scanning
steps; since every step consumes at least one character, the length of the
input (the value every caller passes) always suffices, so the fuel-exhausted
branch is unreachable. -/
def parseLoop : Nat → List Char → Except String (List Tok)
  | _, [] => Except.ok []
  | 0, _ :: _ => Except.error "fuel exhausted"
  | fuel + 1, c :: cs =>
    if c ∈ ALPHABET then
      (parseLoop fuel (cs.dropWhile (· ∈ ALPHABET))).map
        (fun ts => Tok.seq (c :: cs.takeWhile (· ∈ ALPHABET)) :: ts)
    else if c = '.' then
      (parseLoop fuel (cs.dropWhile (· = '.'))).map
        (fun ts => Tok.gap ((cs.takeWhile (· = '.')).length + 1) :: ts)
    else if c = '\x7b' then
      match cs.dropWhile (· ≠ '\x7d') with
      | [] => Except.error "Bad pattern brace"
      | _ :: rest =>
        let body := cs.takeWhile (· ≠ '\x7d')
        if body ≠ [] ∧ body.all Char.isDigit then
          (parseLoop fuel rest).map (fun ts => Tok.gap (digitsVal body) :: ts)
        else Except.error "invalid literal for int"
    else if c = 'N' then
      (parseLoop fuel cs).map (fun ts => Tok.gap 1 :: ts)
    else
      parseLoop fuel cs

/-- Function `parse_pattern_with_gaps` of `aho_gapped.py`: normalise with
`strip` and `upper`, then tokenize. -/
def parse_pattern_with_gaps (pat : List Char) : Except String (List Tok) :=
  parseLoop (pyUpper (pyStrip pat)).length (pyUpper (pyStrip pat))

/-- Span of one token inside its pattern (literal length or gap length). -/
def tokSpan : Tok → Nat
  | Tok.seq s => s.length
  | Tok.gap n => n

/-- Function `build_seeds_from_pattern` of `aho_gapped.py`: emit every
literal token of length at least `min_seed_len` paired with its running
offset from the start of the pattern; gaps only advance the offset. -/
def build_seeds_from_pattern (tokens : List Tok) (min_seed_len : Nat) :
    List (List Char × Nat) :=
  (tokens.foldl (fun (acc : List (List Char × Nat) × Nat) t =>
    match t with
    | Tok.seq v =>
      (if min_seed_len ≤ v.length then acc.1 ++ [(v, acc.2)] else acc.1, acc.2 + v.length)
    | Tok.gap n => (acc.1, acc.2 + n)) ([], 0)).1

/-- Seed metadata stored by `search_with_gaps` when inserting a seed:
the dictionary with keys offset and seed_len. -/
structure SeedMeta where
  offset : Nat
  seed_len : Nat
  deriving Repr, DecidableEq

/-- Total span of a pattern: the sum in `search_with_gaps` computing
`total_len` over the token list. -/
def patternSpan (toks : List Tok) : Nat := (toks.map tokSpan).sum

/-- Seed insertions performed by `search_with_gaps` for one pattern: the
extracted seeds when there are any, otherwise the first nonempty literal
token with offset 0 (the fallback loop of the source). -/
def gapInserts (toks : List Tok) (min_seed_len : Nat) : List (List Char × SeedMeta) :=
  let seeds := build_seeds_from_pattern toks min_seed_len
  if seeds = [] then
    match toks.find? (fun t => match t with | Tok.seq v => !v.isEmpty | Tok.gap _ => false) with
    | some (Tok.seq v) => [(v, ⟨0, v.length⟩)]
    | some (Tok.gap _) => []
    | none => []
  else seeds.map (fun sv => (sv.1, ⟨sv.2, sv.1.length⟩))

/-- Enumeration `for pid, pat in enumerate(patterns)`. -/
def enumFrom : Nat → List β → List (Nat × β)
  | _, [] => []
  | i, b :: bs => (i, b) :: enumFrom (i + 1) bs

/-- Run `parse_pattern_with_gaps` on each pattern in order; the first
`ValueError` aborts the whole preparation, as in the source loop. -/
def parseAll : List (List Char) → Except String (List (List Tok))
  | [] => Except.ok []
  | p :: ps => do
    let t ← parse_pattern_with_gaps p
    let ts ← parseAll ps
    Except.ok (t :: ts)

/-- The automaton `search_with_gaps` builds: all seed insertions of all
patterns, each carrying `(pid, meta)`, followed by `build`. -/
def gapAutomaton (toksList : List (List Tok)) (min_seed_len : Nat) :
    AhoCorasick (Nat × SeedMeta) :=
  ((enumFrom 0 toksList).foldl (fun ac pt =>
    (gapInserts pt.2 min_seed_len).foldl (fun ac2 sm => ac2.add sm.1 (pt.1, sm.2)) ac)
    AhoCorasick.init).build

/-- Anchored replay of a token list against the text (the verification loop
of `search_with_gaps`): each literal token must equal the corresponding text
slice, each gap advances the cursor. -/
def verifyTokens (text : List Char) : Nat → List Tok → Bool
  | _, [] => true
  | tpos, Tok.seq v :: ts =>
    if (text.drop tpos).take v.length = v then verifyTokens text (tpos + v.length) ts
    else false
  | tpos, Tok.gap n :: ts => verifyTokens text (tpos + n) ts

/-- Append of `matches_by_pat[pid].append(interval)` on a `defaultdict(list)`
modelled as an association list in key-creation order. -/
def addMatch : List (Nat × List (Int × Int)) → Nat → Int × Int → List (Nat × List (Int × Int))
  | [], pid, iv => [(pid, [iv])]
  | (k, l) :: rest, pid, iv =>
    if k = pid then (k, l ++ [iv]) :: rest else (k, l) :: addMatch rest pid iv

/-- Processing of one seed hit inside `search_with_gaps`: anchor arithmetic,
bounds guard, token replay, and recording of the match interval. -/
def gapHitStep (text : List Char) (metaList : List (List Tok × Nat))
    (acc : List (Nat × List (Int × Int))) (h : Nat × (Nat × SeedMeta)) :
    List (Nat × List (Int × Int)) :=
  let pm := metaList.getD h.2.1 ([], 0)
  let pattern_start : Int := (h.1 : Int) - ((h.2.2.seed_len : Int) - 1) - (h.2.2.offset : Int)
  let pattern_end : Int := pattern_start + (pm.2 : Int)
  if pattern_start < 0 ∨ (text.length : Int) < pattern_end then acc
  else if verifyTokens text pattern_start.toNat pm.1 then
    addMatch acc h.2.1 (pattern_start, pattern_end)
  else acc

/-- Function `search_with_gaps` of `aho_gapped.py`: parse every pattern,
build the seed automaton, stream the text through `search_generator`, and
verify every seed hit by anchored replay, grouping the surviving intervals
by pattern index. -/
def search_with_gaps (text : List Char) (patterns : List (List Char)) (min_seed_len : Nat) :
    Except String (List (Nat × List (Int × Int))) := do
  let toksList ← parseAll patterns
  let metaList := toksList.map (fun t => (t, patternSpan t))
  let ac := gapAutomaton toksList min_seed_len
  Except.ok ((ac.search_generator text).foldl (gapHitStep text metaList) [])

/-- Fold `add` over a list of (pattern, identifier) pairs, starting from a
fresh automaton: the insertion phase of every use of the exact matcher. -/
def addAll (pats : List (List Char × α)) : AhoCorasick α :=
  pats.foldl (fun ac pr => ac.add pr.1 pr.2) AhoCorasick.init

/-- Insert all patterns, then build: the build-then-freeze discipline of the
specification. -/
def buildFrom (pats : List (List Char × α)) : AhoCorasick α := (addAll pats).build

/-- Reference brute-force count from the specification: the number of pairs
(position, pattern entry) such that the pattern occurs as a contiguous
substring of the text ending at that position. -/
def bruteCount (pats : List (List Char × α)) (text : List Char) : Nat :=
  ((List.range text.length).map
    (fun i => (pats.filter (fun pr => pr.1.isSuffixOf (text.take (i + 1)))).length)).sum

/-- Trie membership: `s` is a prefix of some inserted pattern (the set of
node strings of the trie, the empty string excepted). -/
def inTrie (pats : List (List Char × α)) (s : List Char) : Bool :=
  pats.any (fun pr => s.isPrefixOf pr.1)

/-- Longest suffix of `w` that is a node string of the trie (the empty
string if none): the state abstraction of the scanner. -/
def sigma (pats : List (List Char × α)) : List Char → List Char
  | [] => []
  | c :: rest => if inTrie pats (c :: rest) then c :: rest else sigma pats rest

/-- Longest proper suffix of `s` that is a node string of the trie: the
specification of the failure link of the node reached by `s`. -/
def border (pats : List (List Char × α)) (s : List Char) : List Char :=
  sigma pats (s.drop 1)

/-- Identifiers inserted exactly at the node reached by `s`, in insertion
order: the direct output list a node holds before `build` propagates. -/
def directOuts (pats : List (List Char × α)) (s : List Char) : List α :=
  (pats.filter (fun pr => pr.1 = s)).map Prod.snd

/-- Output list of the node reached by `s` after `build`: its direct outputs
followed by the final output list of its failure target.  Nodes at depth one
receive no propagation (their failure link is seeded without an output
append, exactly as in the source). -/
def outChain (pats : List (List Char × α)) (s : List Char) : List α :=
  if s.length ≤ 1 then directOuts pats s
  else directOuts pats s ++ outChain pats (border pats s)
  termination_by s.length
  decreasing_by
    have hb : ∀ w : List Char, (sigma pats w).length ≤ w.length := by
      intro w
      induction w with
      | nil => simp [sigma]
      | cons c cs ih =>
        rw [sigma]
        split
        · exact Nat.le_refl _
        · exact Nat.le_succ_of_le ih
    have h1 : (border pats s).length ≤ (s.drop 1).length := hb (s.drop 1)
    have h2 : (s.drop 1).length < s.length := by
      cases s with
      | nil => simp_all
      | cons c cs => simp
    exact Nat.lt_of_le_of_lt h1 h2

/-- Maximal suffix of `w` made only of alphabet symbols: everything before
the last out-of-alphabet symbol is invisible to the scanner state. -/
def cleanSuffix (w : List Char) : List Char :=
  (w.reverse.takeWhile (· ∈ ALPHABET)).reverse

/-- Descend the trie transitions from node `v` along `s`. -/
def reach (ns : List (Node α)) : Nat → List Char → Option Nat
  | v, [] => some v
  | v, c :: cs =>
    match lookupChild (nodeAt ns v).next c with
    | some u => reach ns u cs
    | none => none

/-- Running offset of the token at position `i` from the start of the
pattern: the sum of the spans of the earlier tokens. -/
def offsetBefore (toks : List Tok) (i : Nat) : Nat := ((toks.take i).map tokSpan).sum

/-- Match list of one pattern index in a `search_with_gaps` result. -/
def matchesFor (res : List (Nat × List (Int × Int))) (pid : Nat) : List (Int × Int) :=
  ((res.find? (fun pr => pr.1 = pid)).map Prod.snd).getD []

/-- Spec-side reading of claim C5: the string contains an opening brace with
no closing brace anywhere after it. -/
def hasUntermBrace : List Char → Bool
  | [] => false
  | c :: cs => (decide (c = '\x7b' ∧ '\x7d' ∉ cs)) || hasUntermBrace cs

/-- Walk of the failure chain at string level: starting from a node string
`t`, follow borders until a node with a transition on `c` exists (or the
root is reached): the specification of `failWalk` on a built automaton. -/
def failWalkStr (pats : List (List Char × α)) (t : List Char) (c : Char) : List Char :=
  if inTrie pats (t ++ [c]) then t
  else if t = [] then []
  else failWalkStr pats (border pats t) c
  termination_by t.length
  decreasing_by
    have hb : ∀ w : List Char, (sigma pats w).length ≤ w.length := by
      intro w
      induction w with
      | nil => simp [sigma]
      | cons x xs ih =>
        rw [sigma]
        split
        · exact Nat.le_refl _
        · exact Nat.le_succ_of_le ih
    have h1 : (border pats t).length ≤ (t.drop 1).length := hb (t.drop 1)
    have h2 : (t.drop 1).length < t.length := by
      cases t with
      | nil => simp_all
      | cons x xs => simp
    exact Nat.lt_of_le_of_lt h1 h2

/-- The goto step at string level: the walk followed by the transition when
it exists, the empty string (root) otherwise. -/
def gotoStr (pats : List (List Char × α)) (t : List Char) (c : Char) : List Char :=
  if inTrie pats (failWalkStr pats t c ++ [c]) then failWalkStr pats t c ++ [c] else []

/-- String-level model of the generator scan: the state is the current node
string (always a sigma-fixed string), reset to the root string on an
out-of-alphabet symbol. -/
def sgSpec (pats : List (List Char × α)) : List Char → Nat → List Char → List (Nat × α)
  | _, _, [] => []
  | t, idx, c :: rest =>
    if c ∈ ALPHABET then
      (outChain pats (sigma pats (t ++ [c]))).map (fun o => (idx, o)) ++
        sgSpec pats (sigma pats (t ++ [c])) (idx + 1) rest
    else sgSpec pats [] (idx + 1) rest

/-- Optional interval one seed hit contributes in `search_with_gaps`: the
anchored interval when the bounds guard and the token replay both pass. -/
def hitInterval (text : List Char) (metaList : List (List Tok × Nat))
    (h : Nat × (Nat × SeedMeta)) : Option (Int × Int) :=
  let pm := metaList.getD h.2.1 ([], 0)
  let pattern_start : Int := (h.1 : Int) - ((h.2.2.seed_len : Int) - 1) - (h.2.2.offset : Int)
  let pattern_end : Int := pattern_start + (pm.2 : Int)
  if pattern_start < 0 ∨ (text.length : Int) < pattern_end then none
  else if verifyTokens text pattern_start.toNat pm.1 then some (pattern_start, pattern_end)
  else none

/-- Structural well-formedness of a node arena: a rooted trie in which every
node is reached by exactly one string, transition keys are unique per node,
and every transition stays inside the arena. -/
structure ArenaInv (ns : List (Node α)) : Prop where
  root_lt : 0 < ns.length
  inj : ∀ s t v, reach ns 0 s = some v → reach ns 0 t = some v → s = t
  surj : ∀ v, v < ns.length → ∃ s, reach ns 0 s = some v
  keys_nodup : ∀ v, ((nodeAt ns v).next.map Prod.fst).Nodup
  edge_lt : ∀ v, ∀ pr ∈ (nodeAt ns v).next, pr.2 < ns.length

/-- The trie of an arena recognises exactly the prefixes of the inserted
patterns (and the empty string at the root). -/
def trieDom (pats : List (List Char × α)) (ns : List (Node α)) : Prop :=
  ∀ s, (reach ns 0 s).isSome ↔ (s = [] ∨ inTrie pats s = true)

/-- The output list of each node before build holds exactly the identifiers
inserted at its string, in insertion order. -/
def trieOut (pats : List (List Char × α)) (ns : List (Node α)) : Prop :=
  ∀ s v, reach ns 0 s = some v → (nodeAt ns v).out = directOuts pats s

/-- A node carries its final built values: its failure link is the node of
the border of its string, and its output list is the propagated chain. -/
def FinalAt (pats : List (List Char × α)) (ns0 ns : List (Node α))
    (s : List Char) (v : Nat) : Prop :=
  (∃ bv, reach ns0 0 (border pats s) = some bv ∧ (nodeAt ns v).fail = bv) ∧
  (nodeAt ns v).out = outChain pats s

/-- A string is a node of the trie: the root for the empty string, a proper
node otherwise. -/
def trieNode (pats : List (List Char × α)) (s : List Char) : Prop :=
  s = [] ∨ inTrie pats s = true

/-- Invariant of the breadth-first loop of `build` at a loop boundary.
`ns0` is the arena as the insertion phase left it, `ns` the current arena,
`d` the frontier depth, `A` the node strings of depth `d` still queued (in
queue order), `B` the node strings of depth `d+1` enqueued so far, `C` the
node strings not yet reached by the traversal, and `q` the queue. -/
structure BuildInv (pats : List (List Char × α)) (ns0 ns : List (Node α))
    (d : Nat) (A B C : List (List Char)) (q : List Nat) : Prop where
  next_eq : ∀ v, (nodeAt ns v).next = (nodeAt ns0 v).next
  len_eq : ns.length = ns0.length
  queue : List.Forall₂ (fun s v => reach ns0 0 s = some v) (A ++ B) q
  lenA : ∀ s ∈ A, s.length = d ∧ inTrie pats s = true
  lenB : ∀ s ∈ B, s.length = d + 1 ∧ inTrie pats s = true
  dpos : 1 ≤ d
  nodupA : A.Nodup
  nodupB : B.Nodup
  nodupC : C.Nodup
  final_low : ∀ s v, reach ns0 0 s = some v → s.length ≤ d →
    FinalAt pats ns0 ns s v
  final_B : ∀ s ∈ B, ∀ v, reach ns0 0 s = some v → FinalAt pats ns0 ns s v
  out_rest : ∀ s v, reach ns0 0 s = some v → d < s.length → s ∉ B →
    (nodeAt ns v).out = (nodeAt ns0 v).out
  covered : ∀ s, inTrie pats s = true → s.length = d + 1 →
    s ∈ B ∨ s.dropLast ∈ A
  memC : ∀ s, s ∈ C ↔ (inTrie pats s = true ∧ d + 1 ≤ s.length ∧ s ∉ B)
  disjAB : ∀ s ∈ A, ∀ c : Char, s ++ [c] ∉ B

/-- Invariant holding inside the fold over the children of the dequeued
node `sr` during one iteration of the breadth-first loop: `pend` is the
list of child edges not yet handled and `A` no longer contains `sr`. -/
structure MidInv (pats : List (List Char × α)) (ns0 ns : List (Node α))
    (d : Nat) (sr : List Char) (A B C : List (List Char))
    (pend : List (Char × Nat)) (q : List Nat) : Prop where
  next_eq : ∀ v, (nodeAt ns v).next = (nodeAt ns0 v).next
  len_eq : ns.length = ns0.length
  queue : List.Forall₂ (fun s v => reach ns0 0 s = some v) (A ++ B) q
  lenA : ∀ s ∈ A, s.length = d ∧ inTrie pats s = true
  lenB : ∀ s ∈ B, s.length = d + 1 ∧ inTrie pats s = true
  dpos : 1 ≤ d
  nodupA : A.Nodup
  nodupB : B.Nodup
  nodupC : C.Nodup
  final_low : ∀ s v, reach ns0 0 s = some v → s.length ≤ d →
    FinalAt pats ns0 ns s v
  final_B : ∀ s ∈ B, ∀ v, reach ns0 0 s = some v → FinalAt pats ns0 ns s v
  out_rest : ∀ s v, reach ns0 0 s = some v → d < s.length → s ∉ B →
    (nodeAt ns v).out = (nodeAt ns0 v).out
  covered : ∀ s, inTrie pats s = true → s.length = d + 1 →
    s ∈ B ∨ s.dropLast ∈ A ∨ ∃ e ∈ pend, s = sr ++ [e.1]
  memC : ∀ s, s ∈ C ↔ (inTrie pats s = true ∧ d + 1 ≤ s.length ∧ s ∉ B)
  disjAB : ∀ s ∈ A, ∀ c : Char, s ++ [c] ∉ B
  srA : sr ∉ A
  srlen : sr.length = d
  pendB : ∀ e ∈ pend, sr ++ [e.1] ∉ B

/-- The count-only scan equals the hit list length added to the running
total (the hit list being exactly what `search_generator` yields). -/
lemma searchLoop_none_eq (ns : List (Node α)) :
    ∀ (text : List Char) (node total idx : Nat),
      searchLoop ns node total none idx text =
        (total + (sgLoop ns node idx text).length, none) := by
  intro text
  induction text with
  | nil => intro node total idx; simp [searchLoop, sgLoop]
  | cons c rest ih =>
    intro node total idx
    by_cases hc : c ∈ ALPHABET
    · simp only [searchLoop, sgLoop, if_pos hc]
      rw [ih]
      simp [Nat.add_assoc]
    · simp only [searchLoop, sgLoop, if_neg hc]
      exact ih 0 total (idx + 1)

/-- The recording scan returns the same total and appends exactly the
`search_generator` hit list to the accumulator. -/
lemma searchLoop_some_eq (ns : List (Node α)) :
    ∀ (text : List Char) (node total idx : Nat) (acc : List (Nat × α)),
      searchLoop ns node total (some acc) idx text =
        (total + (sgLoop ns node idx text).length, some (acc ++ sgLoop ns node idx text)) := by
  intro text
  induction text with
  | nil => intro node total idx acc; simp [searchLoop, sgLoop]
  | cons c rest ih =>
    intro node total idx acc
    by_cases hc : c ∈ ALPHABET
    · simp only [searchLoop, sgLoop, if_pos hc]
      rw [ih]
      simp [Nat.add_assoc]
    · simp only [searchLoop, sgLoop, if_neg hc]
      exact ih 0 total (idx + 1) acc

/-- Every hit is yielded at or after the position the scan starts from. -/
lemma sgLoop_idx_le (ns : List (Node α)) :
    ∀ (text : List Char) (node idx : Nat), ∀ pr ∈ sgLoop ns node idx text, idx ≤ pr.1 := by
  intro text
  induction text with
  | nil => intro node idx pr h; simp [sgLoop] at h
  | cons c rest ih =>
    intro node idx pr h
    by_cases hc : c ∈ ALPHABET
    · simp only [sgLoop, if_pos hc, List.mem_append, List.mem_map] at h
      rcases h with ⟨o, _, rfl⟩ | h
      · exact Nat.le_refl idx
      · exact Nat.le_of_succ_le (ih _ (idx + 1) pr h)
    · simp only [sgLoop, if_neg hc] at h
      exact Nat.le_of_succ_le (ih 0 (idx + 1) pr h)

/-- Hit positions are emitted in non-decreasing order. -/
lemma sgLoop_pairwise (ns : List (Node α)) :
    ∀ (text : List Char) (node idx : Nat),
      List.Pairwise (fun a b : Nat × α => a.1 ≤ b.1) (sgLoop ns node idx text) := by
  intro text
  induction text with
  | nil => intro node idx; simp [sgLoop]
  | cons c rest ih =>
    intro node idx
    by_cases hc : c ∈ ALPHABET
    · simp only [sgLoop, if_pos hc]
      refine List.pairwise_append.mpr ⟨?_, ih _ (idx + 1), ?_⟩
      · refine List.pairwise_map.mpr ?_
        exact List.pairwise_of_forall (fun _ _ => Nat.le_refl idx)
      · intro a ha b hb
        rcases List.mem_map.mp ha with ⟨o, _, rfl⟩
        exact Nat.le_of_succ_le (sgLoop_idx_le ns rest _ (idx + 1) b hb)
    · simp only [sgLoop, if_neg hc]
      exact ih 0 (idx + 1)

/-- Claim C10: for every built automaton and every text, the detailed search
returns a pair whose total equals the length of the match list, the match
positions are non-decreasing (left-to-right scan order), and the total
agrees with the count-only search on the same text. -/
theorem c10_search_detailed_consistent (ac : AhoCorasick α) (text : List Char) :
    ∃ ms : List (Nat × α),
      ac.search text true = (ms.length, some ms) ∧
      List.Pairwise (fun a b : Nat × α => a.1 ≤ b.1) ms ∧
      (ac.search text false).1 = ms.length := by
  refine ⟨sgLoop ac.nodes 0 0 text, ?_, ?_, ?_⟩
  · show searchLoop ac.nodes 0 0 (if true then some [] else none) 0 text = _
    rw [if_pos rfl, searchLoop_some_eq]
    simp
  · exact sgLoop_pairwise ac.nodes text 0 0
  · show (searchLoop ac.nodes 0 0 (if false then some [] else none) 0 text).1 = _
    rw [if_neg (by simp), searchLoop_none_eq]
    simp

/-- Claim C9: search_with_gaps on text ACXGT with the single gapped pattern
AC.GT and minimum seed length 2 reports the interval (0, 5) for pattern
index 0 — the one-symbol gap skips the out-of-alphabet X during anchored
replay and both literal tokens match their text slices (each of the two
seeds anchors the same interval, so it is recorded once per seed hit). -/
theorem c9_gap_scenario_interval :
    search_with_gaps "ACXGT".toList ["AC.GT".toList] 2 =
      Except.ok [(0, [((0 : Int), (5 : Int)), (0, 5)])] ∧
    ((0 : Int), (5 : Int)) ∈ matchesFor [(0, [((0 : Int), (5 : Int)), (0, 5)])] 0 := by
  exact ⟨rfl, by decide⟩

/-- Claim C2 counterexample: the pattern AXC contains no gap token (its token
list is two literal runs, the X being silently skipped by the parser), yet on
text AC the gapped search reports the interval (0, 2) for pattern 0 while the
exact Scanner over the same pattern list reports no match at all, so the
claimed equivalence fails at end position 2. -/
theorem c2_counterexample :
    parse_pattern_with_gaps "AXC".toList =
      Except.ok [Tok.seq ['A'], Tok.seq ['C']] ∧
    search_with_gaps "AC".toList ["AXC".toList] 3 =
      Except.ok [(0, [((0 : Int), (2 : Int))])] ∧
    ((buildFrom [("AXC".toList, 0)]).search "AC".toList true).2 = some [] := by
  exact ⟨rfl, rfl, by decide⟩

/-- Claim C7 counterexample: insert the empty pattern (identifier 0) and the
pattern A (identifier 1); after build the node reached by A has output list
[1], but its direct outputs followed by the full output list of its failure
target (the root, whose output list is [0]) would be [1, 0] — depth-one
nodes never inherit the root output list, so the claimed equation fails. -/
theorem c7_counterexample :
    (nodeAt (buildFrom [(([] : List Char), 0), (['A'], 1)]).nodes 1).out = [1] ∧
    (nodeAt (addAll [(([] : List Char), 0), (['A'], 1)]).nodes 1).out ++
      (nodeAt (buildFrom [(([] : List Char), 0), (['A'], 1)]).nodes
        (nodeAt (buildFrom [(([] : List Char), 0), (['A'], 1)]).nodes 1).fail).out = [1, 0] ∧
    ([1] : List Nat) ≠ [1, 0] := by
  exact ⟨by decide, by decide, by decide⟩

/-- Claim C6: a symbol outside the alphabet forces the scanner state to the
root and advances the position without consulting any transition or failure
link and without recording a match — the remaining scan is independent of
the in-progress state; consequently text ACXGT against pattern ACGT yields
zero matches, the X breaking the would-be literal run. -/
theorem c6_out_of_alphabet_reset {α : Type} :
    (∀ x : Char, x ∉ ALPHABET →
      ∀ (ns : List (Node α)) (node total idx : Nat) (ms : Option (List (Nat × α)))
        (suf : List Char),
        searchLoop ns node total ms idx (x :: suf) = searchLoop ns 0 total ms (idx + 1) suf) ∧
    ((buildFrom [("ACGT".toList, 0)]).search "ACXGT".toList false).1 = 0 := by
  constructor
  · intro x hx ns node total idx ms suf
    simp [searchLoop, hx]
  · decide

/-- Witness for C6: instantiating the reset property at the out-of-alphabet
symbol X with a nontrivial in-progress state. -/
theorem c6_out_of_alphabet_reset_witness :
    ('X' ∉ ALPHABET) ∧
    searchLoop ([] : List (Node Nat)) 5 7 none 3 ['X', 'A'] =
      searchLoop ([] : List (Node Nat)) 0 7 none 4 ['A'] :=
  ⟨by decide, c6_out_of_alphabet_reset.1 'X' (by decide) [] 5 7 3 none ['A']⟩

/-- The head surviving a dropWhile falsifies the predicate. -/
lemma dropWhile_head_false {p : Char → Bool} :
    ∀ {l : List Char} {c : Char} {rest : List Char},
      l.dropWhile p = c :: rest → p c = false := by
  intro l
  induction l with
  | nil => intro c rest h; simp [List.dropWhile] at h
  | cons a as ih =>
    intro c rest h
    by_cases hp : p a
    · rw [List.dropWhile_cons_of_pos hp] at h
      exact ih h
    · rw [List.dropWhile_cons_of_neg hp] at h
      cases h
      simpa using hp

/-- An unterminated brace survives the removal of a run: dropping a run of
characters none of which is an opening brace preserves the defect. -/
lemma hasUnterm_dropWhile {p : Char → Bool} (hp : ∀ x, p x = true → x ≠ '\x7b') :
    ∀ l : List Char, hasUntermBrace l = true → hasUntermBrace (l.dropWhile p) = true := by
  intro l
  induction l with
  | nil => simp [hasUntermBrace]
  | cons c cs ih =>
    intro h
    by_cases hpc : p c
    · rw [List.dropWhile_cons_of_pos hpc]
      apply ih
      have hc : c ≠ '\x7b' := hp c hpc
      simp only [hasUntermBrace, Bool.or_eq_true, decide_eq_true_eq] at h
      rcases h with ⟨h1, _⟩ | h
      · exact absurd h1 hc
      · exact h
    · rwa [List.dropWhile_cons_of_neg hpc]

/-- An unterminated brace located after a closing brace is an unterminated
brace of the remainder. -/
lemma hasUnterm_after_close : ∀ (xs rest : List Char),
    hasUntermBrace (xs ++ '\x7d' :: rest) = true → hasUntermBrace rest = true := by
  intro xs
  induction xs with
  | nil =>
    intro rest h
    simp only [List.nil_append, hasUntermBrace, Bool.or_eq_true, decide_eq_true_eq] at h
    rcases h with ⟨h1, _⟩ | h
    · exact absurd h1 (by decide)
    · exact h
  | cons a as ih =>
    intro rest h
    simp only [List.cons_append, hasUntermBrace, Bool.or_eq_true, decide_eq_true_eq] at h
    rcases h with ⟨_, h2⟩ | h
    · exact absurd (by simp : '\x7d' ∈ as ++ '\x7d' :: rest) h2
    · exact ih rest h

/-- Definitional unfolding of one parsing step, stated with the branch
structure of the source. -/
lemma parseLoop_succ_cons (fuel : Nat) (c : Char) (cs : List Char) :
    parseLoop (fuel + 1) (c :: cs) =
      if c ∈ ALPHABET then
        (parseLoop fuel (cs.dropWhile (· ∈ ALPHABET))).map
          (fun ts => Tok.seq (c :: cs.takeWhile (· ∈ ALPHABET)) :: ts)
      else if c = '.' then
        (parseLoop fuel (cs.dropWhile (· = '.'))).map
          (fun ts => Tok.gap ((cs.takeWhile (· = '.')).length + 1) :: ts)
      else if c = '\x7b' then
        match cs.dropWhile (· ≠ '\x7d') with
        | [] => Except.error "Bad pattern brace"
        | _ :: rest =>
          if cs.takeWhile (· ≠ '\x7d') ≠ [] ∧ (cs.takeWhile (· ≠ '\x7d')).all Char.isDigit then
            (parseLoop fuel rest).map
              (fun ts => Tok.gap (digitsVal (cs.takeWhile (· ≠ '\x7d'))) :: ts)
          else Except.error "invalid literal for int"
      else if c = 'N' then
        (parseLoop fuel cs).map (fun ts => Tok.gap 1 :: ts)
      else parseLoop fuel cs := rfl

/-- A pattern with no opening brace tokenizes without error (whatever the
fuel, provided it covers the input length). -/
lemma parseLoop_ok_of_no_brace :
    ∀ (fuel : Nat) (l : List Char), l.length ≤ fuel → '\x7b' ∉ l →
      ∃ ts, parseLoop fuel l = Except.ok ts := by
  intro fuel
  induction fuel with
  | zero =>
    intro l hl _
    have : l = [] := List.eq_nil_of_length_eq_zero (Nat.le_zero.mp hl)
    subst this
    exact ⟨[], rfl⟩
  | succ fuel ih =>
    intro l hl hbr
    cases l with
    | nil => exact ⟨[], rfl⟩
    | cons c cs =>
      have hcs : cs.length ≤ fuel := Nat.le_of_succ_le_succ hl
      have hbc : c ≠ '\x7b' := fun h => hbr (h ▸ List.mem_cons_self c cs)
      have hbcs : '\x7b' ∉ cs := fun h => hbr (List.mem_cons_of_mem c h)
      rw [parseLoop_succ_cons]
      by_cases hc : c ∈ ALPHABET
      · rw [if_pos hc]
        obtain ⟨ts, hts⟩ := ih (cs.dropWhile (· ∈ ALPHABET))
          (Nat.le_trans (List.dropWhile_suffix _).length_le hcs)
          (fun h => hbcs ((List.dropWhile_suffix _).subset h))
        exact ⟨_, by rw [hts]; rfl⟩
      · rw [if_neg hc]
        by_cases hdot : c = '.'
        · rw [if_pos hdot]
          obtain ⟨ts, hts⟩ := ih (cs.dropWhile (· = '.'))
            (Nat.le_trans (List.dropWhile_suffix _).length_le hcs)
            (fun h => hbcs ((List.dropWhile_suffix _).subset h))
          exact ⟨_, by rw [hts]; rfl⟩
        · rw [if_neg hdot, if_neg hbc]
          by_cases hN : c = 'N'
          · exact absurd (by simp [hN, ALPHABET]) hc
          · rw [if_neg hN]
            exact ih cs hcs hbcs

/-- A pattern with neither dot nor opening brace tokenizes without error and
produces literal tokens only: in particular the bare-N branch never fires,
N being consumed by the literal-run branch. -/
lemma parseLoop_seq_only :
    ∀ (fuel : Nat) (l : List Char), l.length ≤ fuel → '.' ∉ l → '\x7b' ∉ l →
      ∃ ts, parseLoop fuel l = Except.ok ts ∧ ∀ t ∈ ts, ∃ s, t = Tok.seq s := by
  intro fuel
  induction fuel with
  | zero =>
    intro l hl _ _
    have : l = [] := List.eq_nil_of_length_eq_zero (Nat.le_zero.mp hl)
    subst this
    exact ⟨[], rfl, by simp⟩
  | succ fuel ih =>
    intro l hl hdot hbr
    cases l with
    | nil => exact ⟨[], rfl, by simp⟩
    | cons c cs =>
      have hcs : cs.length ≤ fuel := Nat.le_of_succ_le_succ hl
      have hbc : c ≠ '\x7b' := fun h => hbr (h ▸ List.mem_cons_self c cs)
      have hdc : c ≠ '.' := fun h => hdot (h ▸ List.mem_cons_self c cs)
      have hbcs : '\x7b' ∉ cs := fun h => hbr (List.mem_cons_of_mem c h)
      have hdcs : '.' ∉ cs := fun h => hdot (List.mem_cons_of_mem c h)
      rw [parseLoop_succ_cons]
      by_cases hc : c ∈ ALPHABET
      · rw [if_pos hc]
        obtain ⟨ts, hts, hseq⟩ := ih (cs.dropWhile (· ∈ ALPHABET))
          (Nat.le_trans (List.dropWhile_suffix _).length_le hcs)
          (fun h => hdcs ((List.dropWhile_suffix _).subset h))
          (fun h => hbcs ((List.dropWhile_suffix _).subset h))
        refine ⟨_, by rw [hts]; rfl, ?_⟩
        intro t ht
        rcases List.mem_cons.mp ht with rfl | ht
        · exact ⟨_, rfl⟩
        · exact hseq t ht
      · rw [if_neg hc]
        by_cases hN : c = 'N'
        · exact absurd (by simp [hN, ALPHABET]) hc
        · rw [if_neg hdc, if_neg hbc, if_neg hN]
          exact ih cs hcs hdcs hbcs

/-- A pattern containing an unterminated opening brace always raises. -/
lemma parseLoop_error_of_unterm :
    ∀ (fuel : Nat) (l : List Char), l.length ≤ fuel → hasUntermBrace l = true →
      ∃ msg, parseLoop fuel l = Except.error msg := by
  intro fuel
  induction fuel with
  | zero =>
    intro l hl hu
    have : l = [] := List.eq_nil_of_length_eq_zero (Nat.le_zero.mp hl)
    subst this
    simp [hasUntermBrace] at hu
  | succ fuel ih =>
    intro l hl hu
    cases l with
    | nil => simp [hasUntermBrace] at hu
    | cons c cs =>
      have hcs : cs.length ≤ fuel := Nat.le_of_succ_le_succ hl
      rw [parseLoop_succ_cons]
      by_cases hc : c ∈ ALPHABET
      · rw [if_pos hc]
        have hbc : c ≠ '\x7b' := fun h => by subst h; exact absurd hc (by decide)
        have hucs : hasUntermBrace cs = true := by
          simp only [hasUntermBrace, Bool.or_eq_true, decide_eq_true_eq] at hu
          rcases hu with ⟨h1, _⟩ | hu
          · exact absurd h1 hbc
          · exact hu
        obtain ⟨msg, hmsg⟩ := ih (cs.dropWhile (· ∈ ALPHABET))
          (Nat.le_trans (List.dropWhile_suffix _).length_le hcs)
          (hasUnterm_dropWhile
            (fun x hx hxb => by subst hxb; exact absurd hx (by decide)) cs hucs)
        exact ⟨msg, by rw [hmsg]; rfl⟩
      · rw [if_neg hc]
        by_cases hdot : c = '.'
        · rw [if_pos hdot]
          have hucs : hasUntermBrace cs = true := by
            simp only [hasUntermBrace, Bool.or_eq_true, decide_eq_true_eq] at hu
            rcases hu with ⟨h1, _⟩ | hu
            · exact absurd h1 (by subst hdot; decide)
            · exact hu
          obtain ⟨msg, hmsg⟩ := ih (cs.dropWhile (· = '.'))
            (Nat.le_trans (List.dropWhile_suffix _).length_le hcs)
            (hasUnterm_dropWhile (fun x hx hxb => by subst hxb; simp at hx) cs hucs)
          exact ⟨msg, by rw [hmsg]; rfl⟩
        · rw [if_neg hdot]
          by_cases hbr : c = '\x7b'
          · rw [if_pos hbr]
            by_cases hcl : '\x7d' ∈ cs
            · cases hd : cs.dropWhile (· ≠ '\x7d') with
              | nil =>
                have hall := List.dropWhile_eq_nil_iff.mp hd
                have := hall '\x7d' hcl
                simp at this
              | cons d rest =>
                show ∃ msg,
                  (if cs.takeWhile (· ≠ '\x7d') ≠ [] ∧
                      (cs.takeWhile (· ≠ '\x7d')).all Char.isDigit then
                    (parseLoop fuel rest).map
                      (fun ts => Tok.gap (digitsVal (cs.takeWhile (· ≠ '\x7d'))) :: ts)
                  else Except.error "invalid literal for int") = Except.error msg
                have hdq : d = '\x7d' := by
                  have := dropWhile_head_false hd
                  simpa using this
                subst hdq
                have hcseq : cs = cs.takeWhile (· ≠ '\x7d') ++ '\x7d' :: rest := by
                  conv_lhs => rw [← List.takeWhile_append_dropWhile (p := (· ≠ '\x7d')) (l := cs)]
                  rw [hd]
                have hucs : hasUntermBrace cs = true := by
                  simp only [hasUntermBrace, Bool.or_eq_true, decide_eq_true_eq] at hu
                  rcases hu with ⟨_, h2⟩ | hu
                  · exact absurd hcl h2
                  · exact hu
                have hurest : hasUntermBrace rest = true := by
                  apply hasUnterm_after_close (cs.takeWhile (· ≠ '\x7d')) rest
                  rw [← hcseq]
                  exact hucs
                have hrlen : rest.length ≤ fuel := by
                  have hlen := congrArg List.length hcseq
                  simp only [List.length_append, List.length_cons] at hlen
                  omega
                by_cases hbody : cs.takeWhile (· ≠ '\x7d') ≠ [] ∧
                    (cs.takeWhile (· ≠ '\x7d')).all Char.isDigit
                · obtain ⟨msg, hmsg⟩ := ih rest hrlen hurest
                  rw [if_pos hbody, hmsg]
                  exact ⟨msg, rfl⟩
                · rw [if_neg hbody]
                  exact ⟨_, rfl⟩
            · have hd : cs.dropWhile (· ≠ '\x7d') = [] :=
                List.dropWhile_eq_nil_iff.mpr (fun x hx => by
                  simp only [ne_eq, decide_eq_true_eq]
                  exact fun hxx => hcl (hxx ▸ hx))
              rw [hd]
              exact ⟨_, rfl⟩
          · rw [if_neg hbr]
            have hucs : hasUntermBrace cs = true := by
              simp only [hasUntermBrace, Bool.or_eq_true, decide_eq_true_eq] at hu
              rcases hu with ⟨h1, _⟩ | hu
              · exact absurd h1 hbr
              · exact hu
            by_cases hN : c = 'N'
            · rw [if_pos hN]
              obtain ⟨msg, hmsg⟩ := ih cs hcs hucs
              exact ⟨msg, by rw [hmsg]; rfl⟩
            · rw [if_neg hN]
              exact ih cs hcs hucs

/-- Claim C3 counterexample: the pattern consisting of a single N parses to
one literal token, not to a gap token of length 1 — the bare-N branch of the
parser is unreachable because N belongs to the literal alphabet and is
consumed by the literal-run branch. -/
theorem c3_counterexample :
    parse_pattern_with_gaps "N".toList = Except.ok [Tok.seq ['N']] ∧
      Tok.seq ['N'] ≠ Tok.gap 1 :=
  ⟨rfl, by decide⟩

/-- Claim C3 amended: the Gap Pattern Parser never turns N into a gap token.
Any pattern whose normalised form contains no dot and no opening brace — in
particular any pattern made only of Ns — parses successfully into literal
tokens only, N included among the literal symbols, so the stated dual role
of N exists only in the dead bare-N branch. -/
theorem c3_bare_N_is_literal (pat : List Char)
    (hdot : '.' ∉ pyUpper (pyStrip pat)) (hbr : '\x7b' ∉ pyUpper (pyStrip pat)) :
    ∃ ts, parse_pattern_with_gaps pat = Except.ok ts ∧ ∀ t ∈ ts, ∃ s, t = Tok.seq s :=
  parseLoop_seq_only (pyUpper (pyStrip pat)).length (pyUpper (pyStrip pat))
    (Nat.le_refl _) hdot hbr

/-- Witness for C3: the all-N pattern NN satisfies the hypotheses, parses
without error and yields only literal tokens. -/
theorem c3_bare_N_is_literal_witness :
    ('.' ∉ pyUpper (pyStrip "NN".toList) ∧ '\x7b' ∉ pyUpper (pyStrip "NN".toList)) ∧
    (∃ ts, parse_pattern_with_gaps "NN".toList = Except.ok ts ∧
      ∀ t ∈ ts, ∃ s, t = Tok.seq s) :=
  ⟨⟨by decide, by decide⟩, c3_bare_N_is_literal "NN".toList (by decide) (by decide)⟩

/-- Claim C5 counterexample: the pattern consisting solely of an empty brace
pair has no opening brace lacking a closing brace, yet the parser raises —
Python `int` fails on the empty brace body — so a parse error does not imply
an unterminated brace and the claimed equivalence is false. -/
theorem c5_counterexample :
    hasUntermBrace (pyUpper (pyStrip "\x7b\x7d".toList)) = false ∧
      parse_pattern_with_gaps "\x7b\x7d".toList = Except.error "invalid literal for int" :=
  ⟨by decide, rfl⟩

/-- Claim C5 amended: the if direction of the claim holds — an opening
brace with no closing brace after it always raises, and a normalised
pattern containing no opening brace never raises — but the only-if
direction fails: a terminated brace can still raise through the `int`
conversion, as the empty brace body of the counterexample does; the
scenario pattern with the unterminated brace after AC raises as claimed.
Insertion, build and scanning are total and never raise. -/
theorem c5_parse_error_conditions :
    (∀ pat : List Char, hasUntermBrace (pyUpper (pyStrip pat)) = true →
      ∃ msg, parse_pattern_with_gaps pat = Except.error msg) ∧
    (∀ pat : List Char, '\x7b' ∉ pyUpper (pyStrip pat) →
      ∃ ts, parse_pattern_with_gaps pat = Except.ok ts) ∧
    parse_pattern_with_gaps "AC\x7b3".toList = Except.error "Bad pattern brace" ∧
    parse_pattern_with_gaps "\x7b\x7d".toList = Except.error "invalid literal for int" := by
  refine ⟨?_, ?_, rfl, rfl⟩
  · intro pat hu
    exact parseLoop_error_of_unterm (pyUpper (pyStrip pat)).length (pyUpper (pyStrip pat))
      (Nat.le_refl _) hu
  · intro pat hbr
    exact parseLoop_ok_of_no_brace (pyUpper (pyStrip pat)).length (pyUpper (pyStrip pat))
      (Nat.le_refl _) hbr

/-- Witness for C5: the unterminated pattern A-brace raises, and the
brace-free pattern ACGN parses successfully. -/
theorem c5_parse_error_conditions_witness :
    (hasUntermBrace (pyUpper (pyStrip "A\x7b".toList)) = true ∧
      ∃ msg, parse_pattern_with_gaps "A\x7b".toList = Except.error msg) ∧
    ('\x7b' ∉ pyUpper (pyStrip "ACGN".toList) ∧
      ∃ ts, parse_pattern_with_gaps "ACGN".toList = Except.ok ts) :=
  ⟨⟨by decide, c5_parse_error_conditions.1 "A\x7b".toList (by decide)⟩,
   ⟨by decide, c5_parse_error_conditions.2.1 "ACGN".toList (by decide)⟩⟩

/-- Reading an index that was just written. -/
lemma nodeAt_setNode_self {ns : List (Node α)} {v : Nat} (hv : v < ns.length) (n : Node α) :
    nodeAt (setNode ns v n) v = n := by
  simp [nodeAt, setNode, List.getD_eq_getElem?_getD, List.getElem?_set_self, hv]

/-- Reading an index other than the one written. -/
lemma nodeAt_setNode_ne {ns : List (Node α)} {v u : Nat} (h : u ≠ v) (n : Node α) :
    nodeAt (setNode ns v n) u = nodeAt ns u := by
  simp [nodeAt, setNode, List.getD_eq_getElem?_getD, List.getElem?_set_ne (Ne.symm h)]

/-- Out-of-range writes do nothing (as `List.set`). -/
lemma setNode_oob {ns : List (Node α)} {v : Nat} (hv : ns.length ≤ v) (n : Node α) :
    setNode ns v n = ns := List.set_eq_of_length_le hv

/-- Reading below the length of the original arena after an append. -/
lemma nodeAt_append_lt {ns : List (Node α)} {v : Nat} (h : v < ns.length) (x : Node α) :
    nodeAt (ns ++ [x]) v = nodeAt ns v := by
  simp [nodeAt, List.getD_eq_getElem?_getD, List.getElem?_append, h]

/-- Reading the appended node. -/
lemma nodeAt_append_self (ns : List (Node α)) (x : Node α) :
    nodeAt (ns ++ [x]) ns.length = x := by
  simp [nodeAt, List.getD_eq_getElem?_getD]

/-- Out-of-range reads give the inert node. -/
lemma nodeAt_oob {ns : List (Node α)} {v : Nat} (h : ns.length ≤ v) :
    nodeAt ns v = ⟨[], 0, [], none⟩ := by
  simp [nodeAt, List.getD_eq_getElem?_getD, List.getElem?_eq_none h]

/-- A fold preserves any invariant its step preserves. -/
lemma foldl_preserve {β γ : Type} (Inv : β → Prop) (f : β → γ → β)
    (hf : ∀ b x, Inv b → Inv (f b x)) : ∀ (l : List γ) (b : β), Inv b → Inv (l.foldl f b) := by
  intro l
  induction l with
  | nil => intro b hb; exact hb
  | cons x xs ih => intro b hb; exact ih (f b x) (hf b x hb)

/-- Identifier assignment leaves every field but the identifier unchanged. -/
lemma nodeAt_assignIds :
    ∀ (ns : List (Node α)) (i v : Nat),
      (nodeAt (assignIds i ns) v).out = (nodeAt ns v).out ∧
      (nodeAt (assignIds i ns) v).fail = (nodeAt ns v).fail ∧
      (nodeAt (assignIds i ns) v).next = (nodeAt ns v).next := by
  intro ns
  induction ns with
  | nil => intro i v; exact ⟨rfl, rfl, rfl⟩
  | cons n rest ih =>
    intro i v
    cases v with
    | zero => exact ⟨rfl, rfl, rfl⟩
    | succ u =>
      have h1 : nodeAt (assignIds i (n :: rest)) (u + 1) = nodeAt (assignIds (i + 1) rest) u := by
        simp [assignIds, nodeAt]
      have h2 : nodeAt (n :: rest) (u + 1) = nodeAt rest u := by
        simp [nodeAt]
      rw [h1, h2]
      exact ih (i + 1) u

/-- Writing a node whose output entries satisfy a predicate preserves the
predicate over all output lists. -/
lemma out_pred_setNode {P : α → Prop} {ns : List (Node α)} {w : Nat} {n : Node α}
    (h : ∀ v, ∀ e ∈ (nodeAt ns v).out, P e) (hn : ∀ e ∈ n.out, P e) :
    ∀ v, ∀ e ∈ (nodeAt (setNode ns w n) v).out, P e := by
  intro v e he
  by_cases hv : v = w
  · rw [hv] at he
    by_cases hlt : w < ns.length
    · rw [nodeAt_setNode_self hlt] at he
      exact hn e he
    · rw [setNode_oob (Nat.le_of_not_lt hlt)] at he
      exact h w e he
  · rw [nodeAt_setNode_ne hv] at he
    exact h v e he

/-- Appending a node whose output entries satisfy a predicate preserves the
predicate over all output lists. -/
lemma out_pred_append {P : α → Prop} {ns : List (Node α)} {x : Node α}
    (h : ∀ v, ∀ e ∈ (nodeAt ns v).out, P e) (hx : ∀ e ∈ x.out, P e) :
    ∀ v, ∀ e ∈ (nodeAt (ns ++ [x]) v).out, P e := by
  intro v e he
  by_cases hlt : v < ns.length
  · rw [nodeAt_append_lt hlt] at he
    exact h v e he
  · by_cases hq : v = ns.length
    · rw [hq, nodeAt_append_self] at he
      exact hx e he
    · rw [nodeAt_oob (by
        simp only [List.length_append, List.length_cons, List.length_nil]
        omega)] at he
      simp at he

/-- A trie descent never adds an output entry. -/
lemma addLoop_out_pred (P : α → Prop) :
    ∀ (pattern : List Char) (ns : List (Node α)) (v0 : Nat),
      (∀ v, ∀ e ∈ (nodeAt ns v).out, P e) →
      ∀ v, ∀ e ∈ (nodeAt (addLoop ns v0 pattern).1 v).out, P e := by
  intro pattern
  induction pattern with
  | nil => intro ns v0 h v e he; exact h v e he
  | cons c cs ih =>
    intro ns v0 h v e he
    revert he
    rw [addLoop]
    cases hl : lookupChild (nodeAt ns v0).next c with
    | some u => exact fun he => ih ns u h v e he
    | none =>
      intro he
      refine ih _ _ ?_ v e he
      have hext : ∀ v, ∀ e ∈ (nodeAt (ns ++ [(⟨[], 0, [], none⟩ : Node α)]) v).out, P e :=
        out_pred_append h (by simp)
      exact out_pred_setNode hext (fun e1 he1 => hext v0 e1 he1)

/-- Every output entry after an insertion either was present before or is
the inserted identifier. -/
lemma add_out_pred (P : α → Prop) (ac : AhoCorasick α) (pattern : List Char) (id : α)
    (h : ∀ v, ∀ e ∈ (nodeAt ac.nodes v).out, P e) (hid : P id) :
    ∀ v, ∀ e ∈ (nodeAt (ac.add pattern id).nodes v).out, P e := by
  intro v e he
  have hall := addLoop_out_pred P pattern ac.nodes 0 h
  simp only [AhoCorasick.add] at he
  refine out_pred_setNode hall ?_ v e he
  intro e1 he1
  simp only [List.mem_append, List.mem_singleton] at he1
  rcases he1 with he1 | rfl
  · exact hall _ e1 he1
  · exact hid

/-- The breadth-first build step only copies existing output entries. -/
lemma buildChild_out_pred (P : α → Prop) (r : Nat) (acc : List (Node α) × List Nat)
    (e : Char × Nat) (h : ∀ v, ∀ x ∈ (nodeAt acc.1 v).out, P x) :
    ∀ v, ∀ x ∈ (nodeAt (buildChild r acc e).1 v).out, P x := by
  intro v x hx
  simp only [buildChild] at hx
  refine out_pred_setNode h ?_ v x hx
  intro x1 hx1
  simp only [List.mem_append] at hx1
  rcases hx1 with hx1 | hx1
  · exact h _ x1 hx1
  · exact h _ x1 hx1

/-- The breadth-first build loop only copies existing output entries. -/
lemma buildLoop_out_pred (P : α → Prop) :
    ∀ (fuel : Nat) (ns : List (Node α)) (q : List Nat),
      (∀ v, ∀ x ∈ (nodeAt ns v).out, P x) →
      ∀ v, ∀ x ∈ (nodeAt (buildLoop fuel ns q) v).out, P x := by
  intro fuel
  induction fuel with
  | zero => intro ns q h; exact h
  | succ fuel ih =>
    intro ns q h
    cases q with
    | nil => exact h
    | cons r q =>
      rw [buildLoop]
      refine ih _ _ ?_
      exact (foldl_preserve (fun b => ∀ v, ∀ x ∈ (nodeAt b.1 v).out, P x)
        (buildChild r) (fun b e hb => buildChild_out_pred P r b e hb)
        (nodeAt ns r).next (ns, q) h)

/-- Building preserves any predicate holding of every output entry. -/
lemma build_out_pred (P : α → Prop) (ac : AhoCorasick α)
    (h : ∀ v, ∀ e ∈ (nodeAt ac.nodes v).out, P e) :
    ∀ v, ∀ e ∈ (nodeAt ac.build.nodes v).out, P e := by
  intro v e he
  simp only [AhoCorasick.build] at he
  rw [(nodeAt_assignIds _ _ _).1] at he
  refine buildLoop_out_pred P _ _ _ ?_ v e he
  refine foldl_preserve (fun b => ∀ v, ∀ x ∈ (nodeAt b.1 v).out, P x)
    seedChild ?_ _ _ ?_
  · intro b x hb
    exact out_pred_setNode hb (fun e1 he1 => hb _ e1 he1)
  · exact out_pred_setNode h (fun e1 he1 => h 0 e1 he1)

/-- Every hit the generator yields is an output entry of some node. -/
lemma sgLoop_entry_mem (ns : List (Node α)) :
    ∀ (text : List Char) (node idx : Nat) (pr : Nat × α),
      pr ∈ sgLoop ns node idx text → ∃ v, pr.2 ∈ (nodeAt ns v).out := by
  intro text
  induction text with
  | nil => intro node idx pr h; simp [sgLoop] at h
  | cons c rest ih =>
    intro node idx pr h
    by_cases hc : c ∈ ALPHABET
    · simp only [sgLoop, if_pos hc, List.mem_append, List.mem_map] at h
      rcases h with ⟨o, ho, rfl⟩ | h
      · exact ⟨_, ho⟩
      · exact ih _ _ pr h
    · simp only [sgLoop, if_neg hc] at h
      exact ih _ _ pr h

/-- Offset of the first token. -/
lemma offsetBefore_zero (toks : List Tok) : offsetBefore toks 0 = 0 := by
  simp [offsetBefore]

/-- Offset recursion across the head token. -/
lemma offsetBefore_succ (t : Tok) (rest : List Tok) (i : Nat) :
    offsetBefore (t :: rest) (i + 1) = tokSpan t + offsetBefore rest i := by
  simp [offsetBefore, List.take_succ_cons]

/-- Membership in the running seed fold: a seed is an accumulator entry or a
literal token meeting the threshold, paired with the base plus its running
offset. -/
lemma build_seeds_foldl_mem (k : Nat) :
    ∀ (toks : List Tok) (acc : List (List Char × Nat)) (base : Nat) (v : List Char) (off : Nat),
      (v, off) ∈ (toks.foldl (fun (acc : List (List Char × Nat) × Nat) t =>
        match t with
        | Tok.seq w =>
          (if k ≤ w.length then acc.1 ++ [(w, acc.2)] else acc.1, acc.2 + w.length)
        | Tok.gap n => (acc.1, acc.2 + n)) (acc, base)).1 ↔
      ((v, off) ∈ acc ∨ ∃ i, toks[i]? = some (Tok.seq v) ∧ k ≤ v.length ∧
        off = base + offsetBefore toks i) := by
  intro toks
  induction toks with
  | nil =>
    intro acc base v off
    simp
  | cons t rest ih =>
    intro acc base v off
    cases t with
    | seq w =>
      simp only [List.foldl_cons]
      by_cases hk : k ≤ w.length
      · rw [if_pos hk]
        rw [ih]
        constructor
        · rintro (hmem | ⟨i, hi, hkk, hoff⟩)
          · rcases List.mem_append.mp hmem with hmem | hmem
            · exact Or.inl hmem
            · simp only [List.mem_singleton, Prod.mk.injEq] at hmem
              refine Or.inr ⟨0, ?_, ?_, ?_⟩
              · simp [hmem.1]
              · rw [hmem.1]; exact hk
              · rw [offsetBefore_zero, hmem.2]; omega
          · refine Or.inr ⟨i + 1, by simpa using hi, hkk, ?_⟩
            rw [offsetBefore_succ]
            simp only [tokSpan]
            omega
        · rintro (hmem | ⟨i, hi, hkk, hoff⟩)
          · exact Or.inl (List.mem_append.mpr (Or.inl hmem))
          · cases i with
            | zero =>
              simp only [List.getElem?_cons_zero, Option.some.injEq, Tok.seq.injEq] at hi
              refine Or.inl (List.mem_append.mpr (Or.inr ?_))
              simp only [List.mem_singleton, Prod.mk.injEq]
              rw [offsetBefore_zero] at hoff
              exact ⟨hi.symm, by omega⟩
            | succ i =>
              refine Or.inr ⟨i, by simpa using hi, hkk, ?_⟩
              rw [offsetBefore_succ] at hoff
              simp only [tokSpan] at hoff
              omega
      · rw [if_neg hk]
        rw [ih]
        constructor
        · rintro (hmem | ⟨i, hi, hkk, hoff⟩)
          · exact Or.inl hmem
          · refine Or.inr ⟨i + 1, by simpa using hi, hkk, ?_⟩
            rw [offsetBefore_succ]
            simp only [tokSpan]
            omega
        · rintro (hmem | ⟨i, hi, hkk, hoff⟩)
          · exact Or.inl hmem
          · cases i with
            | zero =>
              simp only [List.getElem?_cons_zero, Option.some.injEq, Tok.seq.injEq] at hi
              rw [← hi] at hkk
              exact absurd hkk hk
            | succ i =>
              refine Or.inr ⟨i, by simpa using hi, hkk, ?_⟩
              rw [offsetBefore_succ] at hoff
              simp only [tokSpan] at hoff
              omega
    | gap n =>
      simp only [List.foldl_cons]
      rw [ih]
      constructor
      · rintro (hmem | ⟨i, hi, hkk, hoff⟩)
        · exact Or.inl hmem
        · refine Or.inr ⟨i + 1, by simpa using hi, hkk, ?_⟩
          rw [offsetBefore_succ]
          simp only [tokSpan]
          omega
      · rintro (hmem | ⟨i, hi, hkk, hoff⟩)
        · exact Or.inl hmem
        · cases i with
          | zero => simp at hi
          | succ i =>
            refine Or.inr ⟨i, by simpa using hi, hkk, ?_⟩
            rw [offsetBefore_succ] at hoff
            simp only [tokSpan] at hoff
            omega

/-- Seed extraction characterised: a seed is exactly a literal token meeting
the threshold, carrying its running offset from the start of the pattern. -/
lemma build_seeds_mem (toks : List Tok) (k : Nat) (v : List Char) (off : Nat) :
    (v, off) ∈ build_seeds_from_pattern toks k ↔
      ∃ i, toks[i]? = some (Tok.seq v) ∧ k ≤ v.length ∧ off = offsetBefore toks i := by
  have h := build_seeds_foldl_mem k toks [] 0 v off
  rw [build_seeds_from_pattern]
  rw [h]
  simp

/-- The fallback scan of `search_with_gaps` finds the first nonempty literal
token. -/
lemma find?_first_nonempty_seq :
    ∀ (toks : List Tok) (i : Nat) (v : List Char),
      toks[i]? = some (Tok.seq v) → v ≠ [] →
      (∀ j, j < i → ∀ w, toks[j]? = some (Tok.seq w) → w = []) →
      toks.find? (fun t => match t with | Tok.seq w => !w.isEmpty | Tok.gap _ => false) =
        some (Tok.seq v) := by
  intro toks
  induction toks with
  | nil => intro i v hi; simp at hi
  | cons t rest ih =>
    intro i v hi hv hfirst
    cases i with
    | zero =>
      simp only [List.getElem?_cons_zero, Option.some.injEq] at hi
      subst hi
      rw [List.find?_cons_of_pos]
      simpa using hv
    | succ i =>
      simp only [List.getElem?_cons_succ] at hi
      cases t with
      | seq w =>
        have hw : w = [] := hfirst 0 (Nat.succ_pos i) w (by simp)
        subst hw
        rw [List.find?_cons_of_neg _ (by decide)]
        exact ih i v hi hv (fun j hj w hw => hfirst (j + 1) (Nat.succ_lt_succ hj) w (by simpa using hw))
      | gap n =>
        rw [List.find?_cons_of_neg _ (by exact Bool.false_ne_true)]
        exact ih i v hi hv (fun j hj w hw => hfirst (j + 1) (Nat.succ_lt_succ hj) w (by simpa using hw))

/-- Enumeration membership. -/
lemma enumFrom_mem {β : Type} :
    ∀ (l : List β) (s : Nat) (pr : Nat × β),
      pr ∈ enumFrom s l ↔ ∃ j, pr.1 = s + j ∧ l[j]? = some pr.2 := by
  intro l
  induction l with
  | nil => intro s pr; simp [enumFrom]
  | cons b bs ih =>
    intro s pr
    rw [enumFrom]
    simp only [List.mem_cons]
    constructor
    · rintro (rfl | h)
      · exact ⟨0, by simp⟩
      · obtain ⟨j, hj, hjb⟩ := (ih (s + 1) pr).mp h
        exact ⟨j + 1, by omega, by simpa using hjb⟩
    · rintro ⟨j, hj, hjb⟩
      cases j with
      | zero =>
        simp only [List.getElem?_cons_zero, Option.some.injEq] at hjb
        left
        cases pr
        simp only at hj hjb
        simp [hj, hjb]
      | succ j =>
        right
        refine (ih (s + 1) pr).mpr ⟨j, by omega, by simpa using hjb⟩

/-- Recording an interval for one pattern leaves the others untouched. -/
lemma matchesFor_addMatch_ne :
    ∀ (acc : List (Nat × List (Int × Int))) (pid : Nat) (iv : Int × Int) (q : Nat),
      q ≠ pid → matchesFor (addMatch acc pid iv) q = matchesFor acc q := by
  intro acc
  induction acc with
  | nil =>
    intro pid iv q hq
    show matchesFor [(pid, [iv])] q = matchesFor [] q
    rw [matchesFor, matchesFor]
    rw [List.find?_cons_of_neg _ (by simpa using Ne.symm hq)]
  | cons kl rest ih =>
    intro pid iv q hq
    obtain ⟨k, l⟩ := kl
    rw [addMatch]
    by_cases hk : k = pid
    · rw [if_pos hk]
      rw [matchesFor, matchesFor]
      rw [List.find?_cons_of_neg _ (by simp [hk, Ne.symm hq]),
        List.find?_cons_of_neg _ (by simp [hk, Ne.symm hq])]
    · rw [if_neg hk]
      by_cases hkq : k = q
      · rw [matchesFor, matchesFor]
        rw [List.find?_cons_of_pos _ (by simpa using hkq),
          List.find?_cons_of_pos _ (by simpa using hkq)]
      · rw [matchesFor, matchesFor]
        rw [List.find?_cons_of_neg _ (by simpa using hkq),
          List.find?_cons_of_neg _ (by simpa using hkq)]
        exact ih pid iv q hq

/-- A fold preserves any invariant its step preserves on list members. -/
lemma foldl_preserve_mem {β γ : Type} (Inv : β → Prop) (f : β → γ → β) :
    ∀ (l : List γ), (∀ b x, x ∈ l → Inv b → Inv (f b x)) → ∀ b, Inv b → Inv (l.foldl f b) := by
  intro l
  induction l with
  | nil => intro _ b hb; exact hb
  | cons x xs ih =>
    intro hf b hb
    exact ih (fun b y hy => hf b y (List.mem_cons_of_mem x hy)) (f b x)
      (hf b x (List.mem_cons_self x xs) hb)

/-- The fresh automaton has no output entries. -/
lemma init_out_empty (v : Nat) : (nodeAt (AhoCorasick.init (α := α)).nodes v).out = [] := by
  cases v with
  | zero => rfl
  | succ u =>
    rw [nodeAt_oob]
    simp [AhoCorasick.init]

/-- A token list with only gaps yields no seeds and no fallback insertion. -/
lemma gapInserts_all_gap (toks : List Tok) (k : Nat)
    (hg : ∀ t ∈ toks, ∃ n, t = Tok.gap n) : gapInserts toks k = [] := by
  have hseeds : build_seeds_from_pattern toks k = [] := by
    rw [List.eq_nil_iff_forall_not_mem]
    rintro ⟨v, off⟩ hsv
    obtain ⟨i, hi, _, _⟩ := (build_seeds_mem toks k v off).mp hsv
    have hmem : Tok.seq v ∈ toks := List.getElem?_mem hi
    obtain ⟨n, hn⟩ := hg _ hmem
    exact Tok.noConfusion hn
  rw [gapInserts]
  simp only [hseeds, if_pos]
  have hfind : toks.find?
      (fun t => match t with | Tok.seq w => !w.isEmpty | Tok.gap _ => false) = none := by
    rw [List.find?_eq_none]
    intro t ht
    obtain ⟨n, hn⟩ := hg t ht
    subst hn
    exact Bool.false_ne_true
  rw [hfind]

/-- One hit step either leaves the accumulator unchanged or records an
interval for the pattern of the hit. -/
lemma gapHitStep_cases (text : List Char) (metaList : List (List Tok × Nat))
    (acc : List (Nat × List (Int × Int))) (h : Nat × (Nat × SeedMeta)) :
    gapHitStep text metaList acc h = acc ∨
      ∃ iv, gapHitStep text metaList acc h = addMatch acc h.2.1 iv := by
  rw [gapHitStep]
  split
  · exact Or.inl rfl
  · split
    · exact Or.inr ⟨_, rfl⟩
    · exact Or.inl rfl

/-- If no hit concerns a pattern index, verification records nothing for
that index. -/
lemma matchesFor_foldl_no_pid (text : List Char) (metaList : List (List Tok × Nat)) :
    ∀ (hits : List (Nat × (Nat × SeedMeta))) (acc : List (Nat × List (Int × Int))) (q : Nat),
      (∀ pr ∈ hits, pr.2.1 ≠ q) →
      matchesFor (hits.foldl (gapHitStep text metaList) acc) q = matchesFor acc q := by
  intro hits
  induction hits with
  | nil => intro acc q _; rfl
  | cons h rest ih =>
    intro acc q hq
    rw [List.foldl_cons]
    rw [ih _ q (fun pr hpr => hq pr (List.mem_cons_of_mem h hpr))]
    rcases gapHitStep_cases text metaList acc h with hcase | ⟨iv, hcase⟩
    · rw [hcase]
    · rw [hcase, matchesFor_addMatch_ne]
      exact Ne.symm (hq h (List.mem_cons_self h rest))

/-- Unfolding of `search_with_gaps` when every pattern parses. -/
lemma search_with_gaps_ok (text : List Char) (patterns : List (List Char)) (k : Nat)
    (toksList : List (List Tok)) (hp : parseAll patterns = Except.ok toksList) :
    search_with_gaps text patterns k = Except.ok
      (((gapAutomaton toksList k).search_generator text).foldl
        (gapHitStep text (toksList.map (fun t => (t, patternSpan t)))) []) := by
  rw [search_with_gaps, hp]
  rfl

/-- If the pattern at an index has no insertion, the built seed automaton
holds no output entry for it. -/
lemma gapAutomaton_out_ne (toksList : List (List Tok)) (k : Nat) (pid : Nat)
    (hpid : gapInserts (toksList.getD pid []) k = []) :
    ∀ v, ∀ e ∈ (nodeAt (gapAutomaton toksList k).nodes v).out, e.1 ≠ pid := by
  rw [gapAutomaton]
  apply build_out_pred
  refine foldl_preserve_mem
    (fun ac : AhoCorasick (Nat × SeedMeta) => ∀ v, ∀ e ∈ (nodeAt ac.nodes v).out, e.1 ≠ pid)
    _ _ ?_ _ ?_
  · intro ac pt hpt hac
    refine foldl_preserve_mem
      (fun ac : AhoCorasick (Nat × SeedMeta) => ∀ v, ∀ e ∈ (nodeAt ac.nodes v).out, e.1 ≠ pid)
      _ _ ?_ _ hac
    intro ac2 sm hsm hac2
    refine add_out_pred _ _ _ _ hac2 ?_
    show pt.1 ≠ pid
    intro hEq
    obtain ⟨j, hj, hjb⟩ := (enumFrom_mem toksList 0 pt).mp hpt
    have hj2 : pt.1 = j := by omega
    have hgetd : toksList.getD pt.1 [] = pt.2 := by
      rw [hj2, List.getD_eq_getElem?_getD, hjb]
      rfl
    rw [hEq] at hgetd
    rw [hgetd] at hpid
    rw [hpid] at hsm
    exact absurd hsm (List.not_mem_nil sm)
  · intro v e he
    rw [init_out_empty] at he
    exact absurd he (List.not_mem_nil e)

/-- Claim C4 counterexample: for the tokenized pattern gap-then-AC with
threshold 3, no literal meets the threshold, and the fallback indexes AC with
offset 0 although its running offset from the pattern start is 1; as a
consequence the gapped search misses the genuine occurrence of the pattern
dot-AC in the text XAC (it reports nothing), while a threshold of 2 — where
the seed carries its true running offset — finds the interval (0, 3). -/
theorem c4_counterexample :
    build_seeds_from_pattern [Tok.gap 1, Tok.seq ['A', 'C']] 3 = [] ∧
    gapInserts [Tok.gap 1, Tok.seq ['A', 'C']] 3 = [(['A', 'C'], ⟨0, 2⟩)] ∧
    offsetBefore [Tok.gap 1, Tok.seq ['A', 'C']] 1 = 1 ∧ (0 : Nat) ≠ 1 ∧
    search_with_gaps "XAC".toList [".AC".toList] 3 = Except.ok [] ∧
    search_with_gaps "XAC".toList [".AC".toList] 2 =
      Except.ok [(0, [((0 : Int), (3 : Int))])] :=
  ⟨by decide, by decide, by decide, by decide, rfl, rfl⟩

/-- Claim C4 amended: every literal token of length at least the threshold is
emitted as a seed with its running offset (gaps advancing the offset); when
no literal meets the threshold the first nonempty literal token is indexed
instead, but with offset 0, not its running offset; every pattern containing
a nonempty literal token is indexed by some seed; and a pattern with no
literal content is never matched by search_with_gaps. -/
theorem c4_seed_extraction_fallback :
    (∀ (toks : List Tok) (k : Nat) (v : List Char) (off : Nat),
      (v, off) ∈ build_seeds_from_pattern toks k ↔
        ∃ i, toks[i]? = some (Tok.seq v) ∧ k ≤ v.length ∧ off = offsetBefore toks i) ∧
    (∀ (toks : List Tok) (k : Nat) (i : Nat) (v : List Char),
      build_seeds_from_pattern toks k = [] →
      toks[i]? = some (Tok.seq v) → v ≠ [] →
      (∀ j, j < i → ∀ w, toks[j]? = some (Tok.seq w) → w = []) →
      gapInserts toks k = [(v, ⟨0, v.length⟩)]) ∧
    (∀ (toks : List Tok) (k : Nat) (i : Nat) (v : List Char),
      toks[i]? = some (Tok.seq v) → v ≠ [] → gapInserts toks k ≠ []) ∧
    (∀ (text : List Char) (patterns : List (List Char)) (k : Nat)
      (toksList : List (List Tok)) (pid : Nat) (res : List (Nat × List (Int × Int))),
      parseAll patterns = Except.ok toksList →
      (∀ t ∈ toksList.getD pid [], ∃ n, t = Tok.gap n) →
      search_with_gaps text patterns k = Except.ok res →
      matchesFor res pid = []) := by
  refine ⟨build_seeds_mem, ?_, ?_, ?_⟩
  · intro toks k i v hseeds hi hv hfirst
    rw [gapInserts]
    simp only [hseeds, if_pos]
    rw [find?_first_nonempty_seq toks i v hi hv hfirst]
  · intro toks k i v hi hv
    rw [gapInserts]
    by_cases hseeds : build_seeds_from_pattern toks k = []
    · simp only [hseeds, if_pos]
      cases hfind : toks.find?
          (fun t => match t with | Tok.seq w => !w.isEmpty | Tok.gap _ => false) with
      | none =>
        have hall := List.find?_eq_none.mp hfind
        have hmem : Tok.seq v ∈ toks := List.getElem?_mem hi
        have h2 := hall _ hmem
        cases v with
        | nil => exact absurd rfl hv
        | cons a as => exact (h2 (by simp)).elim
      | some t =>
        have hpred := List.find?_some hfind
        cases t with
        | seq w => simp
        | gap n => exact absurd hpred Bool.false_ne_true
    · rw [if_neg hseeds]
      intro hmap
      rw [List.map_eq_nil_iff] at hmap
      exact hseeds hmap
  · intro text patterns k toksList pid res hp hg hs
    rw [search_with_gaps_ok text patterns k toksList hp] at hs
    injection hs with hs
    subst hs
    rw [matchesFor_foldl_no_pid]
    · rfl
    · intro pr hpr
      obtain ⟨v, hv⟩ := sgLoop_entry_mem (gapAutomaton toksList k).nodes text 0 0 pr hpr
      exact gapAutomaton_out_ne toksList k pid (gapInserts_all_gap _ k hg) v pr.2 hv

/-- Witness for C4: the fallback on the gap-then-AC token list indexes AC
with offset 0 and length 2. -/
theorem c4_seed_extraction_fallback_witness :
    (build_seeds_from_pattern [Tok.gap 1, Tok.seq ['A', 'C']] 3 = [] ∧
      [Tok.gap 1, Tok.seq ['A', 'C']][1]? = some (Tok.seq ['A', 'C']) ∧
      (['A', 'C'] : List Char) ≠ []) ∧
    gapInserts [Tok.gap 1, Tok.seq ['A', 'C']] 3 = [(['A', 'C'], ⟨0, 2⟩)] :=
  ⟨⟨by decide, by decide, by decide⟩,
    c4_seed_extraction_fallback.2.1 [Tok.gap 1, Tok.seq ['A', 'C']] 3 1 ['A', 'C']
      (by decide) (by decide) (by decide)
      (fun j hj w hw => by
        interval_cases j
        · simp at hw)⟩

/-- Trie membership is closed under prefixes. -/
lemma inTrie_of_pref {pats : List (List Char × α)} {a b : List Char}
    (h : inTrie pats a = true) (hba : b <+: a) : inTrie pats b = true := by
  rw [inTrie, List.any_eq_true] at h ⊢
  obtain ⟨pr, hpr, hpa⟩ := h
  exact ⟨pr, hpr, List.isPrefixOf_iff_prefix.mpr
    (hba.trans ( List.isPrefixOf_iff_prefix.mp hpa))⟩

/-- A pattern of the list is in the trie. -/
lemma inTrie_self {pats : List (List Char × α)} {p : List Char} {i : α}
    (h : (p, i) ∈ pats) : inTrie pats p = true := by
  rw [inTrie, List.any_eq_true]
  exact ⟨(p, i), h, List.isPrefixOf_iff_prefix.mpr (List.prefix_refl p)⟩

/-- The sigma state is a suffix of its argument. -/
lemma sigma_suffix (pats : List (List Char × α)) :
    ∀ w : List Char, sigma pats w <:+ w := by
  intro w
  induction w with
  | nil => exact List.suffix_refl []
  | cons c cs ih =>
    rw [sigma]
    split
    · exact List.suffix_refl _
    · exact ih.trans (List.suffix_cons c cs)

/-- A nonempty sigma state is a trie node string. -/
lemma sigma_inTrie (pats : List (List Char × α)) :
    ∀ w : List Char, sigma pats w ≠ [] → inTrie pats (sigma pats w) = true := by
  intro w
  induction w with
  | nil => intro h; exact absurd rfl h
  | cons c cs ih =>
    rw [sigma]
    split
    · intro _; assumption
    · exact ih

/-- A string already in the trie is its own sigma state. -/
lemma sigma_fix {pats : List (List Char × α)} :
    ∀ {t : List Char}, (t = [] ∨ inTrie pats t = true) → sigma pats t = t := by
  intro t ht
  rcases ht with rfl | ht
  · rfl
  · cases t with
    | nil => rfl
    | cons c cs => rw [sigma, if_pos ht]

/-- Every nonempty trie suffix is a suffix of the sigma state. -/
lemma sigma_chain (pats : List (List Char × α)) :
    ∀ (w s : List Char), s <:+ w → s ≠ [] → inTrie pats s = true →
      s <:+ sigma pats w := by
  intro w
  induction w with
  | nil =>
    intro s hs hne _
    rw [List.suffix_nil] at hs
    exact absurd hs hne
  | cons c cs ih =>
    intro s hs hne hin
    rw [sigma]
    split
    · exact hs
    · rcases List.suffix_cons_iff.mp hs with rfl | hs2
      · rename_i hniT
        exact absurd hin hniT
      · exact ih s hs2 hne hin

/-- The sigma state vanishes exactly when no nonempty suffix is a trie node
string. -/
lemma sigma_eq_nil_iff (pats : List (List Char × α)) :
    ∀ w : List Char, sigma pats w = [] ↔
      ∀ s, s <:+ w → s ≠ [] → inTrie pats s = false := by
  intro w
  constructor
  · intro h s hs hne
    by_contra hxx
    have hin : inTrie pats s = true := by
      cases hxval : inTrie pats s
      · exact absurd hxval hxx
      · rfl
    have := sigma_chain pats w s hs hne hin
    rw [h, List.suffix_nil] at this
    exact hne this
  · intro h
    cases hs : sigma pats w with
    | nil => rfl
    | cons a as =>
      have h1 : (a :: as) <:+ w := hs ▸ sigma_suffix pats w
      have h2 : inTrie pats (a :: as) = true := hs ▸ sigma_inTrie pats w (by simp [hs])
      rw [h (a :: as) h1 (by simp)] at h2
      cases h2

/-- Sigma is idempotent. -/
lemma sigma_idem (pats : List (List Char × α)) (w : List Char) :
    sigma pats (sigma pats w) = sigma pats w := by
  cases hs : sigma pats w with
  | nil => rfl
  | cons a as =>
    exact sigma_fix (Or.inr (hs ▸ sigma_inTrie pats w (by simp [hs])))

/-- A nonempty suffix of a string extended by one symbol decomposes as a
suffix of the string followed by that symbol. -/
lemma suffix_snoc_decomp {u s : List Char} {c : Char}
    (h : s <:+ u ++ [c]) (hne : s ≠ []) : ∃ t, s = t ++ [c] ∧ t <:+ u := by
  rcases s.eq_nil_or_concat with rfl | ⟨t, d, rfl⟩
  · exact absurd rfl hne
  · rw [List.concat_eq_append] at h ⊢
    obtain ⟨pre, hpre⟩ := h
    have hlen : ([d] : List Char).length = ([c] : List Char).length := rfl
    rw [← List.append_assoc] at hpre
    obtain ⟨h1, h2⟩ := List.append_inj' hpre hlen
    have hdc : d = c := by simpa using h2
    subst hdc
    exact ⟨t, rfl, ⟨pre, h1⟩⟩

/-- A proper suffix is a suffix of the tail. -/
lemma proper_suffix_drop {s t : List Char} (h : s <:+ t) (hne : s ≠ t) :
    s <:+ t.drop 1 := by
  cases t with
  | nil =>
    rw [List.suffix_nil] at h
    exact absurd h hne
  | cons a as =>
    rcases List.suffix_cons_iff.mp h with rfl | h2
    · exact absurd rfl hne
    · simpa using h2

/-- The border of a string is a suffix of its tail. -/
lemma border_suffix_drop (pats : List (List Char × α)) (s : List Char) :
    border pats s <:+ s.drop 1 := sigma_suffix pats (s.drop 1)

/-- The border of a nonempty string is strictly shorter. -/
lemma border_length_lt (pats : List (List Char × α)) {s : List Char} (h : s ≠ []) :
    (border pats s).length < s.length := by
  have h1 := (border_suffix_drop pats s).length_le
  cases s with
  | nil => exact absurd rfl h
  | cons a as => simp at h1 ⊢; omega

/-- Two strings with the same nonempty trie suffixes have the same sigma
state. -/
lemma sigma_eq_of_suffix_iff {pats : List (List Char × α)} {a b : List Char}
    (h : ∀ s, s ≠ [] → inTrie pats s = true → (s <:+ a ↔ s <:+ b)) :
    sigma pats a = sigma pats b := by
  cases ha : sigma pats a with
  | nil =>
    cases hb : sigma pats b with
    | nil => rfl
    | cons x xs =>
      have h1 : (x :: xs) <:+ b := hb ▸ sigma_suffix pats b
      have h2 : inTrie pats (x :: xs) = true := hb ▸ sigma_inTrie pats b (by simp [hb])
      have h3 : (x :: xs) <:+ a := (h (x :: xs) (by simp) h2).mpr h1
      have := (sigma_eq_nil_iff pats a).mp ha (x :: xs) h3 (by simp)
      rw [h2] at this
      cases this
  | cons x xs =>
    have h1 : (x :: xs) <:+ a := ha ▸ sigma_suffix pats a
    have h2 : inTrie pats (x :: xs) = true := ha ▸ sigma_inTrie pats a (by simp [ha])
    have h3 : (x :: xs) <:+ b := (h (x :: xs) (by simp) h2).mp h1
    have h4 : (x :: xs) <:+ sigma pats b := sigma_chain pats b (x :: xs) h3 (by simp) h2
    cases hb : sigma pats b with
    | nil =>
      rw [hb, List.suffix_nil] at h4
      cases h4
    | cons y ys =>
      have h5 : (y :: ys) <:+ b := hb ▸ sigma_suffix pats b
      have h6 : inTrie pats (y :: ys) = true := hb ▸ sigma_inTrie pats b (by simp [hb])
      have h7 : (y :: ys) <:+ a := (h (y :: ys) (by simp) h6).mpr h5
      have h8 : (y :: ys) <:+ sigma pats a := sigma_chain pats a (y :: ys) h7 (by simp) h6
      rw [ha] at h8
      rw [hb] at h4
      exact List.IsSuffix.eq_of_length h4
        (Nat.le_antisymm h4.length_le h8.length_le)

/-- Appending a symbol preserves the suffix relation. -/
lemma suffix_append_one {a b : List Char} (h : a <:+ b) (c : Char) :
    a ++ [c] <:+ b ++ [c] := by
  obtain ⟨pre, rfl⟩ := h
  exact ⟨pre, by simp⟩

/-- Dropping the distinguished trie suffix: if the extended sigma state is
not a trie string, the suffixes can be sought below the border. -/
lemma sigma_snoc_border (pats : List (List Char × α)) {w : List Char} {c : Char}
    (hni : inTrie pats (sigma pats w ++ [c]) = false) :
    sigma pats (w ++ [c]) = sigma pats (border pats (sigma pats w) ++ [c]) := by
  apply sigma_eq_of_suffix_iff
  intro s hsne hsin
  constructor
  · intro hs
    obtain ⟨t1, rfl, ht1⟩ := suffix_snoc_decomp hs hsne
    rcases List.eq_nil_or_concat t1 with rfl | ⟨t2, d, ht2⟩
    · exact ⟨border pats (sigma pats w), rfl⟩
    · have ht1ne : t1 ≠ [] := by rw [ht2]; simp
      have ht1in : inTrie pats t1 = true :=
        inTrie_of_pref hsin ⟨[c], rfl⟩
      have ht1sig : t1 <:+ sigma pats w := sigma_chain pats w t1 ht1 ht1ne ht1in
      have ht1neq : t1 ≠ sigma pats w := by
        intro hEq
        rw [hEq] at hsin
        rw [hsin] at hni
        cases hni
      have ht1drop : t1 <:+ (sigma pats w).drop 1 := proper_suffix_drop ht1sig ht1neq
      have ht1bord : t1 <:+ border pats (sigma pats w) :=
        sigma_chain pats ((sigma pats w).drop 1) t1 ht1drop ht1ne ht1in
      exact suffix_append_one ht1bord c
  · intro hs
    obtain ⟨t1, rfl, ht1⟩ := suffix_snoc_decomp hs hsne
    refine suffix_append_one (ht1.trans ?_) c
    exact ((border_suffix_drop pats (sigma pats w)).trans
      (List.drop_suffix 1 (sigma pats w))).trans (sigma_suffix pats w)

/-- When the extended state is a trie string, sigma extends by one symbol. -/
lemma sigma_snoc_pos (pats : List (List Char × α)) {w : List Char} {c : Char}
    (hin : inTrie pats (sigma pats w ++ [c]) = true) :
    sigma pats (w ++ [c]) = sigma pats w ++ [c] := by
  have h1 : sigma pats w ++ [c] <:+ w ++ [c] := suffix_append_one (sigma_suffix pats w) c
  have h2 : sigma pats w ++ [c] <:+ sigma pats (w ++ [c]) :=
    sigma_chain pats (w ++ [c]) _ h1 (by simp) hin
  have hne : sigma pats (w ++ [c]) ≠ [] := by
    intro h
    rw [h, List.suffix_nil] at h2
    simp at h2
  obtain ⟨t1, heq, ht1⟩ := suffix_snoc_decomp (sigma_suffix pats (w ++ [c])) hne
  have ht1sig : t1 <:+ sigma pats w := by
    rcases eq_or_ne t1 [] with rfl | htne
    · exact List.nil_suffix
    · have hin2 : inTrie pats (sigma pats (w ++ [c])) = true := sigma_inTrie pats _ hne
      rw [heq] at hin2
      exact sigma_chain pats w t1 ht1 htne (inTrie_of_pref hin2 ⟨[c], rfl⟩)
  have h4 : sigma pats (w ++ [c]) <:+ sigma pats w ++ [c] := by
    rw [heq]
    exact suffix_append_one ht1sig c
  exact List.IsSuffix.eq_of_length h4 (Nat.le_antisymm h4.length_le h2.length_le)

/-- When the state is the root and the one-symbol extension is not a trie
string, the extended sigma state is the root. -/
lemma sigma_snoc_none (pats : List (List Char × α)) {w : List Char} {c : Char}
    (hni : inTrie pats (sigma pats w ++ [c]) = false) (he : sigma pats w = []) :
    sigma pats (w ++ [c]) = [] := by
  rw [he, List.nil_append] at hni
  rw [sigma_eq_nil_iff]
  intro s hs hsne
  cases hval : inTrie pats s with
  | false => rfl
  | true =>
    exfalso
    obtain ⟨t1, rfl, ht1⟩ := suffix_snoc_decomp hs hsne
    rcases eq_or_ne t1 [] with rfl | htne
    · rw [List.nil_append] at hval
      rw [hval] at hni
      cases hni
    · have ht1in : inTrie pats t1 = true := inTrie_of_pref hval ⟨[c], rfl⟩
      have := sigma_chain pats w t1 ht1 htne ht1in
      rw [he, List.suffix_nil] at this
      exact htne this

/-- The border of a sigma state is itself sigma-fixed. -/
lemma border_sigma_fix (pats : List (List Char × α)) (t : List Char) :
    sigma pats (border pats t) = border pats t := sigma_idem pats (t.drop 1)

/-- Goto unfolding when the extension is a trie string. -/
lemma gotoStr_pos {pats : List (List Char × α)} {t : List Char} {c : Char}
    (hin : inTrie pats (t ++ [c]) = true) : gotoStr pats t c = t ++ [c] := by
  have hw : failWalkStr pats t c = t := by rw [failWalkStr, if_pos hin]
  rw [gotoStr, hw, if_pos hin]

/-- Goto unfolding at the root when the extension is not a trie string. -/
lemma gotoStr_nil {pats : List (List Char × α)} {c : Char}
    (hni : inTrie pats [c] = false) : gotoStr pats [] c = [] := by
  have hw : failWalkStr pats [] c = [] := by
    rw [failWalkStr, if_neg (by simp [hni]), if_pos rfl]
  rw [gotoStr, hw, if_neg (by simp [hni])]

/-- Goto unfolding through the failure link. -/
lemma gotoStr_step {pats : List (List Char × α)} {t : List Char} {c : Char}
    (hni : inTrie pats (t ++ [c]) = false) (hne : t ≠ []) :
    gotoStr pats t c = gotoStr pats (border pats t) c := by
  have hw : failWalkStr pats t c = failWalkStr pats (border pats t) c := by
    conv_lhs => rw [failWalkStr]
    rw [if_neg (by simp [hni]), if_neg hne]
  rw [gotoStr, gotoStr, hw]

/-- The goto step at string level computes the extended sigma state: the
main combinatorial fact behind both the failure-link construction and the
scanner. -/
lemma sigma_snoc (pats : List (List Char × α)) :
    ∀ (w : List Char) (c : Char),
      sigma pats (w ++ [c]) = gotoStr pats (sigma pats w) c := by
  have main : ∀ (n : Nat) (w : List Char) (c : Char), (sigma pats w).length ≤ n →
      sigma pats (w ++ [c]) = gotoStr pats (sigma pats w) c := by
    intro n
    induction n with
    | zero =>
      intro w c hlen
      have ht : sigma pats w = [] := List.eq_nil_of_length_eq_zero (Nat.le_zero.mp hlen)
      cases hin : inTrie pats (sigma pats w ++ [c]) with
      | true => rw [gotoStr_pos hin]; exact sigma_snoc_pos pats hin
      | false =>
        rw [ht]
        rw [ht, List.nil_append] at hin
        rw [gotoStr_nil hin]
        exact sigma_snoc_none pats (by rw [ht, List.nil_append]; exact hin) ht
    | succ n ih =>
      intro w c hlen
      cases hin : inTrie pats (sigma pats w ++ [c]) with
      | true => rw [gotoStr_pos hin]; exact sigma_snoc_pos pats hin
      | false =>
        rcases eq_or_ne (sigma pats w) [] with he | hne
        · rw [he]
          rw [he, List.nil_append] at hin
          rw [gotoStr_nil hin]
          exact sigma_snoc_none pats (by rw [he, List.nil_append]; exact hin) he
        · have hstep : sigma pats (w ++ [c]) =
              sigma pats (border pats (sigma pats w) ++ [c]) :=
            sigma_snoc_border pats hin
          have hfixb := border_sigma_fix pats (sigma pats w)
          have hlenb : (sigma pats (border pats (sigma pats w))).length ≤ n := by
            rw [hfixb]
            have := border_length_lt pats hne
            omega
          have hih := ih (border pats (sigma pats w)) c hlenb
          rw [hstep, hih, hfixb, gotoStr_step hin hne]
  intro w c
  exact main (sigma pats w).length w c (Nat.le_refl _)

/-- A filter along a disjunction of disjoint predicates splits as a
permutation of the two filters. -/
lemma filter_partition_perm {γ : Type u} (p q r : γ → Bool) :
    ∀ l : List γ, (∀ x ∈ l, p x = (q x || r x)) → (∀ x ∈ l, ¬(q x = true ∧ r x = true)) →
      (l.filter p).Perm (l.filter q ++ l.filter r) := by
  intro l
  induction l with
  | nil => intro _ _; simp
  | cons a as ih =>
    intro hpq hdisj
    have ihs := ih (fun x hx => hpq x (List.mem_cons_of_mem a hx))
      (fun x hx => hdisj x (List.mem_cons_of_mem a hx))
    have ha := hpq a (List.mem_cons_self a as)
    cases hq : q a with
    | true =>
      have hr : r a = false := by
        cases hrr : r a
        · rfl
        · exact absurd ⟨hq, hrr⟩ (hdisj a (List.mem_cons_self a as))
      have hp : p a = true := by rw [ha, hq]; rfl
      rw [List.filter_cons_of_pos hp, List.filter_cons_of_pos hq,
        List.filter_cons_of_neg (by simp [hr])]
      simpa using ihs.cons a
    | false =>
      cases hr : r a with
      | true =>
        have hp : p a = true := by rw [ha, hq, hr]; rfl
        rw [List.filter_cons_of_pos hp, List.filter_cons_of_neg (by simp [hq]),
          List.filter_cons_of_pos hr]
        exact (ihs.cons a).trans List.perm_middle.symm
      | false =>
        have hp : p a = false := by rw [ha, hq, hr]; rfl
        rw [List.filter_cons_of_neg (by simp [hp]), List.filter_cons_of_neg (by simp [hq]),
          List.filter_cons_of_neg (by simp [hr])]
        exact ihs

/-- Patterns have no suffix occurrence in the empty string. -/
lemma filter_suffix_nil_eq {pats : List (List Char × α)} (hne : ∀ pr ∈ pats, pr.1 ≠ []) :
    pats.filter (fun pr => pr.1.isSuffixOf ([] : List Char)) = [] := by
  rw [List.filter_eq_nil_iff]
  intro pr hpr
  intro hsuf
  exact hne pr hpr (List.suffix_nil.mp (List.isSuffixOf_iff_suffix.mp hsuf))

/-- On nonempty patterns, the propagated output chain of a node string is a
permutation of the inserted identifiers of the patterns that are suffixes of
that string. -/
lemma outChain_perm {pats : List (List Char × α)} (hne : ∀ pr ∈ pats, pr.1 ≠ []) :
    ∀ s : List Char,
      (outChain pats s).Perm
        ((pats.filter (fun pr => pr.1.isSuffixOf s)).map Prod.snd) := by
  have hnil : (outChain pats []).Perm
      ((pats.filter (fun pr => pr.1.isSuffixOf ([] : List Char))).map Prod.snd) := by
    rw [outChain, if_pos (by simp)]
    have h1 : pats.filter (fun pr => pr.1 = ([] : List Char)) = [] := by
      rw [List.filter_eq_nil_iff]
      intro pr hpr
      simp only [decide_eq_true_eq]
      exact hne pr hpr
    rw [directOuts, h1, filter_suffix_nil_eq hne]
  have main : ∀ (n : Nat) (s : List Char), s.length ≤ n →
      (outChain pats s).Perm
        ((pats.filter (fun pr => pr.1.isSuffixOf s)).map Prod.snd) := by
    intro n
    induction n with
    | zero =>
      intro s hlen
      have hs : s = [] := List.eq_nil_of_length_eq_zero (Nat.le_zero.mp hlen)
      subst hs
      exact hnil
    | succ n ih =>
      intro s hlen
      by_cases hlen1 : s.length ≤ 1
      · cases s with
        | nil => exact hnil
        | cons a as =>
          have has : as = [] := by simpa using hlen1
          subst has
          rw [outChain, if_pos (by simp), directOuts]
          have hcongr : pats.filter (fun pr => pr.1 = [a]) =
              pats.filter (fun pr => pr.1.isSuffixOf [a]) := by
            apply List.filter_congr
            intro pr hpr
            rw [Bool.eq_iff_iff]
            simp only [decide_eq_true_eq, List.isSuffixOf_iff_suffix]
            constructor
            · intro h
              exact h ▸ List.suffix_refl _
            · intro h
              rcases List.suffix_cons_iff.mp h with h2 | h2
              · exact h2
              · rw [List.suffix_nil] at h2
                exact absurd h2 (hne pr hpr)
          rw [hcongr]
      · rw [outChain, if_neg hlen1]
        have hsne : s ≠ [] := by
          intro h
          rw [h] at hlen1
          simp at hlen1
        have hpq : ∀ x ∈ pats, (fun pr : List Char × α => pr.1.isSuffixOf s) x =
            ((fun pr : List Char × α => decide (pr.1 = s)) x ||
             (fun pr : List Char × α => pr.1.isSuffixOf (border pats s)) x) := by
          intro x hx
          rw [Bool.eq_iff_iff]
          simp only [List.isSuffixOf_iff_suffix, Bool.or_eq_true, decide_eq_true_eq]
          constructor
          · intro h
            rcases eq_or_ne x.1 s with hEq | hNe
            · exact Or.inl hEq
            · right
              have hint : inTrie pats x.1 = true :=
                inTrie_self (show (x.1, x.2) ∈ pats by simpa using hx)
              exact sigma_chain pats (s.drop 1) x.1 (proper_suffix_drop h hNe)
                (hne x hx) hint
          · rintro (rfl | h)
            · exact List.suffix_refl _
            · exact h.trans ((border_suffix_drop pats s).trans (List.drop_suffix 1 s))
        have hdisj : ∀ x ∈ pats,
            ¬((fun pr : List Char × α => decide (pr.1 = s)) x = true ∧
              (fun pr : List Char × α => pr.1.isSuffixOf (border pats s)) x = true) := by
          intro x _
          rintro ⟨h1, h2⟩
          replace h1 : x.1 = s := by simpa using h1
          rw [List.isSuffixOf_iff_suffix] at h2
          have hl2 := h2.length_le
          have hl3 := border_length_lt pats hsne
          rw [h1] at hl2
          omega
        have hpart := filter_partition_perm
          (fun pr : List Char × α => pr.1.isSuffixOf s)
          (fun pr : List Char × α => decide (pr.1 = s))
          (fun pr : List Char × α => pr.1.isSuffixOf (border pats s)) pats hpq hdisj
        have hih : (outChain pats (border pats s)).Perm
            ((pats.filter (fun pr => pr.1.isSuffixOf (border pats s))).map Prod.snd) := by
          apply ih
          have := border_length_lt pats hsne
          omega
        refine List.Perm.trans ?_ (List.Perm.map Prod.snd hpart).symm
        rw [List.map_append]
        exact hih.append_left (directOuts pats s)
  intro s
  exact main s.length s (Nat.le_refl _)

/-- A prefix whose symbols all satisfy the predicate is a prefix of the
takeWhile. -/
lemma prefix_takeWhile_of_all {p : Char → Bool} :
    ∀ (l1 l2 : List Char), l1 <+: l2 → (∀ x ∈ l1, p x = true) → l1 <+: l2.takeWhile p := by
  intro l1
  induction l1 with
  | nil => intro l2 _ _; exact List.nil_prefix
  | cons a t ih =>
    intro l2 hpre hall
    obtain ⟨rest, hrest⟩ := hpre
    subst hrest
    rw [List.cons_append, List.takeWhile_cons_of_pos (hall a (List.mem_cons_self a t))]
    exact List.cons_prefix_cons.mpr ⟨rfl, ih (t ++ rest) ⟨rest, rfl⟩
      (fun x hx => hall x (List.mem_cons_of_mem a hx))⟩

/-- The clean suffix is a suffix. -/
lemma cleanSuffix_suffix (u : List Char) : cleanSuffix u <:+ u := by
  rw [cleanSuffix, ← List.reverse_reverse u]
  rw [List.reverse_suffix]
  rw [List.reverse_reverse]
  exact List.takeWhile_prefix _

/-- Extending by an alphabet symbol extends the clean suffix. -/
lemma cleanSuffix_snoc_alpha {u : List Char} {c : Char} (hc : c ∈ ALPHABET) :
    cleanSuffix (u ++ [c]) = cleanSuffix u ++ [c] := by
  rw [cleanSuffix, cleanSuffix, List.reverse_append]
  simp only [List.reverse_cons, List.reverse_nil, List.nil_append, List.singleton_append]
  rw [List.takeWhile_cons_of_pos (by simpa using hc)]
  simp

/-- An out-of-alphabet symbol empties the clean suffix. -/
lemma cleanSuffix_snoc_bad {u : List Char} {c : Char} (hc : c ∉ ALPHABET) :
    cleanSuffix (u ++ [c]) = [] := by
  rw [cleanSuffix, List.reverse_append]
  simp only [List.reverse_cons, List.reverse_nil, List.nil_append, List.singleton_append]
  rw [List.takeWhile_cons_of_neg (by simpa using hc)]
  rfl

/-- An alphabet-only suffix is a suffix of the clean suffix. -/
lemma suffix_cleanSuffix {p u : List Char} (h : p <:+ u)
    (hp : ∀ x ∈ p, x ∈ ALPHABET) : p <:+ cleanSuffix u := by
  rw [cleanSuffix, ← List.reverse_reverse p, List.reverse_suffix]
  apply prefix_takeWhile_of_all
  · exact List.reverse_prefix.mpr h
  · intro x hx
    simp only [List.mem_reverse] at hx
    simpa using hp x hx

/-- Composite scan over two text fragments. -/
lemma reach_append (ns : List (Node α)) :
    ∀ (s t : List Char) (v : Nat),
      reach ns v (s ++ t) = (reach ns v s).bind (fun u => reach ns u t) := by
  intro s
  induction s with
  | nil => intro t v; rfl
  | cons c cs ih =>
    intro t v
    rw [List.cons_append, reach, reach]
    cases lookupChild (nodeAt ns v).next c with
    | none => rfl
    | some u => exact ih t u

/-- Scan of a one-symbol extension. -/
lemma reach_snoc (ns : List (Node α)) (s : List Char) (c : Char) (v : Nat) :
    reach ns v (s ++ [c]) =
      (reach ns v s).bind (fun u => lookupChild (nodeAt ns u).next c) := by
  rw [reach_append]
  cases reach ns v s with
  | none => rfl
  | some u =>
    show reach ns u [c] = _
    rw [reach]
    cases h : lookupChild (nodeAt ns u).next c with
    | none => simp [h]
    | some w => simp [h, reach]

/-- A present binding survives appending new bindings. -/
lemma lookupChild_append_some {l : List (Char × Nat)} {d : Char} {x : Nat}
    (h : lookupChild l d = some x) (e : List (Char × Nat)) :
    lookupChild (l ++ e) d = some x := by
  induction l with
  | nil => cases h
  | cons kv rest ih =>
    obtain ⟨k, w⟩ := kv
    rw [lookupChild] at h
    rw [List.cons_append, lookupChild]
    by_cases hk : k = d
    · rwa [if_pos hk] at h ⊢
    · rw [if_neg hk] at h ⊢
      exact ih h

/-- Appending a binding for an absent key makes it found. -/
lemma lookupChild_append_none_hit {l : List (Char × Nat)} {c : Char} {u : Nat}
    (h : lookupChild l c = none) :
    lookupChild (l ++ [(c, u)]) c = some u := by
  induction l with
  | nil => simp [lookupChild]
  | cons kv rest ih =>
    obtain ⟨k, w⟩ := kv
    rw [lookupChild] at h
    rw [List.cons_append, lookupChild]
    by_cases hk : k = c
    · rw [if_pos hk] at h
      cases h
    · rw [if_neg hk] at h ⊢
      exact ih h

/-- Appending a binding for another key does not create a binding. -/
lemma lookupChild_append_none_miss {l : List (Char × Nat)} {c d : Char} {u : Nat}
    (h : lookupChild l d = none) (hcd : c ≠ d) :
    lookupChild (l ++ [(c, u)]) d = none := by
  induction l with
  | nil => simp [lookupChild, hcd]
  | cons kv rest ih =>
    obtain ⟨k, w⟩ := kv
    rw [lookupChild] at h
    rw [List.cons_append, lookupChild]
    by_cases hk : k = d
    · rw [if_pos hk] at h
      cases h
    · rw [if_neg hk] at h ⊢
      exact ih h

/-- A key is absent exactly when lookup fails. -/
lemma lookupChild_none_iff {l : List (Char × Nat)} {c : Char} :
    lookupChild l c = none ↔ c ∉ l.map Prod.fst := by
  induction l with
  | nil => simp [lookupChild]
  | cons kv rest ih =>
    obtain ⟨k, w⟩ := kv
    rw [lookupChild]
    by_cases hk : k = c
    · subst hk
      simp
    · rw [if_neg hk]
      simp only [List.map_cons, List.mem_cons]
      rw [ih]
      constructor
      · intro h
        rintro (rfl | hmem)
        · exact hk rfl
        · exact h hmem
      · intro h hmem
        exact h (Or.inr hmem)

/-- A found binding is a member. -/
lemma lookupChild_mem {l : List (Char × Nat)} {c : Char} {u : Nat}
    (h : lookupChild l c = some u) : (c, u) ∈ l := by
  induction l with
  | nil => cases h
  | cons kv rest ih =>
    obtain ⟨k, w⟩ := kv
    rw [lookupChild] at h
    by_cases hk : k = c
    · rw [if_pos hk] at h
      injection h with h
      subst hk
      subst h
      exact List.mem_cons_self _ _
    · rw [if_neg hk] at h
      exact List.mem_cons_of_mem _ (ih h)

/-- Scanning depends only on the transition structure. -/
lemma reach_congr {ns1 ns2 : List (Node α)}
    (h : ∀ v, (nodeAt ns1 v).next = (nodeAt ns2 v).next) :
    ∀ (t : List Char) (v : Nat), reach ns1 v t = reach ns2 v t := by
  intro t
  induction t with
  | nil => intro v; rfl
  | cons c cs ih =>
    intro v
    rw [reach, reach, h v]
    cases lookupChild (nodeAt ns2 v).next c with
    | none => rfl
    | some u => exact ih u

/-- Scanning from inside the arena stays inside the arena. -/
lemma reach_lt {ns : List (Node α)}
    (hedge : ∀ v, ∀ pr ∈ (nodeAt ns v).next, pr.2 < ns.length) :
    ∀ (s : List Char) (w v : Nat), w < ns.length → reach ns w s = some v → v < ns.length := by
  intro s
  induction s with
  | nil =>
    intro w v hw h
    injection h with h
    exact h ▸ hw
  | cons c cs ih =>
    intro w v hw h
    rw [reach] at h
    cases hl : lookupChild (nodeAt ns w).next c with
    | none => rw [hl] at h; cases h
    | some u =>
      rw [hl] at h
      exact ih u v (hedge w _ (lookupChild_mem hl)) h

/-- The reach of a compound string forces the reach of its first part. -/
lemma reach_isSome_of_append {ns : List (Node α)} {a b : List Char} {v : Nat}
    (h : (reach ns v (a ++ b)).isSome) : (reach ns v a).isSome := by
  rw [reach_append] at h
  cases hr : reach ns v a with
  | none => rw [hr] at h; cases h
  | some u => rfl

/-- Trie descent correctness: inserting a word extends the arena with the
missing path nodes, preserving the existing structure, the well-formedness
invariant, and all output lists, and reaching exactly the extensions of the
insertion point. -/
lemma addLoop_spec :
    ∀ (cs : List Char) (ns : List (Node α)) (v0 : Nat) (s0 : List Char),
      ArenaInv ns → reach ns 0 s0 = some v0 →
      ArenaInv (addLoop ns v0 cs).1 ∧
      reach (addLoop ns v0 cs).1 0 (s0 ++ cs) = some (addLoop ns v0 cs).2 ∧
      (∀ t v, reach ns 0 t = some v → reach (addLoop ns v0 cs).1 0 t = some v) ∧
      (∀ t, (reach (addLoop ns v0 cs).1 0 t).isSome →
        (reach ns 0 t).isSome ∨ ∃ mid, mid <+: cs ∧ t = s0 ++ mid) ∧
      (∀ v, (nodeAt (addLoop ns v0 cs).1 v).out = (nodeAt ns v).out) ∧
      ns.length ≤ (addLoop ns v0 cs).1.length := by
  intro cs
  induction cs with
  | nil =>
    intro ns v0 s0 hinv hreach
    rw [addLoop]
    exact ⟨hinv, by simpa using hreach, fun t v h => h, fun t h => Or.inl h,
      fun v => rfl, Nat.le_refl _⟩
  | cons c cs ih =>
    intro ns v0 s0 hinv hreach
    rw [addLoop]
    cases hl : lookupChild (nodeAt ns v0).next c with
    | some u =>
      have hreach2 : reach ns 0 (s0 ++ [c]) = some u := by
        rw [reach_snoc, hreach]
        exact hl
      obtain ⟨h1, h2, h3, h4, h5, h6⟩ := ih ns u (s0 ++ [c]) hinv hreach2
      refine ⟨h1, by simpa using h2, h3, ?_, h5, h6⟩
      intro t ht
      rcases h4 t ht with h | ⟨mid, hmid, rfl⟩
      · exact Or.inl h
      · exact Or.inr ⟨c :: mid, List.cons_prefix_cons.mpr ⟨rfl, hmid⟩,
          by rw [List.append_assoc]; rfl⟩
    | none =>
      have hv0 : v0 < ns.length := reach_lt hinv.edge_lt s0 0 v0 hinv.root_lt hreach
      set nw : Node α := ⟨[], 0, [], none⟩ with hnw
      set ns2 := setNode (ns ++ [nw]) v0
        { nodeAt (ns ++ [nw]) v0 with
          next := (nodeAt (ns ++ [nw]) v0).next ++ [(c, ns.length)] } with hns2
      have hlen1 : (ns ++ [nw]).length = ns.length + 1 := by simp
      have hlen2 : ns2.length = ns.length + 1 := by
        rw [hns2, setNode, List.length_set, hlen1]
      have hAt_v0 : nodeAt ns2 v0 =
          { nodeAt ns v0 with next := (nodeAt ns v0).next ++ [(c, ns.length)] } := by
        rw [hns2, nodeAt_setNode_self (by omega), nodeAt_append_lt hv0]
      have hAt_u : nodeAt ns2 ns.length = nw := by
        rw [hns2, nodeAt_setNode_ne (by omega), nodeAt_append_self]
      have hAt_other : ∀ w, w ≠ v0 → w ≠ ns.length → nodeAt ns2 w = nodeAt ns w := by
        intro w hw1 hw2
        rw [hns2, nodeAt_setNode_ne hw1]
        by_cases hw : w < ns.length
        · exact nodeAt_append_lt hw nw
        · rw [nodeAt_oob (by omega), nodeAt_oob (by omega)]
      have hRC1 : ∀ (t : List Char) (w vres : Nat), w < ns.length →
          reach ns w t = some vres → reach ns2 w t = some vres := by
        intro t
        induction t with
        | nil => intro w vres _ h; exact h
        | cons d t2 iht =>
          intro w vres hw h
          rw [reach] at h ⊢
          cases hld : lookupChild (nodeAt ns w).next d with
          | none => rw [hld] at h; cases h
          | some w2 =>
            rw [hld] at h
            have hw2 : w2 < ns.length := hinv.edge_lt w _ (lookupChild_mem hld)
            have hstep : lookupChild (nodeAt ns2 w).next d = some w2 := by
              by_cases hwv : w = v0
              · rw [hwv] at hld ⊢
                rw [hAt_v0]
                exact lookupChild_append_some hld _
              · rw [hAt_other w hwv (by omega)]
                exact hld
            rw [hstep]
            exact iht w2 vres hw2 h
      have hreach_u : reach ns2 0 (s0 ++ [c]) = some ns.length := by
        rw [reach_snoc, hRC1 s0 0 v0 hinv.root_lt hreach]
        show lookupChild (nodeAt ns2 v0).next c = some ns.length
        rw [hAt_v0]
        exact lookupChild_append_none_hit hl
      have hRC3 : ∀ (t : List Char) (w vres : Nat), w < ns.length →
          reach ns2 w t = some vres →
          reach ns w t = some vres ∨
            ∃ mid, t = mid ++ [c] ∧ reach ns w mid = some v0 ∧ vres = ns.length := by
        intro t
        induction t with
        | nil => intro w vres _ h; exact Or.inl h
        | cons d t2 iht =>
          intro w vres hw h
          rw [reach] at h
          by_cases hwv : v0 = w
          · subst hwv
            rw [hAt_v0] at h
            cases hld : lookupChild (nodeAt ns v0).next d with
            | some w2 =>
              rw [lookupChild_append_some hld _] at h
              have hw2 : w2 < ns.length := hinv.edge_lt v0 _ (lookupChild_mem hld)
              rcases iht w2 vres hw2 h with hres | ⟨mid, rfl, hmid, hvres⟩
              · left
                rw [reach, hld]
                exact hres
              · right
                refine ⟨d :: mid, (List.cons_append d mid [c]).symm, ?_, hvres⟩
                rw [reach, hld]
                exact hmid
            | none =>
              by_cases hdc : d = c
              · subst hdc
                rw [lookupChild_append_none_hit hld] at h
                cases t2 with
                | nil =>
                  injection h with h
                  exact Or.inr ⟨[], by simp, rfl, h.symm⟩
                | cons e t3 =>
                  have h2 : reach ns2 ns.length (e :: t3) = some vres := h
                  rw [reach, hAt_u] at h2
                  simp [lookupChild, hnw] at h2
              · rw [lookupChild_append_none_miss hld (fun hx => hdc hx.symm)] at h
                cases h
          · rw [hAt_other w (fun hx => hwv hx.symm) (by omega)] at h
            cases hld : lookupChild (nodeAt ns w).next d with
            | none => rw [hld] at h; cases h
            | some w2 =>
              rw [hld] at h
              have hw2 : w2 < ns.length := hinv.edge_lt w _ (lookupChild_mem hld)
              rcases iht w2 vres hw2 h with hres | ⟨mid, rfl, hmid, hvres⟩
              · left
                rw [reach, hld]
                exact hres
              · right
                refine ⟨d :: mid, (List.cons_append d mid [c]).symm, ?_, hvres⟩
                rw [reach, hld]
                exact hmid
      have hinv2 : ArenaInv ns2 := by
        constructor
        · omega
        · intro s t v hs ht
          rcases hRC3 s 0 v hinv.root_lt hs with hs1 | ⟨mids, rfl, hmids, rfl⟩
          · rcases hRC3 t 0 v hinv.root_lt ht with ht1 | ⟨midt, rfl, hmidt, hveq⟩
            · exact hinv.inj s t v hs1 ht1
            · exfalso
              have := reach_lt hinv.edge_lt s 0 v hinv.root_lt hs1
              omega
          · rcases hRC3 t 0 ns.length hinv.root_lt ht with ht1 | ⟨midt, rfl, hmidt, _⟩
            · exfalso
              have := reach_lt hinv.edge_lt t 0 ns.length hinv.root_lt ht1
              omega
            · rw [hinv.inj mids midt v0 hmids hmidt]
        · intro v hv
          rw [hlen2] at hv
          by_cases hvlt : v < ns.length
          · obtain ⟨s, hs⟩ := hinv.surj v hvlt
            exact ⟨s, hRC1 s 0 v hinv.root_lt hs⟩
          · have hveq : v = ns.length := by omega
            subst hveq
            exact ⟨s0 ++ [c], hreach_u⟩
        · intro v
          by_cases hvv : v = v0
          · subst hvv
            rw [hAt_v0]
            simp only [List.map_append]
            rw [List.nodup_append]
            refine ⟨hinv.keys_nodup v, by simp, ?_⟩
            intro x hx
            simp only [List.map_cons, List.map_nil, List.mem_singleton]
            intro hxc
            subst hxc
            exact (lookupChild_none_iff.mp hl) hx
          · by_cases hvu : v = ns.length
            · subst hvu
              rw [hAt_u]
              simp [hnw]
            · rw [hAt_other v hvv hvu]
              exact hinv.keys_nodup v
        · intro v pr hpr
          rw [hlen2]
          by_cases hvv : v = v0
          · subst hvv
            rw [hAt_v0] at hpr
            simp only [List.mem_append, List.mem_singleton] at hpr
            rcases hpr with hpr | rfl
            · have := hinv.edge_lt v pr hpr
              omega
            · omega
          · by_cases hvu : v = ns.length
            · subst hvu
              rw [hAt_u] at hpr
              simp [hnw] at hpr
            · rw [hAt_other v hvv hvu] at hpr
              have := hinv.edge_lt v pr hpr
              omega
      have hout2 : ∀ v, (nodeAt ns2 v).out = (nodeAt ns v).out := by
        intro v
        by_cases hvv : v = v0
        · subst hvv
          rw [hAt_v0]
        · by_cases hvu : v = ns.length
          · subst hvu
            rw [hAt_u, nodeAt_oob (Nat.le_refl _)]
          · rw [hAt_other v hvv hvu]
      obtain ⟨h1, h2, h3, h4, h5, h6⟩ := ih ns2 ns.length (s0 ++ [c]) hinv2 hreach_u
      refine ⟨h1, ?_, ?_, ?_, ?_, ?_⟩
      · rw [List.append_assoc, List.singleton_append] at h2
        exact h2
      · intro t v ht
        exact h3 t v (hRC1 t 0 v hinv.root_lt ht)
      · intro t ht
        rcases h4 t ht with hsome | ⟨mid, hmid, rfl⟩
        · cases hres : reach ns2 0 t with
          | none => rw [hres] at hsome; cases hsome
          | some vres =>
            rcases hRC3 t 0 vres hinv.root_lt hres with hres2 | ⟨mid2, rfl, hmid2, _⟩
            · exact Or.inl (by rw [hres2]; rfl)
            · right
              rw [hinv.inj mid2 s0 v0 hmid2 hreach]
              exact ⟨[c], ⟨cs, rfl⟩, rfl⟩
        · right
          exact ⟨c :: mid, List.cons_prefix_cons.mpr ⟨rfl, hmid⟩,
            by rw [List.append_assoc]; rfl⟩
      · intro v
        rw [h5 v, hout2 v]
      · calc ns.length ≤ ns2.length := by omega
          _ ≤ (addLoop ns2 ns.length cs).1.length := h6

/-- Appending one pattern appends its identifier to the direct outputs of its
own node string and leaves every other node string unchanged. -/
lemma directOuts_append (pats : List (List Char × α)) (p : List Char) (i : α) (s : List Char) :
    directOuts (pats ++ [(p, i)]) s =
      directOuts pats s ++ (if p = s then [i] else []) := by
  rw [directOuts, directOuts, List.filter_append, List.map_append]
  congr 1
  by_cases h : p = s
  · simp [h]
  · simp [h]

/-- Membership in the extended trie: prefix of an old pattern or of the new
one. -/
lemma inTrie_append {pats : List (List Char × α)} {p : List Char} {i : α} {s : List Char} :
    inTrie (pats ++ [(p, i)]) s = (inTrie pats s || s.isPrefixOf p) := by
  rw [inTrie, inTrie, List.any_append]
  simp

/-- Correctness of one `add` call: the arena invariant is preserved and the
domain and direct-output characterisations extend to the appended pattern. -/
lemma add_spec {pats : List (List Char × α)} {ns : List (Node α)} (p : List Char) (i : α)
    (hinv : ArenaInv ns) (hdom : trieDom pats ns) (hout : trieOut pats ns) :
    ArenaInv (AhoCorasick.add ⟨ns⟩ p i).nodes ∧
    trieDom (pats ++ [(p, i)]) (AhoCorasick.add ⟨ns⟩ p i).nodes ∧
    trieOut (pats ++ [(p, i)]) (AhoCorasick.add ⟨ns⟩ p i).nodes := by
  obtain ⟨h1, h2, h3, h4, h5, h6⟩ := addLoop_spec p ns 0 [] hinv rfl
  rw [List.nil_append] at h2
  set ns' := (addLoop ns 0 p).1 with hnsp
  set v' := (addLoop ns 0 p).2 with hvp
  have hv'lt : v' < ns'.length := reach_lt h1.edge_lt p 0 v' h1.root_lt h2
  set ns2 := setNode ns' v' { nodeAt ns' v' with out := (nodeAt ns' v').out ++ [i] } with hns2
  have hadd : (AhoCorasick.add ⟨ns⟩ p i).nodes = ns2 := rfl
  have hlen : ns2.length = ns'.length := by rw [hns2, setNode, List.length_set]
  have hnext : ∀ v, (nodeAt ns2 v).next = (nodeAt ns' v).next := by
    intro v
    by_cases hv : v = v'
    · subst hv
      rw [hns2, nodeAt_setNode_self hv'lt]
    · rw [hns2, nodeAt_setNode_ne hv]
  have hreq : ∀ t v, reach ns2 v t = reach ns' v t := fun t v => reach_congr hnext t v
  have houtv : ∀ v, (nodeAt ns2 v).out =
      (nodeAt ns' v).out ++ (if v = v' then [i] else []) := by
    intro v
    by_cases hv : v = v'
    · subst hv
      rw [hns2, nodeAt_setNode_self hv'lt, if_pos rfl]
    · rw [hns2, nodeAt_setNode_ne hv, if_neg hv]
      simp
  have hout' : ∀ s v, reach ns' 0 s = some v → (nodeAt ns' v).out = directOuts pats s := by
    intro s v h
    by_cases hvlt : v < ns.length
    · obtain ⟨s2, hs2⟩ := hinv.surj v hvlt
      have heq : s2 = s := h1.inj s2 s v (h3 s2 v hs2) h
      rw [heq] at hs2
      rw [h5 v]
      exact hout s v hs2
    · rw [h5 v, nodeAt_oob (by omega)]
      show ([] : List α) = directOuts pats s
      symm
      rw [directOuts, List.map_eq_nil_iff, List.filter_eq_nil_iff]
      intro pr hpr hps
      rw [decide_eq_true_eq] at hps
      have htr : inTrie pats s = true := by
        rw [← hps]
        exact inTrie_self (p := pr.1) (i := pr.2) (by rw [Prod.mk.eta]; exact hpr)
      have hsome := (hdom s).mpr (Or.inr htr)
      cases hr : reach ns 0 s with
      | none => rw [hr] at hsome; cases hsome
      | some u =>
        have hu := h3 s u hr
        rw [h] at hu
        injection hu with hu
        have hult := reach_lt hinv.edge_lt s 0 u hinv.root_lt hr
        omega
  refine ⟨?_, ?_, ?_⟩
  · rw [hadd]
    constructor
    · rw [hlen]
      exact h1.root_lt
    · intro s t v hs ht
      rw [hreq] at hs ht
      exact h1.inj s t v hs ht
    · intro v hv
      rw [hlen] at hv
      obtain ⟨s, hs⟩ := h1.surj v hv
      exact ⟨s, by rw [hreq]; exact hs⟩
    · intro v
      rw [hnext v]
      exact h1.keys_nodup v
    · intro v pr hpr
      rw [hnext v] at hpr
      rw [hlen]
      exact h1.edge_lt v pr hpr
  · intro s
    rw [hadd, hreq]
    constructor
    · intro hsome
      rcases h4 s hsome with hold | ⟨mid, hmid, hs⟩
      · rcases (hdom s).mp hold with rfl | htr
        · exact Or.inl rfl
        · right
          rw [inTrie_append, htr]
          rfl
      · right
        rw [inTrie_append]
        have hsp : s.isPrefixOf p = true := by
          rw [hs, List.nil_append]
          exact List.isPrefixOf_iff_prefix.mpr hmid
        rw [hsp]
        simp
    · intro hcase
      rcases hcase with rfl | htr
      · rfl
      · rw [inTrie_append, Bool.or_eq_true] at htr
        rcases htr with htr | hpref
        · have hsome := (hdom s).mpr (Or.inr htr)
          cases hr : reach ns 0 s with
          | none => rw [hr] at hsome; cases hsome
          | some u => rw [h3 s u hr]; rfl
        · obtain ⟨rest, hrest⟩ := List.isPrefixOf_iff_prefix.mp hpref
          exact reach_isSome_of_append (a := s) (b := rest) (by rw [hrest, h2]; rfl)
  · intro s v h
    rw [hadd] at h ⊢
    rw [hreq] at h
    rw [houtv v, hout' s v h, directOuts_append]
    by_cases hv : v = v'
    · subst hv
      have hsp : s = p := h1.inj s p v' h h2
      subst hsp
      rw [if_pos rfl, if_pos rfl]
    · have hps : p ≠ s := by
        intro hps
        subst hps
        rw [h] at h2
        injection h2 with h2
        exact hv h2
      rw [if_neg hv, if_neg hps]

/-- The fresh automaton has no transitions: no nonempty string reaches. -/
lemma reach_init_cons (v : Nat) (c : Char) (cs : List Char) :
    reach (AhoCorasick.init (α := α)).nodes v (c :: cs) = none := by
  cases v <;> rfl

/-- The fresh automaton satisfies the insertion invariants for the empty
pattern list. -/
lemma init_spec :
    ArenaInv (AhoCorasick.init (α := α)).nodes ∧
    trieDom ([] : List (List Char × α)) AhoCorasick.init.nodes ∧
    trieOut ([] : List (List Char × α)) AhoCorasick.init.nodes := by
  refine ⟨⟨?_, ?_, ?_, ?_, ?_⟩, ?_, ?_⟩
  · simp [AhoCorasick.init]
  · intro s t v hs ht
    cases s with
    | nil =>
      cases t with
      | nil => rfl
      | cons c cs => rw [reach_init_cons] at ht; cases ht
    | cons c cs => rw [reach_init_cons] at hs; cases hs
  · intro v hv
    have hv0 : v = 0 := by
      simp [AhoCorasick.init] at hv
      omega
    subst hv0
    exact ⟨[], rfl⟩
  · intro v
    cases v <;> exact List.nodup_nil
  · intro v pr hpr
    cases v <;> cases hpr
  · intro s
    constructor
    · intro h
      cases s with
      | nil => exact Or.inl rfl
      | cons c cs => rw [reach_init_cons] at h; cases h
    · rintro (rfl | htr)
      · rfl
      · rw [inTrie] at htr
        simp at htr
  · intro s v h
    cases s with
    | nil =>
      injection h with h
      subst h
      rfl
    | cons c cs => rw [reach_init_cons] at h; cases h

/-- The insertion fold extends the invariants pattern by pattern. -/
lemma addAll_loop_spec :
    ∀ (rest done : List (List Char × α)) (ac : AhoCorasick α),
      ArenaInv ac.nodes → trieDom done ac.nodes → trieOut done ac.nodes →
      ArenaInv (rest.foldl (fun a pr => a.add pr.1 pr.2) ac).nodes ∧
      trieDom (done ++ rest) (rest.foldl (fun a pr => a.add pr.1 pr.2) ac).nodes ∧
      trieOut (done ++ rest) (rest.foldl (fun a pr => a.add pr.1 pr.2) ac).nodes := by
  intro rest
  induction rest with
  | nil =>
    intro done ac hinv hdom hout
    simpa using ⟨hinv, hdom, hout⟩
  | cons pr rest ih =>
    intro done ac hinv hdom hout
    obtain ⟨h1, h2, h3⟩ := add_spec pr.1 pr.2 hinv hdom hout
    have hmain := ih (done ++ [(pr.1, pr.2)]) (ac.add pr.1 pr.2) h1 h2 h3
    rw [Prod.mk.eta] at hmain
    rw [List.foldl_cons, List.append_cons]
    exact hmain

/-- The insertion phase builds a well-formed trie recognising exactly the
prefixes of the inserted patterns, with insertion-ordered direct outputs. -/
lemma addAll_spec (pats : List (List Char × α)) :
    ArenaInv (addAll pats).nodes ∧ trieDom pats (addAll pats).nodes ∧
    trieOut pats (addAll pats).nodes := by
  have hinit := init_spec (α := α)
  have hmain := addAll_loop_spec pats [] AhoCorasick.init hinit.1 hinit.2.1 hinit.2.2
  simpa [addAll] using hmain

/-- A node string is strictly shorter than the arena: its prefixes reach
pairwise distinct nodes. -/
lemma reach_length_lt {ns : List (Node α)} (hinv : ArenaInv ns) {s : List Char} {v : Nat}
    (h : reach ns 0 s = some v) : s.length < ns.length := by
  have hpre : ∀ i : Fin (s.length + 1), (reach ns 0 (s.take i)).isSome := by
    intro i
    apply reach_isSome_of_append (b := s.drop i)
    rw [List.take_append_drop, h]
    rfl
  have hlt : ∀ i : Fin (s.length + 1), ((reach ns 0 (s.take i)).get (hpre i)) < ns.length := by
    intro i
    exact reach_lt hinv.edge_lt (s.take i) 0 _ hinv.root_lt (Option.some_get (hpre i)).symm
  let f : Fin (s.length + 1) → Fin ns.length := fun i => ⟨_, hlt i⟩
  have hfinj : Function.Injective f := by
    intro i j hij
    have hval : (reach ns 0 (s.take i)).get (hpre i) = (reach ns 0 (s.take j)).get (hpre j) :=
      congrArg Fin.val hij
    have htake : s.take i = s.take j := by
      apply hinv.inj _ _ _ (Option.some_get (hpre i)).symm
      rw [hval]
      exact (Option.some_get (hpre j)).symm
    have hleni : (s.take (i : Nat)).length = i := by
      rw [List.length_take]
      exact Nat.min_eq_left (Nat.le_of_lt_succ i.isLt)
    have hlenj : (s.take (j : Nat)).length = j := by
      rw [List.length_take]
      exact Nat.min_eq_left (Nat.le_of_lt_succ j.isLt)
    apply Fin.ext
    rw [← hleni, ← hlenj, htake]
  have hcard := Fintype.card_le_of_injective f hfinj
  simpa using hcard

/-- With unique keys, membership determines the lookup. -/
lemma lookupChild_of_mem {l : List (Char × Nat)} (hnd : (l.map Prod.fst).Nodup)
    {c : Char} {u : Nat} (h : (c, u) ∈ l) : lookupChild l c = some u := by
  induction l with
  | nil => cases h
  | cons kv rest ih =>
    obtain ⟨k, w⟩ := kv
    rw [List.map_cons, List.nodup_cons] at hnd
    rcases List.mem_cons.mp h with heq | hmem
    · rw [← heq, lookupChild, if_pos rfl]
    · rw [lookupChild]
      by_cases hk : k = c
      · exfalso
        apply hnd.1
        rw [hk, List.mem_map]
        exact ⟨(c, u), hmem, rfl⟩
      · rw [if_neg hk]
        exact ih hnd.2 hmem

/-- The string-level failure walk from the root stays at the root. -/
lemma failWalkStr_nil (pats : List (List Char × α)) (c : Char) :
    failWalkStr pats [] c = [] := by
  rw [failWalkStr]
  by_cases h : inTrie pats ([] ++ [c]) = true
  · rw [if_pos h]
  · rw [if_neg h, if_pos rfl]

/-- Transfer of finality along an unchanged node. -/
lemma finalAt_congr {pats : List (List Char × α)} {ns0 ns ns' : List (Node α)}
    {s : List Char} {v : Nat} (h : FinalAt pats ns0 ns s v)
    (he : nodeAt ns' v = nodeAt ns v) : FinalAt pats ns0 ns' s v := by
  obtain ⟨⟨bv, hbv, hfl⟩, hol⟩ := h
  exact ⟨⟨bv, hbv, by rw [he]; exact hfl⟩, by rw [he]; exact hol⟩

/-- The failure-chain walk of `build` and the scanners computes the node of
the string-level walk, provided every node visited (string length at most
that of the start) carries its final failure link. -/
lemma failWalk_spec {pats : List (List Char × α)} {ns0 ns : List (Node α)}
    (hinv : ArenaInv ns0) (hdom : trieDom pats ns0)
    (hK1 : ∀ v, (nodeAt ns v).next = (nodeAt ns0 v).next) (c : Char) :
    ∀ (fuel : Nat) (t : List Char) (vt : Nat), t.length < fuel →
      reach ns0 0 t = some vt →
      (∀ s v, reach ns0 0 s = some v → s.length ≤ t.length → s ≠ [] →
        ∃ bv, reach ns0 0 (border pats s) = some bv ∧ (nodeAt ns v).fail = bv) →
      ∃ wv, reach ns0 0 (failWalkStr pats t c) = some wv ∧ failWalk ns fuel vt c = wv := by
  intro fuel
  induction fuel with
  | zero => intro t vt hlt; omega
  | succ n ih =>
    intro t vt hlt hreach hfail
    rw [failWalk]
    by_cases hvt : vt = 0
    · subst hvt
      have ht : t = [] := hinv.inj t [] 0 hreach rfl
      subst ht
      rw [failWalkStr_nil, if_pos rfl]
      exact ⟨0, rfl, rfl⟩
    · rw [if_neg hvt, hK1 vt]
      have htne : t ≠ [] := by
        intro h
        subst h
        rw [show reach ns0 0 [] = some 0 from rfl] at hreach
        injection hreach with hreach
        exact hvt hreach.symm
      cases hlk : lookupChild (nodeAt ns0 vt).next c with
      | some u =>
        rw [if_pos (show (some u).isSome = true from rfl)]
        have hin : inTrie pats (t ++ [c]) = true := by
          have hsome : (reach ns0 0 (t ++ [c])).isSome = true := by
            rw [reach_snoc, hreach]
            show (lookupChild (nodeAt ns0 vt).next c).isSome = true
            rw [hlk]
            rfl
          rcases (hdom (t ++ [c])).mp hsome with hnil | hin
          · exact absurd hnil (by simp)
          · exact hin
        rw [failWalkStr, if_pos hin]
        exact ⟨vt, hreach, rfl⟩
      | none =>
        rw [if_neg (show ¬(none : Option Nat).isSome = true from by simp)]
        obtain ⟨bv, hbv, hfl⟩ := hfail t vt hreach (Nat.le_refl _) htne
        have hni : inTrie pats (t ++ [c]) = false := by
          cases hval : inTrie pats (t ++ [c]) with
          | true =>
            have hsome := (hdom (t ++ [c])).mpr (Or.inr hval)
            rw [reach_snoc, hreach] at hsome
            revert hsome
            show (lookupChild (nodeAt ns0 vt).next c).isSome = true → _
            rw [hlk]
            intro hsome
            cases hsome
          | false => rfl
        have hbl : (border pats t).length < t.length := border_length_lt pats htne
        have hres := ih (border pats t) bv (by omega) hbv
          (fun s v hs hle hne => hfail s v hs (by omega) hne)
        have hnint : ¬inTrie pats (t ++ [c]) = true := by
          rw [hni]
          simp
        rw [failWalkStr, if_neg hnint, if_neg htne]
        rw [hfl]
        exact hres

/-- The border of an extended node string is the goto step from the border
of the original string. -/
lemma border_snoc {pats : List (List Char × α)} {sr : List Char} (hne : sr ≠ []) (c : Char) :
    border pats (sr ++ [c]) = gotoStr pats (border pats sr) c := by
  have hdrop : (sr ++ [c]).drop 1 = sr.drop 1 ++ [c] := by
    apply List.drop_append_of_le_length
    cases sr with
    | nil => exact absurd rfl hne
    | cons a l => simp
  rw [border, hdrop, sigma_snoc]
  rfl

/-- Unfolding of the output chain below the root children. -/
lemma outChain_deep {pats : List (List Char × α)} {s : List Char} (h : 2 ≤ s.length) :
    outChain pats s = directOuts pats s ++ outChain pats (border pats s) := by
  rw [outChain, if_neg (by omega)]

/-- When the depth-`d` layer is exhausted, the loop invariant advances to
the next layer. -/
lemma buildInv_shift {pats : List (List Char × α)} {ns0 ns : List (Node α)}
    (hdom : trieDom pats ns0)
    {d : Nat} {B C : List (List Char)} {q : List Nat}
    (hI : BuildInv pats ns0 ns d [] B C q) :
    BuildInv pats ns0 ns (d + 1) B [] C q := by
  have hBfull : ∀ s, inTrie pats s = true → s.length = d + 1 → s ∈ B := by
    intro s htr hlen
    rcases hI.covered s htr hlen with hB | hA
    · exact hB
    · cases hA
  refine ⟨hI.next_eq, hI.len_eq, by simpa using hI.queue, hI.lenB, ?_, by omega,
    hI.nodupB, List.nodup_nil, hI.nodupC, ?_, ?_, ?_, ?_, ?_, ?_⟩
  · intro s hs
    cases hs
  · intro s v hs hlen
    rcases Nat.lt_or_ge s.length (d + 1) with hlt | hge
    · exact hI.final_low s v hs (by omega)
    · have hlen' : s.length = d + 1 := by omega
      have htr : inTrie pats s = true := by
        rcases (hdom s).mp (by rw [hs]; rfl) with rfl | htr
        · simp at hlen'
        · exact htr
      exact hI.final_B s (hBfull s htr hlen') v hs
  · intro s hs
    cases hs
  · intro s v hs hlen hsB
    apply hI.out_rest s v hs (by omega)
    intro hsB2
    have := (hI.lenB s hsB2).1
    omega
  · intro s htr hlen
    right
    have hne : s ≠ [] := by
      intro h
      rw [h] at hlen
      simp at hlen
    have hdl : s.dropLast <+: s := by
      refine ⟨[s.getLast hne], ?_⟩
      rw [List.dropLast_append_getLast hne]
    have htr' : inTrie pats s.dropLast = true := inTrie_of_pref htr hdl
    have hlen' : s.dropLast.length = d + 1 := by
      rw [List.length_dropLast]
      omega
    exact hBfull s.dropLast htr' hlen'
  · intro s
    rw [hI.memC s]
    constructor
    · rintro ⟨htr, hlen, hsB⟩
      refine ⟨htr, ?_, List.not_mem_nil s⟩
      rcases Nat.lt_or_ge s.length (d + 2) with hlt | hge
      · have hl : s.length = d + 1 := by omega
        exact absurd (hBfull s htr hl) hsB
      · omega
    · rintro ⟨htr, hlen, h0⟩
      refine ⟨htr, by omega, ?_⟩
      intro hsB
      have := (hI.lenB s hsB).1
      omega
  · intro s hs c hmem
    cases hmem

/-- One dequeued node: folding the child handler over its pending edges
moves each child string from the unreached pool into the enqueued layer,
finalising its failure link and output list. -/
lemma buildFold_spec {pats : List (List Char × α)} {ns0 : List (Node α)}
    (hinv : ArenaInv ns0) (hdom : trieDom pats ns0) (hout0 : trieOut pats ns0)
    {d : Nat} {sr : List Char} {vr : Nat} (hsr : reach ns0 0 sr = some vr) :
    ∀ (pend done : List (Char × Nat)) (ns : List (Node α))
      (A B C : List (List Char)) (q : List Nat),
      (nodeAt ns0 vr).next = done ++ pend →
      MidInv pats ns0 ns d sr A B C pend q →
      ∃ B2 C2,
        MidInv pats ns0 (pend.foldl (buildChild vr) (ns, q)).1 d sr A B2 C2 []
          (pend.foldl (buildChild vr) (ns, q)).2 ∧
        B2.length + C2.length = B.length + C.length := by
  intro pend
  induction pend with
  | nil =>
    intro done ns A B C q hsplit hM
    exact ⟨B, C, hM, rfl⟩
  | cons e pend2 ih =>
    intro done ns A B C q hsplit hM
    obtain ⟨c, u⟩ := e
    have hkeys := hinv.keys_nodup vr
    rw [hsplit] at hkeys
    have hmem_e : (c, u) ∈ (nodeAt ns0 vr).next := by
      rw [hsplit]
      exact List.mem_append_right done (List.mem_cons_self _ _)
    have hlk : lookupChild (nodeAt ns0 vr).next c = some u :=
      lookupChild_of_mem (hinv.keys_nodup vr) hmem_e
    have hsu : reach ns0 0 (sr ++ [c]) = some u := by
      rw [reach_snoc, hsr]
      exact hlk
    have hu_lt0 : u < ns0.length := hinv.edge_lt vr (c, u) hmem_e
    have hsrlen := hM.srlen
    have hdp := hM.dpos
    have hsrne : sr ≠ [] := by
      intro h
      rw [h] at hsrlen
      simp at hsrlen
      omega
    have hsu_len : (sr ++ [c]).length = d + 1 := by
      rw [List.length_append, hsrlen]
      rfl
    have hsu_trie : inTrie pats (sr ++ [c]) = true := by
      rcases (hdom (sr ++ [c])).mp (by rw [hsu]; rfl) with hnil | htr
      · exact absurd hnil (by simp)
      · exact htr
    have hsuB : (sr ++ [c]) ∉ B := hM.pendB (c, u) (List.mem_cons_self _ _)
    have hsuC : (sr ++ [c]) ∈ C := (hM.memC _).mpr ⟨hsu_trie, by omega, hsuB⟩
    obtain ⟨⟨bv, hbv, hfailvr⟩, _⟩ := hM.final_low sr vr hsr (le_of_eq hsrlen)
    have hzlt : (border pats sr).length < d := by
      have := border_length_lt pats hsrne
      omega
    have hdlt : d < ns0.length := by
      have := reach_length_lt hinv hsr
      omega
    obtain ⟨wv, hwv, hwalk⟩ := failWalk_spec hinv hdom hM.next_eq c ns.length
      (border pats sr) bv (by rw [hM.len_eq]; omega) hbv
      (fun s v hs hle hne_ => (hM.final_low s v hs (by omega)).1)
    have hgoto : ∃ gv, reach ns0 0 (gotoStr pats (border pats sr) c) = some gv ∧
        (lookupChild (nodeAt ns wv).next c).getD 0 = gv := by
      rw [hM.next_eq wv]
      cases hglk : lookupChild (nodeAt ns0 wv).next c with
      | some gv =>
        have hrg : reach ns0 0 (failWalkStr pats (border pats sr) c ++ [c]) = some gv := by
          rw [reach_snoc, hwv]
          exact hglk
        have hgin : inTrie pats (failWalkStr pats (border pats sr) c ++ [c]) = true := by
          rcases (hdom _).mp (by rw [hrg]; rfl) with hnil | htr
          · exact absurd hnil (by simp)
          · exact htr
        refine ⟨gv, ?_, rfl⟩
        rw [gotoStr, if_pos hgin]
        exact hrg
      | none =>
        have hgni : inTrie pats (failWalkStr pats (border pats sr) c ++ [c]) = false := by
          cases hval : inTrie pats (failWalkStr pats (border pats sr) c ++ [c]) with
          | true =>
            have hsome := (hdom _).mpr (Or.inr hval)
            rw [reach_snoc, hwv] at hsome
            revert hsome
            show (lookupChild (nodeAt ns0 wv).next c).isSome = true → _
            rw [hglk]
            intro hh
            cases hh
          | false => rfl
        refine ⟨0, ?_, rfl⟩
        rw [gotoStr, if_neg (by rw [hgni]; simp)]
        rfl
    obtain ⟨gv, hgv, hgetD⟩ := hgoto
    have hborder_su : border pats (sr ++ [c]) = gotoStr pats (border pats sr) c :=
      border_snoc hsrne c
    have hgv_reach : reach ns0 0 (border pats (sr ++ [c])) = some gv := by
      rw [hborder_su]
      exact hgv
    have hblen : (border pats (sr ++ [c])).length ≤ d := by
      have := border_length_lt pats (show (sr ++ [c]) ≠ [] by simp)
      omega
    obtain ⟨_, hgv_out⟩ := hM.final_low (border pats (sr ++ [c])) gv hgv_reach hblen
    have hu_out : (nodeAt ns u).out = directOuts pats (sr ++ [c]) := by
      rw [hM.out_rest (sr ++ [c]) u hsu (by omega) hsuB]
      exact hout0 (sr ++ [c]) u hsu
    set nd : Node α := { nodeAt ns u with
      fail := gv, out := (nodeAt ns u).out ++ (nodeAt ns gv).out } with hnd
    set ns1 : List (Node α) := setNode ns u nd with hns1
    have hbc : buildChild vr (ns, q) (c, u) = (ns1, q ++ [u]) := by
      show (setNode ns u { nodeAt ns u with
          fail := (lookupChild (nodeAt ns
            (failWalk ns ns.length (nodeAt ns vr).fail c)).next c).getD 0,
          out := (nodeAt ns u).out ++ (nodeAt ns ((lookupChild (nodeAt ns
            (failWalk ns ns.length (nodeAt ns vr).fail c)).next c).getD 0)).out },
        q ++ [u]) = (ns1, q ++ [u])
      rw [hfailvr, hwalk, hgetD]
    have hu_lt : u < ns.length := by
      rw [hM.len_eq]
      exact hu_lt0
    have hAt_u : nodeAt ns1 u = nd := by
      rw [hns1]
      exact nodeAt_setNode_self hu_lt nd
    have hAt_ne : ∀ v, v ≠ u → nodeAt ns1 v = nodeAt ns v := by
      intro v hv
      rw [hns1]
      exact nodeAt_setNode_ne hv nd
    have hnode_ne : ∀ (t : List Char) (v : Nat), reach ns0 0 t = some v →
        t ≠ sr ++ [c] → v ≠ u := by
      intro t v ht hne hvu
      subst hvu
      exact hne (hinv.inj t (sr ++ [c]) v ht hsu)
    have hsplit2 : (nodeAt ns0 vr).next = (done ++ [(c, u)]) ++ pend2 := by
      rw [hsplit, List.append_assoc]
      rfl
    have hMid1 : MidInv pats ns0 ns1 d sr A (B ++ [sr ++ [c]])
        (C.erase (sr ++ [c])) pend2 (q ++ [u]) := by
      refine ⟨?_, ?_, ?_, hM.lenA, ?_, hM.dpos, hM.nodupA, ?_, ?_, ?_, ?_, ?_, ?_, ?_, ?_,
        hM.srA, hM.srlen, ?_⟩
      · intro v
        by_cases hv : v = u
        · subst hv
          rw [hAt_u, hnd]
          show (nodeAt ns v).next = (nodeAt ns0 v).next
          exact hM.next_eq v
        · rw [hAt_ne v hv]
          exact hM.next_eq v
      · rw [hns1, setNode, List.length_set]
        exact hM.len_eq
      · rw [← List.append_assoc]
        exact List.rel_append hM.queue
          (List.forall₂_cons.mpr ⟨hsu, List.Forall₂.nil⟩)
      · intro s hs
        rcases List.mem_append.mp hs with hb | hb
        · exact hM.lenB s hb
        · rw [List.mem_singleton] at hb
          subst hb
          exact ⟨hsu_len, hsu_trie⟩
      · rw [List.nodup_append]
        refine ⟨hM.nodupB, List.nodup_singleton _, ?_⟩
        intro a ha hb
        rw [List.mem_singleton] at hb
        subst hb
        exact hsuB ha
      · exact List.Nodup.erase _ hM.nodupC
      · intro s v hs hlen
        have hne : s ≠ sr ++ [c] := by
          intro h
          rw [h, hsu_len] at hlen
          omega
        exact finalAt_congr (hM.final_low s v hs hlen) (hAt_ne v (hnode_ne s v hs hne))
      · intro s hs v hsv
        rcases List.mem_append.mp hs with hb | hb
        · have hne : s ≠ sr ++ [c] := by
            intro h
            rw [h] at hb
            exact hsuB hb
          exact finalAt_congr (hM.final_B s hb v hsv) (hAt_ne v (hnode_ne s v hsv hne))
        · rw [List.mem_singleton] at hb
          subst hb
          have hvu : u = v := by
            rw [hsv] at hsu
            injection hsu with hh
            exact hh.symm
          subst hvu
          constructor
          · refine ⟨gv, hgv_reach, ?_⟩
            rw [hAt_u, hnd]
          · rw [hAt_u, hnd]
            show (nodeAt ns u).out ++ (nodeAt ns gv).out = outChain pats (sr ++ [c])
            rw [hu_out, hgv_out,
              outChain_deep (s := sr ++ [c]) (by rw [hsu_len]; omega)]
      · intro s v hs hlen hsB2
        have hne : s ≠ sr ++ [c] := by
          intro h
          apply hsB2
          rw [h]
          exact List.mem_append_right _ (List.mem_singleton.mpr rfl)
        rw [hAt_ne v (hnode_ne s v hs hne)]
        exact hM.out_rest s v hs hlen (fun hb => hsB2 (List.mem_append_left _ hb))
      · intro s htr hlen
        rcases hM.covered s htr hlen with hb | hb | ⟨e2, he2, hse⟩
        · exact Or.inl (List.mem_append_left _ hb)
        · exact Or.inr (Or.inl hb)
        · rcases List.mem_cons.mp he2 with rfl | he2b
          · left
            rw [hse]
            exact List.mem_append_right _ (List.mem_singleton.mpr rfl)
          · exact Or.inr (Or.inr ⟨e2, he2b, hse⟩)
      · intro s
        rw [List.Nodup.mem_erase_iff hM.nodupC, hM.memC s]
        constructor
        · rintro ⟨hne, htr, hlen, hsB2⟩
          refine ⟨htr, hlen, ?_⟩
          intro hmem
          rcases List.mem_append.mp hmem with hb | hb
          · exact hsB2 hb
          · exact hne (List.mem_singleton.mp hb)
        · rintro ⟨htr, hlen, hB2⟩
          refine ⟨?_, htr, hlen, fun hb => hB2 (List.mem_append_left _ hb)⟩
          intro h
          apply hB2
          rw [h]
          exact List.mem_append_right _ (List.mem_singleton.mpr rfl)
      · intro s hsA c2 hmem
        rcases List.mem_append.mp hmem with hb | hb
        · exact hM.disjAB s hsA c2 hb
        · rw [List.mem_singleton] at hb
          have hdl : s = sr := by
            have hh := congrArg List.dropLast hb
            simpa using hh
          rw [hdl] at hsA
          exact hM.srA hsA
      · intro e2 he2 hmem
        rcases List.mem_append.mp hmem with hb | hb
        · exact hM.pendB e2 (List.mem_cons_of_mem _ he2) hb
        · rw [List.mem_singleton] at hb
          have hce : e2.1 = c := by
            have h1 : [e2.1] = [c] := List.append_cancel_left hb
            injection h1 with h1
          have hc_keys : c ∉ pend2.map Prod.fst := by
            rw [List.map_append, List.map_cons] at hkeys
            have h2 := hkeys.of_append_right
            exact (List.nodup_cons.mp h2).1
          apply hc_keys
          rw [List.mem_map]
          exact ⟨e2, he2, hce⟩
    rw [List.foldl_cons, hbc]
    obtain ⟨B2, C2, hM2, hlen2⟩ := ih (done ++ [(c, u)]) ns1 A (B ++ [sr ++ [c]])
      (C.erase (sr ++ [c])) (q ++ [u]) hsplit2 hMid1
    refine ⟨B2, C2, hM2, ?_⟩
    rw [hlen2, List.length_append, List.length_erase_of_mem hsuC]
    have hCpos : 0 < C.length := List.length_pos_of_mem hsuC
    simp
    omega

/-- One iteration of the breadth-first loop: dequeuing a node preserves the
invariant with the head string removed and its children enqueued. -/
lemma buildStep_spec {pats : List (List Char × α)} {ns0 : List (Node α)}
    (hinv : ArenaInv ns0) (hdom : trieDom pats ns0) (hout0 : trieOut pats ns0)
    {ns : List (Node α)} {d : Nat} {sr : List Char} {A2 B C : List (List Char)}
    {r : Nat} {qrest : List Nat}
    (hI : BuildInv pats ns0 ns d (sr :: A2) B C (r :: qrest)) :
    ∃ B2 C2,
      BuildInv pats ns0 ((nodeAt ns r).next.foldl (buildChild r) (ns, qrest)).1 d A2 B2 C2
        ((nodeAt ns r).next.foldl (buildChild r) (ns, qrest)).2 ∧
      A2.length + B2.length + C2.length + 1 =
        (sr :: A2).length + B.length + C.length := by
  have hq := hI.queue
  rw [List.cons_append] at hq
  obtain ⟨hsr, hqrest⟩ := List.forall₂_cons.mp hq
  obtain ⟨hsrlen, hsrtrie⟩ := hI.lenA sr (List.mem_cons_self _ _)
  have hsrA2 : sr ∉ A2 := (List.nodup_cons.mp hI.nodupA).1
  rw [hI.next_eq r]
  have hM0 : MidInv pats ns0 ns d sr A2 B C (nodeAt ns0 r).next qrest := by
    refine ⟨hI.next_eq, hI.len_eq, hqrest, ?_, hI.lenB, hI.dpos,
      (List.nodup_cons.mp hI.nodupA).2, hI.nodupB, hI.nodupC,
      hI.final_low, hI.final_B, hI.out_rest, ?_, hI.memC, ?_, hsrA2, hsrlen, ?_⟩
    · intro s hs
      exact hI.lenA s (List.mem_cons_of_mem _ hs)
    · intro s htr hlen
      rcases hI.covered s htr hlen with hb | ha
      · exact Or.inl hb
      · rcases List.mem_cons.mp ha with hdl | hdl
        · right
          right
          have hne : s ≠ [] := by
            intro h
            rw [h] at hlen
            simp at hlen
          have hs_eq : s = sr ++ [s.getLast hne] := by
            rw [← hdl]
            exact (List.dropLast_append_getLast hne).symm
          have hsome := (hdom s).mpr (Or.inr htr)
          cases hres : reach ns0 0 s with
          | none => rw [hres] at hsome; cases hsome
          | some u2 =>
            have hru : reach ns0 0 (sr ++ [s.getLast hne]) = some u2 := by
              rw [← hs_eq]
              exact hres
            rw [reach_snoc, hsr] at hru
            have hlkk : lookupChild (nodeAt ns0 r).next (s.getLast hne) = some u2 := hru
            exact ⟨(s.getLast hne, u2), lookupChild_mem hlkk, hs_eq⟩
        · exact Or.inr (Or.inl hdl)
    · intro s hs c
      exact hI.disjAB s (List.mem_cons_of_mem _ hs) c
    · intro e he
      exact hI.disjAB sr (List.mem_cons_self _ _) e.1
  obtain ⟨B2, C2, hM2, hlen2⟩ := buildFold_spec hinv hdom hout0 hsr
    (nodeAt ns0 r).next [] ns A2 B C qrest (List.nil_append _).symm hM0
  refine ⟨B2, C2, ?_, ?_⟩
  · refine ⟨hM2.next_eq, hM2.len_eq, hM2.queue, hM2.lenA, hM2.lenB, hM2.dpos,
      hM2.nodupA, hM2.nodupB, hM2.nodupC, hM2.final_low, hM2.final_B, hM2.out_rest,
      ?_, hM2.memC, hM2.disjAB⟩
    intro s htr hlen
    rcases hM2.covered s htr hlen with hb | ha | ⟨e, he, _⟩
    · exact Or.inl hb
    · exact Or.inr ha
    · cases he
  · simp only [List.length_cons]
    omega

/-- The breadth-first loop, run with enough fuel from a state satisfying the
invariant, finalises every node of the trie. -/
lemma buildLoop_spec {pats : List (List Char × α)} {ns0 : List (Node α)}
    (hinv : ArenaInv ns0) (hdom : trieDom pats ns0) (hout0 : trieOut pats ns0) :
    ∀ (fuel : Nat) (ns : List (Node α)) (q : List Nat) (d : Nat)
      (A B C : List (List Char)),
      BuildInv pats ns0 ns d A B C q →
      A.length + B.length + C.length < fuel →
      (∀ v, (nodeAt (buildLoop fuel ns q) v).next = (nodeAt ns0 v).next) ∧
      (buildLoop fuel ns q).length = ns0.length ∧
      (∀ s v, reach ns0 0 s = some v → FinalAt pats ns0 (buildLoop fuel ns q) s v) := by
  intro fuel
  induction fuel with
  | zero =>
    intro ns q d A B C hI hM
    omega
  | succ n ih =>
    intro ns q d A B C hI hM
    cases q with
    | nil =>
      have hAB : A ++ B = [] := List.forall₂_nil_right_iff.mp hI.queue
      have hA : A = [] := (List.append_eq_nil.mp hAB).1
      have hB : B = [] := (List.append_eq_nil.mp hAB).2
      rw [buildLoop]
      have hshort : ∀ t, inTrie pats t = true → t.length ≤ d := by
        intro t htr
        by_contra hgt
        push_neg at hgt
        have hpre : inTrie pats (t.take (d + 1)) = true :=
          inTrie_of_pref htr (List.take_prefix _ _)
        have hlen : (t.take (d + 1)).length = d + 1 := by
          rw [List.length_take]
          omega
        rcases hI.covered _ hpre hlen with hb | ha
        · rw [hB] at hb
          cases hb
        · rw [hA] at ha
          cases ha
      refine ⟨hI.next_eq, hI.len_eq, ?_⟩
      intro s v hs
      rcases (hdom s).mp (by rw [hs]; rfl) with rfl | htr
      · exact hI.final_low [] v hs (by simp)
      · exact hI.final_low s v hs (hshort s htr)
    | cons r qrest =>
      cases A with
      | nil =>
        have hI2 := buildInv_shift hdom hI
        cases B with
        | nil =>
          have hq := hI2.queue
          rw [List.nil_append] at hq
          have := List.forall₂_nil_left_iff.mp hq
          cases this
        | cons sb B2' =>
          obtain ⟨B2, C2, hI3, hlen3⟩ := buildStep_spec hinv hdom hout0 hI2
          have hM2 : B2'.length + B2.length + C2.length < n := by
            simp only [List.length_cons, List.length_nil] at hlen3 hM ⊢
            omega
          exact ih _ _ (d + 1) B2' B2 C2 hI3 hM2
      | cons sr A2 =>
        obtain ⟨B2, C2, hI3, hlen3⟩ := buildStep_spec hinv hdom hout0 hI
        have hM2 : A2.length + B2.length + C2.length < n := by
          simp only [List.length_cons] at hlen3 hM ⊢
          omega
        exact ih _ _ d A2 B2 C2 hI3 hM2

/-- Assigning identifiers keeps the arena length. -/
lemma assignIds_length :
    ∀ (ns : List (Node α)) (i : Nat), (assignIds i ns).length = ns.length := by
  intro ns
  induction ns with
  | nil => intro i; rfl
  | cons n rest ih =>
    intro i
    rw [assignIds, List.length_cons, List.length_cons, ih]

/-- A duplicate-free list of nonzero node indices is shorter than the
arena. -/
lemma nodup_pos_lt_length {l : List Nat} (hnd : l.Nodup) {N : Nat} (hN : 0 < N)
    (h : ∀ x ∈ l, 0 < x ∧ x < N) : l.length < N := by
  have hsub : l.toFinset ⊆ Finset.Ioo 0 N := by
    intro x hx
    rw [List.mem_toFinset] at hx
    rw [Finset.mem_Ioo]
    exact h x hx
  have hcard := Finset.card_le_card hsub
  rw [List.toFinset_card_of_nodup hnd, Nat.card_Ioo] at hcard
  omega

/-- Effect of the seeding fold of `build`: each root child is enqueued and
receives failure link zero; the rest of the arena is untouched. -/
lemma seedFold_spec :
    ∀ (es : List (Char × Nat)) (ns : List (Node α)) (q : List Nat),
      (es.map Prod.snd).Nodup →
      (es.foldl seedChild (ns, q)).2 = q ++ es.map Prod.snd ∧
      (es.foldl seedChild (ns, q)).1.length = ns.length ∧
      (∀ v, (∀ e ∈ es, e.2 ≠ v) →
        nodeAt (es.foldl seedChild (ns, q)).1 v = nodeAt ns v) ∧
      (∀ e ∈ es, e.2 < ns.length →
        nodeAt (es.foldl seedChild (ns, q)).1 e.2 = { nodeAt ns e.2 with fail := 0 }) := by
  intro es
  induction es with
  | nil =>
    intro ns q hnd
    exact ⟨by simp, rfl, fun v hv => rfl, fun e he => absurd he (List.not_mem_nil e)⟩
  | cons e es2 ih =>
    intro ns q hnd
    rw [List.map_cons, List.nodup_cons] at hnd
    rw [List.foldl_cons]
    have hstep : seedChild (ns, q) e =
        (setNode ns e.2 { nodeAt ns e.2 with fail := 0 }, q ++ [e.2]) := rfl
    rw [hstep]
    obtain ⟨h1, h2, h3, h4⟩ := ih (setNode ns e.2 { nodeAt ns e.2 with fail := 0 })
      (q ++ [e.2]) hnd.2
    refine ⟨?_, ?_, ?_, ?_⟩
    · rw [h1, List.map_cons, List.append_assoc]
      rfl
    · rw [h2, setNode, List.length_set]
    · intro v hv
      rw [h3 v (fun e2 he2 => hv e2 (List.mem_cons_of_mem _ he2))]
      exact nodeAt_setNode_ne (fun h => (hv e (List.mem_cons_self _ _)) h.symm) _
    · intro e2 he2 hlt
      rcases List.mem_cons.mp he2 with heq | he2b
      · subst heq
        rw [h3 e2.2 (fun e3 he3 hq =>
          hnd.1 (by rw [← hq, List.mem_map]; exact ⟨e3, he3, rfl⟩))]
        exact nodeAt_setNode_self hlt _
      · have hne : e2.2 ≠ e.2 := by
          intro h
          apply hnd.1
          rw [← h, List.mem_map]
          exact ⟨e2, he2b, rfl⟩
        have hmain := h4 e2 he2b (by rw [setNode, List.length_set]; exact hlt)
        rw [nodeAt_setNode_ne hne] at hmain
        exact hmain

/-- The output chain at the root and its children is just the direct output
list: `build` does not propagate onto depth-one nodes. -/
lemma outChain_shallow {pats : List (List Char × α)} {s : List Char} (h : s.length ≤ 1) :
    outChain pats s = directOuts pats s := by
  rw [outChain, if_pos h]

/-- Full correctness of `build` over a well-formed trie: transitions are
untouched and every node receives the failure link and output list of the
classical Aho-Corasick construction. -/
lemma build_spec {pats : List (List Char × α)} {ns0 : List (Node α)}
    (hinv : ArenaInv ns0) (hdom : trieDom pats ns0) (hout0 : trieOut pats ns0) :
    (∀ v, (nodeAt (AhoCorasick.build ⟨ns0⟩).nodes v).next = (nodeAt ns0 v).next) ∧
    (AhoCorasick.build ⟨ns0⟩).nodes.length = ns0.length ∧
    (∀ s v, reach ns0 0 s = some v →
      FinalAt pats ns0 (AhoCorasick.build ⟨ns0⟩).nodes s v) := by
  set nsA := setNode ns0 0 { nodeAt ns0 0 with fail := 0 } with hnsA
  have hlenA : nsA.length = ns0.length := by rw [hnsA, setNode, List.length_set]
  have hAt0 : nodeAt nsA 0 = { nodeAt ns0 0 with fail := 0 } := by
    rw [hnsA]
    exact nodeAt_setNode_self hinv.root_lt _
  have hAtA : ∀ v, v ≠ 0 → nodeAt nsA v = nodeAt ns0 v := by
    intro v hv
    rw [hnsA]
    exact nodeAt_setNode_ne hv _
  have hnextA : ∀ v, (nodeAt nsA v).next = (nodeAt ns0 v).next := by
    intro v
    by_cases hv : v = 0
    · subst hv
      rw [hAt0]
    · rw [hAtA v hv]
  have hmem_reach : ∀ e ∈ (nodeAt ns0 0).next, reach ns0 0 [e.1] = some e.2 := by
    intro e he
    have hlk : lookupChild (nodeAt ns0 0).next e.1 = some e.2 := by
      apply lookupChild_of_mem (hinv.keys_nodup 0)
      rw [Prod.mk.eta]
      exact he
    rw [reach, hlk]
    rfl
  have hedges_nodup : ((nodeAt ns0 0).next.map Prod.snd).Nodup := by
    refine List.Nodup.map_on ?_ ((hinv.keys_nodup 0).of_map)
    intro x hx y hy hxy
    have hrx := hmem_reach x hx
    have hry := hmem_reach y hy
    rw [hxy] at hrx
    have h1 : [x.1] = [y.1] := hinv.inj _ _ _ hrx hry
    injection h1 with h1 h2
    exact Prod.ext h1 hxy
  obtain ⟨hq_s, hlen_s, hun_s, hset_s⟩ :=
    seedFold_spec (nodeAt ns0 0).next nsA [] hedges_nodup
  set seeded := (nodeAt nsA 0).next.foldl seedChild (nsA, []) with hseeded
  have hseeded_eq : seeded = (nodeAt ns0 0).next.foldl seedChild (nsA, []) := by
    rw [hseeded, hnextA 0]
  have hq2 : seeded.2 = (nodeAt ns0 0).next.map Prod.snd := by
    rw [hseeded_eq, hq_s, List.nil_append]
  have hlen1 : seeded.1.length = ns0.length := by
    rw [hseeded_eq, hlen_s, hlenA]
  have htarget_ne0 : ∀ e ∈ (nodeAt ns0 0).next, e.2 ≠ 0 := by
    intro e he h0
    have hre := hmem_reach e he
    rw [h0] at hre
    have h1 : [e.1] = [] := hinv.inj _ _ _ hre rfl
    exact List.cons_ne_nil _ _ h1
  have hAt_s0 : nodeAt seeded.1 0 = { nodeAt ns0 0 with fail := 0 } := by
    rw [hseeded_eq, hun_s 0 (fun e he => htarget_ne0 e he), hAt0]
  have hAt_starget : ∀ e ∈ (nodeAt ns0 0).next,
      nodeAt seeded.1 e.2 = { nodeAt ns0 e.2 with fail := 0 } := by
    intro e he
    rw [hseeded_eq]
    have h1 := hset_s e he (by rw [hlenA]; exact hinv.edge_lt 0 e he)
    rw [hAtA e.2 (htarget_ne0 e he)] at h1
    exact h1
  have hAt_sother : ∀ v, v ≠ 0 → (∀ e ∈ (nodeAt ns0 0).next, e.2 ≠ v) →
      nodeAt seeded.1 v = nodeAt ns0 v := by
    intro v hv he
    rw [hseeded_eq, hun_s v he, hAtA v hv]
  set sfn : Nat → List Char := fun v =>
    if h : v < ns0.length then Classical.choose (hinv.surj v h) else [] with hsfn_def
  have hsfn_reach : ∀ v, ∀ hv : v < ns0.length, reach ns0 0 (sfn v) = some v := by
    intro v hv
    rw [hsfn_def]
    show reach ns0 0
      (if h : v < ns0.length then Classical.choose (hinv.surj v h) else []) = some v
    rw [dif_pos hv]
    exact Classical.choose_spec (hinv.surj v hv)
  set A0 : List (List Char) := (nodeAt ns0 0).next.map (fun e => [e.1]) with hA0
  set C0 : List (List Char) :=
    ((List.range ns0.length).map sfn).filter (fun s => decide (2 ≤ s.length)) with hC0
  have hmemC0 : ∀ s, s ∈ C0 ↔ (inTrie pats s = true ∧ 2 ≤ s.length) := by
    intro s
    rw [hC0, List.mem_filter]
    constructor
    · rintro ⟨hmem, hlen⟩
      rw [List.mem_map] at hmem
      obtain ⟨v, hv, rfl⟩ := hmem
      rw [List.mem_range] at hv
      rw [decide_eq_true_eq] at hlen
      refine ⟨?_, hlen⟩
      rcases (hdom (sfn v)).mp (by rw [hsfn_reach v hv]; rfl) with hnil | htr
      · rw [hnil] at hlen
        simp at hlen
      · exact htr
    · rintro ⟨htr, hlen⟩
      have hsome := (hdom s).mpr (Or.inr htr)
      cases hres : reach ns0 0 s with
      | none => rw [hres] at hsome; cases hsome
      | some v =>
        have hvlt : v < ns0.length := reach_lt hinv.edge_lt s 0 v hinv.root_lt hres
        have hsv : sfn v = s := hinv.inj _ _ _ (hsfn_reach v hvlt) hres
        refine ⟨?_, by rw [decide_eq_true_eq]; exact hlen⟩
        rw [List.mem_map]
        exact ⟨v, List.mem_range.mpr hvlt, hsv⟩
  have hnodupC0 : C0.Nodup := by
    rw [hC0]
    refine List.Nodup.filter _ ?_
    refine List.Nodup.map_on ?_ (List.nodup_range _)
    intro x hx y hy hxy
    rw [List.mem_range] at hx hy
    have h1 := hsfn_reach x hx
    rw [hxy] at h1
    have h2 := hsfn_reach y hy
    rw [h1] at h2
    injection h2 with h2
  have hnodupA0 : A0.Nodup := by
    rw [hA0, show (fun e : Char × Nat => [e.1]) = ((fun c => [c]) ∘ Prod.fst) from rfl,
      ← List.map_map]
    refine List.Nodup.map ?_ (hinv.keys_nodup 0)
    intro a b h
    injection h with h1 h2
  have hlenA0 : ∀ s ∈ A0, s.length = 1 ∧ inTrie pats s = true := by
    intro s hs
    rw [hA0, List.mem_map] at hs
    obtain ⟨e, he, rfl⟩ := hs
    refine ⟨rfl, ?_⟩
    rcases (hdom [e.1]).mp (by rw [hmem_reach e he]; rfl) with hnil | htr
    · exact absurd hnil (List.cons_ne_nil _ _)
    · exact htr
  have hA0_of : ∀ t, inTrie pats t = true → t.length = 1 → t ∈ A0 := by
    intro t htr hlen
    cases t with
    | nil => simp at hlen
    | cons c rest =>
      have hrest : rest = [] := by
        rw [List.length_cons] at hlen
        exact List.eq_nil_of_length_eq_zero (by omega)
      subst hrest
      have hsome := (hdom [c]).mpr (Or.inr htr)
      cases hres : reach ns0 0 [c] with
      | none => rw [hres] at hsome; cases hsome
      | some u =>
        have hlk : lookupChild (nodeAt ns0 0).next c = some u := by
          rw [reach] at hres
          cases hlk2 : lookupChild (nodeAt ns0 0).next c with
          | none => rw [hlk2] at hres; cases hres
          | some u2 =>
            rw [hlk2] at hres
            injection hres with hres
            rw [hres]
        rw [hA0, List.mem_map]
        exact ⟨(c, u), lookupChild_mem hlk, rfl⟩
  have hqf : List.Forall₂ (fun s v => reach ns0 0 s = some v) (A0 ++ []) seeded.2 := by
    rw [List.append_nil, hq2, hA0]
    have hgen : ∀ es2 : List (Char × Nat), (∀ e ∈ es2, reach ns0 0 [e.1] = some e.2) →
        List.Forall₂ (fun s v => reach ns0 0 s = some v)
          (es2.map (fun e => [e.1])) (es2.map Prod.snd) := by
      intro es2
      induction es2 with
      | nil => intro h; exact List.Forall₂.nil
      | cons e2 rest ih2 =>
        intro h
        rw [List.map_cons, List.map_cons]
        exact List.Forall₂.cons (h e2 (List.mem_cons_self _ _))
          (ih2 (fun x hx => h x (List.mem_cons_of_mem _ hx)))
    exact hgen _ hmem_reach
  have hI0 : BuildInv pats ns0 seeded.1 1 A0 [] C0 seeded.2 := by
    refine ⟨?_, hlen1, hqf, hlenA0, ?_, Nat.le_refl 1, hnodupA0, List.nodup_nil,
      hnodupC0, ?_, ?_, ?_, ?_, ?_, ?_⟩
    · intro v
      by_cases hv : v = 0
      · subst hv
        rw [hAt_s0]
      · by_cases hv2 : ∃ e ∈ (nodeAt ns0 0).next, e.2 = v
        · obtain ⟨e, he, rfl⟩ := hv2
          rw [hAt_starget e he]
        · push_neg at hv2
          rw [hAt_sother v hv hv2]
    · intro s hs
      cases hs
    · intro s v hs hlen
      cases s with
      | nil =>
        have hv0 : v = 0 := by
          injection hs with h
          exact h.symm
        subst hv0
        constructor
        · exact ⟨0, rfl, by rw [hAt_s0]⟩
        · rw [outChain_shallow (by simp), hAt_s0]
          show (nodeAt ns0 0).out = directOuts pats []
          exact hout0 [] 0 rfl
      | cons c rest =>
        have hrest : rest = [] := by
          rw [List.length_cons] at hlen
          exact List.eq_nil_of_length_eq_zero (by omega)
        subst hrest
        have hlk : lookupChild (nodeAt ns0 0).next c = some v := by
          rw [reach] at hs
          cases hlk2 : lookupChild (nodeAt ns0 0).next c with
          | none => rw [hlk2] at hs; cases hs
          | some u2 =>
            rw [hlk2] at hs
            injection hs with hs2
            rw [hs2]
        have hmem2 : (c, v) ∈ (nodeAt ns0 0).next := lookupChild_mem hlk
        have hAtv := hAt_starget (c, v) hmem2
        constructor
        · refine ⟨0, ?_, ?_⟩
          · show reach ns0 0 (border pats [c]) = some 0
            rfl
          · rw [hAtv]
        · rw [outChain_shallow (by simp), hAtv]
          show (nodeAt ns0 v).out = directOuts pats [c]
          exact hout0 [c] v hs
    · intro s hs
      cases hs
    · intro s v hs hlen hB
      have hv0 : v ≠ 0 := by
        intro h0
        subst h0
        have hse := hinv.inj s [] 0 hs rfl
        rw [hse] at hlen
        simp at hlen
      have hvt : ∀ e ∈ (nodeAt ns0 0).next, e.2 ≠ v := by
        intro e he hev
        have hre := hmem_reach e he
        rw [hev] at hre
        have hse := hinv.inj s [e.1] v hs hre
        rw [hse] at hlen
        simp at hlen
      rw [hAt_sother v hv0 hvt]
    · intro s htr hlen
      right
      have hne : s ≠ [] := by
        intro h
        rw [h] at hlen
        simp at hlen
      apply hA0_of
      · exact inTrie_of_pref htr ⟨[s.getLast hne], List.dropLast_append_getLast hne⟩
      · rw [List.length_dropLast, hlen]
    · intro s
      rw [hmemC0 s]
      constructor
      · rintro ⟨htr, hlen⟩
        exact ⟨htr, hlen, List.not_mem_nil s⟩
      · rintro ⟨htr, hlen, h3⟩
        exact ⟨htr, hlen⟩
    · intro s hs c hmem
      cases hmem
  have hmeas : A0.length + List.length ([] : List (List Char)) + C0.length
      < seeded.1.length := by
    rw [hlen1]
    have hACnd : (A0 ++ C0).Nodup := by
      rw [List.nodup_append]
      refine ⟨hnodupA0, hnodupC0, ?_⟩
      intro a ha hc
      have h1 := (hlenA0 a ha).1
      have h2 := ((hmemC0 a).mp hc).2
      omega
    have hreachAC : ∀ s ∈ A0 ++ C0,
        ∃ v, reach ns0 0 s = some v ∧ 0 < v ∧ v < ns0.length := by
      intro s hsm
      have htr : inTrie pats s = true ∧ 1 ≤ s.length := by
        rcases List.mem_append.mp hsm with ha | hc
        · obtain ⟨h1, h2⟩ := hlenA0 s ha
          exact ⟨h2, by omega⟩
        · obtain ⟨h1, h2⟩ := (hmemC0 s).mp hc
          exact ⟨h1, by omega⟩
      have hsome := (hdom s).mpr (Or.inr htr.1)
      cases hres : reach ns0 0 s with
      | none => rw [hres] at hsome; cases hsome
      | some v =>
        refine ⟨v, rfl, ?_, reach_lt hinv.edge_lt s 0 v hinv.root_lt hres⟩
        rcases Nat.eq_zero_or_pos v with hv | hv
        · subst hv
          have hse := hinv.inj s [] 0 hres rfl
          rw [hse] at htr
          simp at htr
        · exact hv
    have hmapnd : ((A0 ++ C0).map (fun s => (reach ns0 0 s).getD 0)).Nodup := by
      refine List.Nodup.map_on ?_ hACnd
      intro x hx y hy hxy
      obtain ⟨vx, hvx, hp1, hp2⟩ := hreachAC x hx
      obtain ⟨vy, hvy, hp3, hp4⟩ := hreachAC y hy
      rw [hvx, hvy] at hxy
      have hveq : vx = vy := hxy
      rw [hveq] at hvx
      exact hinv.inj x y vy hvx hvy
    have hbound : ∀ x ∈ (A0 ++ C0).map (fun s => (reach ns0 0 s).getD 0),
        0 < x ∧ x < ns0.length := by
      intro x hx
      rw [List.mem_map] at hx
      obtain ⟨s, hsm, rfl⟩ := hx
      obtain ⟨v, hv, hv1, hv2⟩ := hreachAC s hsm
      rw [hv]
      exact ⟨hv1, hv2⟩
    have hcount := nodup_pos_lt_length hmapnd hinv.root_lt hbound
    rw [List.length_map, List.length_append] at hcount
    simp only [List.length_nil]
    omega
  obtain ⟨hL1, hL2, hL3⟩ := buildLoop_spec hinv hdom hout0 seeded.1.length seeded.1
    seeded.2 1 A0 [] C0 hI0 hmeas
  have hbuild : (AhoCorasick.build ⟨ns0⟩).nodes =
      assignIds 0 (buildLoop seeded.1.length seeded.1 seeded.2) := rfl
  refine ⟨?_, ?_, ?_⟩
  · intro v
    rw [hbuild, (nodeAt_assignIds _ _ _).2.2]
    exact hL1 v
  · rw [hbuild, assignIds_length]
    exact hL2
  · intro s v hs
    rw [hbuild]
    obtain ⟨⟨bv, hbv, hf⟩, ho⟩ := hL3 s v hs
    exact ⟨⟨bv, hbv, by rw [(nodeAt_assignIds _ _ _).2.1]; exact hf⟩,
      by rw [(nodeAt_assignIds _ _ _).1]; exact ho⟩

/-- The goto transition (walk target read through the child map) computes
the node of the string-level goto step. -/
lemma gotoNode_spec {pats : List (List Char × α)} {ns0 nsF : List (Node α)}
    (hdom : trieDom pats ns0)
    (hnext : ∀ v, (nodeAt nsF v).next = (nodeAt ns0 v).next)
    {t : List Char} {wv : Nat} (c : Char)
    (hwv : reach ns0 0 (failWalkStr pats t c) = some wv) :
    ∃ gv, reach ns0 0 (gotoStr pats t c) = some gv ∧
      (lookupChild (nodeAt nsF wv).next c).getD 0 = gv := by
  rw [hnext wv]
  cases hglk : lookupChild (nodeAt ns0 wv).next c with
  | some gv =>
    have hrg : reach ns0 0 (failWalkStr pats t c ++ [c]) = some gv := by
      rw [reach_snoc, hwv]
      exact hglk
    have hgin : inTrie pats (failWalkStr pats t c ++ [c]) = true := by
      rcases (hdom _).mp (by rw [hrg]; rfl) with hnil | htr
      · exact absurd hnil (by simp)
      · exact htr
    refine ⟨gv, ?_, rfl⟩
    rw [gotoStr, if_pos hgin]
    exact hrg
  | none =>
    have hgni : inTrie pats (failWalkStr pats t c ++ [c]) = false := by
      cases hval : inTrie pats (failWalkStr pats t c ++ [c]) with
      | true =>
        have hsome := (hdom _).mpr (Or.inr hval)
        rw [reach_snoc, hwv] at hsome
        revert hsome
        show (lookupChild (nodeAt ns0 wv).next c).isSome = true → _
        rw [hglk]
        intro hh
        cases hh
      | false => rfl
    refine ⟨0, ?_, rfl⟩
    rw [gotoStr, if_neg (by rw [hgni]; simp)]
    rfl

/-- The scan loop of `search_generator` on a built automaton follows the
string-level model: from a sigma-fixed state it emits exactly the output
chains of the successive sigma states. -/
lemma sgLoop_spec {pats : List (List Char × α)} {ns0 nsF : List (Node α)}
    (hinv : ArenaInv ns0) (hdom : trieDom pats ns0)
    (hnext : ∀ v, (nodeAt nsF v).next = (nodeAt ns0 v).next)
    (hlen : nsF.length = ns0.length)
    (hfin : ∀ s v, reach ns0 0 s = some v → FinalAt pats ns0 nsF s v) :
    ∀ (text t : List Char) (vt idx : Nat),
      reach ns0 0 t = some vt → sigma pats t = t →
      sgLoop nsF vt idx text = sgSpec pats t idx text := by
  intro text
  induction text with
  | nil =>
    intro t vt idx hreach hsig
    rfl
  | cons c rest ih =>
    intro t vt idx hreach hsig
    by_cases hc : c ∈ ALPHABET
    · rw [sgLoop, if_pos hc, sgSpec, if_pos hc]
      obtain ⟨wv, hwv, hwalk⟩ := failWalk_spec hinv hdom hnext c nsF.length t vt
        (by rw [hlen]; exact reach_length_lt hinv hreach) hreach
        (fun s v hs hle hne => (hfin s v hs).1)
      obtain ⟨gv, hgv, hget⟩ := gotoNode_spec hdom hnext c hwv
      have hsnoc : sigma pats (t ++ [c]) = gotoStr pats t c := by
        rw [sigma_snoc, hsig]
      have hgv2 : reach ns0 0 (sigma pats (t ++ [c])) = some gv := by
        rw [hsnoc]
        exact hgv
      obtain ⟨_, hout_gv⟩ := hfin _ gv hgv2
      show (nodeAt nsF ((lookupChild (nodeAt nsF
          (failWalk nsF nsF.length vt c)).next c).getD 0)).out.map (fun o => (idx, o)) ++
        sgLoop nsF ((lookupChild (nodeAt nsF
          (failWalk nsF nsF.length vt c)).next c).getD 0) (idx + 1) rest = _
      rw [hwalk, hget, hout_gv,
        ih (sigma pats (t ++ [c])) gv (idx + 1) hgv2 (sigma_idem pats _)]
    · rw [sgLoop, if_neg hc, sgSpec, if_neg hc]
      exact ih [] 0 (idx + 1) rfl rfl

/-- With no empty pattern, the root output list is empty. -/
lemma outChain_nil {pats : List (List Char × α)} (hne : ∀ pr ∈ pats, pr.1 ≠ []) :
    outChain pats [] = [] := by
  rw [outChain_shallow (by simp), directOuts, List.map_eq_nil_iff, List.filter_eq_nil_iff]
  intro pr hpr h
  rw [decide_eq_true_eq] at h
  exact hne pr hpr h

/-- The generator of the built automaton follows the string-level scan. -/
lemma buildFrom_sg (pats : List (List Char × α)) (text : List Char) :
    (buildFrom pats).search_generator text = sgSpec pats [] 0 text := by
  obtain ⟨hinv, hdom, hout0⟩ := addAll_spec pats
  obtain ⟨hnext, hlen, hfin⟩ := build_spec hinv hdom hout0
  exact sgLoop_spec hinv hdom hnext hlen hfin text [] 0 0 rfl rfl

/-- The count-only search of the built automaton counts the string-level
scan hits. -/
lemma buildFrom_search_none (pats : List (List Char × α)) (text : List Char) :
    (buildFrom pats).search text false = ((sgSpec pats [] 0 text).length, none) := by
  obtain ⟨hinv, hdom, hout0⟩ := addAll_spec pats
  obtain ⟨hnext, hlen, hfin⟩ := build_spec hinv hdom hout0
  have hsg : sgLoop (buildFrom pats).nodes 0 0 text = sgSpec pats [] 0 text :=
    sgLoop_spec hinv hdom hnext hlen hfin text [] 0 0 rfl rfl
  show searchLoop (buildFrom pats).nodes 0 0 (if false then some [] else none) 0 text = _
  rw [if_neg (by simp), searchLoop_none_eq, Nat.zero_add, hsg]

/-- The recording search of the built automaton returns the string-level
scan hit list with its length. -/
lemma buildFrom_search_some (pats : List (List Char × α)) (text : List Char) :
    (buildFrom pats).search text true =
      ((sgSpec pats [] 0 text).length, some (sgSpec pats [] 0 text)) := by
  obtain ⟨hinv, hdom, hout0⟩ := addAll_spec pats
  obtain ⟨hnext, hlen, hfin⟩ := build_spec hinv hdom hout0
  have hsg : sgLoop (buildFrom pats).nodes 0 0 text = sgSpec pats [] 0 text :=
    sgLoop_spec hinv hdom hnext hlen hfin text [] 0 0 rfl rfl
  show searchLoop (buildFrom pats).nodes 0 0 (if true then some [] else none) 0 text = _
  rw [if_pos rfl, searchLoop_some_eq, Nat.zero_add, List.nil_append, hsg]

/-- On nonempty alphabet-only patterns, the output chain of the scan state
counts exactly the patterns that are suffixes of the text read so far. -/
lemma outChain_count {pats : List (List Char × α)}
    (hne : ∀ pr ∈ pats, pr.1 ≠ [])
    (halpha : ∀ pr ∈ pats, ∀ x ∈ pr.1, x ∈ ALPHABET) (w : List Char) :
    (outChain pats (sigma pats (cleanSuffix w))).length =
      (pats.filter (fun pr => pr.1.isSuffixOf w)).length := by
  rw [(outChain_perm hne _).length_eq, List.length_map]
  congr 1
  apply List.filter_congr
  intro pr hpr
  have hiff : (pr.1.isSuffixOf (sigma pats (cleanSuffix w)) = true) ↔
      (pr.1.isSuffixOf w = true) := by
    rw [List.isSuffixOf_iff_suffix, List.isSuffixOf_iff_suffix]
    constructor
    · intro h
      exact h.trans ((sigma_suffix pats _).trans (cleanSuffix_suffix w))
    · intro h
      exact sigma_chain pats (cleanSuffix w) pr.1
        (suffix_cleanSuffix h (halpha pr hpr)) (hne pr hpr)
        (inTrie_self (p := pr.1) (i := pr.2) (by rw [Prod.mk.eta]; exact hpr))
  cases h2 : pr.1.isSuffixOf w with
  | true => exact hiff.mpr h2
  | false =>
    cases h3 : pr.1.isSuffixOf (sigma pats (cleanSuffix w)) with
    | false => rfl
    | true =>
      have hh := hiff.mp h3
      rw [hh] at h2
      cases h2

/-- Appending one symbol adds the suffix matches at the new end position to
the brute-force count. -/
lemma bruteCount_snoc (pats : List (List Char × α)) (u : List Char) (c : Char) :
    bruteCount pats (u ++ [c]) = bruteCount pats u +
      (pats.filter (fun pr => pr.1.isSuffixOf (u ++ [c]))).length := by
  rw [bruteCount, bruteCount, List.length_append, List.length_singleton,
    List.range_succ, List.map_append, List.sum_append]
  congr 1
  · congr 1
    apply List.map_congr_left
    intro i hi
    rw [List.mem_range] at hi
    rw [List.take_append_of_le_length (by omega)]
  · rw [List.map_singleton, List.sum_singleton,
      List.take_of_length_le (by rw [List.length_append, List.length_singleton])]

/-- The scan hit count extends the brute-force count one position at a
time. -/
lemma sgSpec_length_count {pats : List (List Char × α)}
    (hne : ∀ pr ∈ pats, pr.1 ≠ [])
    (halpha : ∀ pr ∈ pats, ∀ x ∈ pr.1, x ∈ ALPHABET) :
    ∀ (text u : List Char) (idx : Nat),
      (sgSpec pats (sigma pats (cleanSuffix u)) idx text).length + bruteCount pats u =
        bruteCount pats (u ++ text) := by
  intro text
  induction text with
  | nil =>
    intro u idx
    rw [List.append_nil]
    show 0 + bruteCount pats u = bruteCount pats u
    rw [Nat.zero_add]
  | cons c rest ih =>
    intro u idx
    have hucr : u ++ c :: rest = (u ++ [c]) ++ rest := by
      rw [List.append_assoc]
      rfl
    rw [hucr, ← ih (u ++ [c]) (idx + 1)]
    by_cases hc : c ∈ ALPHABET
    · rw [sgSpec, if_pos hc]
      have hstate : sigma pats (sigma pats (cleanSuffix u) ++ [c]) =
          sigma pats (cleanSuffix (u ++ [c])) := by
        rw [cleanSuffix_snoc_alpha hc, sigma_snoc, sigma_snoc, sigma_idem]
      rw [List.length_append, List.length_map, hstate, outChain_count hne halpha,
        bruteCount_snoc]
      omega
    · rw [sgSpec, if_neg hc]
      have hstate : sigma pats (cleanSuffix (u ++ [c])) = [] := by
        rw [cleanSuffix_snoc_bad hc]
        rfl
      rw [hstate, bruteCount_snoc]
      have hfe : (pats.filter (fun pr => pr.1.isSuffixOf (u ++ [c]))) = [] := by
        rw [List.filter_eq_nil_iff]
        intro pr hpr hsf
        rw [List.isSuffixOf_iff_suffix] at hsf
        obtain ⟨t1, hteq, ht1⟩ := suffix_snoc_decomp hsf (hne pr hpr)
        apply hc
        apply halpha pr hpr c
        rw [hteq]
        exact List.mem_append_right _ (List.mem_singleton.mpr rfl)
      rw [hfe]
      simp

/-- Claim C1 counterexample: the empty pattern lies (vacuously) over the
alphabet, yet against the text X the brute-force reference counts one
occurrence (the empty string is a suffix of every prefix) while the search,
whose depth-one seeding never propagates the root output list and whose
out-of-alphabet reset emits nothing, reports zero. -/
theorem c1_counterexample :
    (∀ x ∈ (([] : List Char), (0 : Nat)).1, x ∈ ALPHABET) ∧
    bruteCount [(([] : List Char), (0 : Nat))] ['X'] = 1 ∧
    ((buildFrom [(([] : List Char), (0 : Nat))]).search ['X'] false).1 = 0 := by
  exact ⟨by simp, by decide, by decide⟩

/-- Claim C1 (amended: every pattern must be nonempty; the alphabet
restriction is kept): after inserting nonempty patterns over ACGTN and
building once, the count returned by search equals the brute-force number
of pairs (position, pattern entry) with the pattern ending at the
position. -/
theorem c1_exact_search_brute_force (pats : List (List Char × Nat)) (text : List Char)
    (hne : ∀ pr ∈ pats, pr.1 ≠ [])
    (halpha : ∀ pr ∈ pats, ∀ x ∈ pr.1, x ∈ ALPHABET) :
    ((buildFrom pats).search text false).1 = bruteCount pats text := by
  rw [buildFrom_search_none]
  show (sgSpec pats [] 0 text).length = bruteCount pats text
  have h := sgSpec_length_count hne halpha text [] 0
  rw [List.nil_append] at h
  have h2 : (sgSpec pats [] 0 text).length + 0 = bruteCount pats text := h
  omega

/-- Witness for C1: patterns AC (id 0) and CG (id 1) against text ACG; the
brute-force reference gives two occurrences and the theorem transfers the
count to the search. -/
theorem c1_exact_search_brute_force_witness :
    (∀ pr ∈ [("AC".toList, (0 : Nat)), ("CG".toList, 1)], pr.1 ≠ []) ∧
    ((buildFrom [("AC".toList, (0 : Nat)), ("CG".toList, 1)]).search "ACG".toList false).1 =
      bruteCount [("AC".toList, (0 : Nat)), ("CG".toList, 1)] "ACG".toList ∧
    bruteCount [("AC".toList, (0 : Nat)), ("CG".toList, 1)] "ACG".toList = 2 := by
  exact ⟨by decide,
    c1_exact_search_brute_force _ _ (by decide) (by decide), by decide⟩

/-- Claim C7 (amended: no pattern may be empty, the depth-one nodes
otherwise failing to inherit the root output): after build the root failure
link is the root itself, and every node's output list equals its direct
outputs followed by the full output list of its failure target. -/
theorem c7_failure_and_output_invariant (pats : List (List Char × Nat))
    (hne : ∀ pr ∈ pats, pr.1 ≠ []) :
    (nodeAt (buildFrom pats).nodes 0).fail = 0 ∧
    (∀ s v, reach (addAll pats).nodes 0 s = some v →
      ∃ bv, reach (addAll pats).nodes 0 (border pats s) = some bv ∧
        (nodeAt (buildFrom pats).nodes v).fail = bv ∧
        (nodeAt (buildFrom pats).nodes v).out =
          directOuts pats s ++ (nodeAt (buildFrom pats).nodes bv).out) := by
  obtain ⟨hinv, hdom, hout0⟩ := addAll_spec pats
  obtain ⟨hnext, hlen, hfin⟩ := build_spec hinv hdom hout0
  have hfin' : ∀ s v, reach (addAll pats).nodes 0 s = some v →
      FinalAt pats (addAll pats).nodes (buildFrom pats).nodes s v := hfin
  constructor
  · obtain ⟨⟨bv, hbv, hf⟩, _⟩ := hfin' [] 0 rfl
    have hbv0 : bv = 0 := by
      have hb : reach (addAll pats).nodes 0 ([] : List Char) = some bv := hbv
      injection hb with hb
      exact hb.symm
    rw [hf, hbv0]
  · intro s v hs
    obtain ⟨⟨bv, hbv, hf⟩, ho⟩ := hfin' s v hs
    refine ⟨bv, hbv, hf, ?_⟩
    obtain ⟨_, hob⟩ := hfin' (border pats s) bv hbv
    rw [ho, hob]
    by_cases hlen1 : s.length ≤ 1
    · rw [outChain_shallow hlen1]
      cases s with
      | nil =>
        rw [show border pats ([] : List Char) = [] from rfl, outChain_nil hne,
          List.append_nil]
      | cons a as =>
        have has : as = [] := by
          rw [List.length_cons] at hlen1
          exact List.eq_nil_of_length_eq_zero (by omega)
        subst has
        rw [show border pats [a] = [] from rfl, outChain_nil hne, List.append_nil]
    · rw [outChain_deep (by omega)]

/-- Witness for C7: patterns A (id 0) and AC (id 1); the root failure link
of the built automaton is the root. -/
theorem c7_failure_and_output_invariant_witness :
    (∀ pr ∈ [("A".toList, (0 : Nat)), ("AC".toList, 1)], pr.1 ≠ []) ∧
    (nodeAt (buildFrom [("A".toList, (0 : Nat)), ("AC".toList, 1)]).nodes 0).fail = 0 := by
  exact ⟨by decide,
    (c7_failure_and_output_invariant [("A".toList, (0 : Nat)), ("AC".toList, 1)]
      (by decide)).1⟩

/-- Trie membership only depends on the set of patterns. -/
lemma inTrie_perm {pats1 pats2 : List (List Char × α)} (hp : pats1.Perm pats2)
    (s : List Char) : inTrie pats1 s = inTrie pats2 s := by
  rw [inTrie, inTrie]
  cases h1 : pats1.any (fun pr => s.isPrefixOf pr.1) with
  | true =>
    rw [List.any_eq_true] at h1
    obtain ⟨pr, hpr, hx⟩ := h1
    symm
    rw [List.any_eq_true]
    exact ⟨pr, hp.mem_iff.mp hpr, hx⟩
  | false =>
    cases h2 : pats2.any (fun pr => s.isPrefixOf pr.1) with
    | false => rfl
    | true =>
      rw [List.any_eq_true] at h2
      obtain ⟨pr, hpr, hx⟩ := h2
      have hx2 : pats1.any (fun pr => s.isPrefixOf pr.1) = true :=
        List.any_eq_true.mpr ⟨pr, hp.mem_iff.mpr hpr, hx⟩
      rw [h1] at hx2
      cases hx2

/-- The longest trie suffix only depends on the set of patterns. -/
lemma sigma_perm {pats1 pats2 : List (List Char × α)} (hp : pats1.Perm pats2) :
    ∀ w, sigma pats1 w = sigma pats2 w := by
  intro w
  induction w with
  | nil => rfl
  | cons c cs ih =>
    rw [sigma, sigma, inTrie_perm hp, ih]

/-- The border only depends on the set of patterns. -/
lemma border_perm {pats1 pats2 : List (List Char × α)} (hp : pats1.Perm pats2)
    (s : List Char) : border pats1 s = border pats2 s := by
  rw [border, border, sigma_perm hp]

/-- Reordering the patterns permutes each direct output list. -/
lemma directOuts_perm {pats1 pats2 : List (List Char × α)} (hp : pats1.Perm pats2)
    (s : List Char) : (directOuts pats1 s).Perm (directOuts pats2 s) := by
  rw [directOuts, directOuts]
  exact (hp.filter _).map _

/-- Reordering the patterns permutes each propagated output chain. -/
lemma outChain_permOf {pats1 pats2 : List (List Char × α)} (hp : pats1.Perm pats2) :
    ∀ s, (outChain pats1 s).Perm (outChain pats2 s) := by
  have main : ∀ (n : Nat) (s : List Char), s.length ≤ n →
      (outChain pats1 s).Perm (outChain pats2 s) := by
    intro n
    induction n with
    | zero =>
      intro s hs
      have hnil : s = [] := List.eq_nil_of_length_eq_zero (Nat.le_zero.mp hs)
      subst hnil
      rw [outChain_shallow (by simp), outChain_shallow (by simp)]
      exact directOuts_perm hp []
    | succ n ih =>
      intro s hs
      by_cases h1 : s.length ≤ 1
      · rw [outChain_shallow h1, outChain_shallow h1]
        exact directOuts_perm hp s
      · rw [outChain_deep (s := s) (by omega), outChain_deep (s := s) (by omega)]
        refine List.Perm.append (directOuts_perm hp s) ?_
        rw [border_perm hp]
        apply ih
        have hne : s ≠ [] := by
          intro h
          rw [h] at h1
          simp at h1
        have := border_length_lt pats2 hne
        omega
  intro s
  exact main s.length s (Nat.le_refl _)

/-- Reordering the patterns permutes the string-level scan hit list. -/
lemma sgSpec_perm {pats1 pats2 : List (List Char × α)} (hp : pats1.Perm pats2) :
    ∀ (text t : List Char) (idx : Nat),
      (sgSpec pats1 t idx text).Perm (sgSpec pats2 t idx text) := by
  intro text
  induction text with
  | nil =>
    intro t idx
    exact List.Perm.nil
  | cons c rest ih =>
    intro t idx
    by_cases hc : c ∈ ALPHABET
    · rw [sgSpec, if_pos hc, sgSpec, if_pos hc, sigma_perm hp (t ++ [c])]
      exact List.Perm.append ((outChain_permOf hp _).map _) (ih _ (idx + 1))
    · rw [sgSpec, if_neg hc, sgSpec, if_neg hc]
      exact ih [] (idx + 1)

/-- Claim C8: inserting the same identified patterns in any two orders,
then building and searching the same text, yields the same total count and
hit lists that are permutations of each other (the same multiset of
(position, identifier) matches); only internal node numbering differs. -/
theorem c8_insertion_order_invariance (pats1 pats2 : List (List Char × Nat))
    (text : List Char) (hp : pats1.Perm pats2) :
    ((buildFrom pats1).search text false).1 = ((buildFrom pats2).search text false).1 ∧
    ∃ ms1 ms2 : List (Nat × Nat),
      (buildFrom pats1).search text true = (ms1.length, some ms1) ∧
      (buildFrom pats2).search text true = (ms2.length, some ms2) ∧
      ms1.Perm ms2 := by
  have hperm := sgSpec_perm hp text [] 0
  refine ⟨?_, sgSpec pats1 [] 0 text, sgSpec pats2 [] 0 text,
    buildFrom_search_some pats1 text, buildFrom_search_some pats2 text, hperm⟩
  rw [buildFrom_search_none, buildFrom_search_none]
  show (sgSpec pats1 [] 0 text).length = (sgSpec pats2 [] 0 text).length
  exact hperm.length_eq

/-- Witness for C8: the pattern pairs (AC, 0), (CG, 1) inserted in the two
possible orders give the same count on text ACG. -/
theorem c8_insertion_order_invariance_witness :
    ([("AC".toList, (0 : Nat)), ("CG".toList, 1)].Perm
      [("CG".toList, (1 : Nat)), ("AC".toList, 0)]) ∧
    ((buildFrom [("AC".toList, (0 : Nat)), ("CG".toList, 1)]).search
        "ACG".toList false).1 =
      ((buildFrom [("CG".toList, (1 : Nat)), ("AC".toList, 0)]).search
        "ACG".toList false).1 := by
  exact ⟨by decide, (c8_insertion_order_invariance _ _ _ (by decide)).1⟩

/-- Alphabet symbols are not whitespace. -/
lemma alpha_not_ws {x : Char} (h : x ∈ ALPHABET) : ¬x.isWhitespace = true := by
  simp only [ALPHABET, List.mem_cons, List.mem_singleton] at h
  rcases h with rfl | rfl | rfl | rfl | rfl | h
  · decide
  · decide
  · decide
  · decide
  · decide
  · cases h

/-- Alphabet symbols are fixed by upper-casing. -/
lemma alpha_toUpper {x : Char} (h : x ∈ ALPHABET) : x.toUpper = x := by
  simp only [ALPHABET, List.mem_cons, List.mem_singleton] at h
  rcases h with rfl | rfl | rfl | rfl | rfl | h
  · decide
  · decide
  · decide
  · decide
  · decide
  · cases h

/-- A drop-while over elements that all fail the test drops nothing. -/
lemma dropWhile_eq_self_of_none {q : Char → Bool} {l : List Char}
    (h : ∀ x ∈ l, ¬q x = true) : l.dropWhile q = l := by
  cases l with
  | nil => rfl
  | cons a as =>
    rw [List.dropWhile_cons_of_neg (h a (List.mem_cons_self _ _))]

/-- Stripping leaves an alphabet-only pattern unchanged. -/
lemma pyStrip_alpha {p : List Char} (h : ∀ x ∈ p, x ∈ ALPHABET) : pyStrip p = p := by
  rw [pyStrip, dropWhile_eq_self_of_none (fun x hx => alpha_not_ws (h x hx)),
    dropWhile_eq_self_of_none (fun x hx =>
      alpha_not_ws (h x (List.mem_reverse.mp hx))), List.reverse_reverse]

/-- Upper-casing leaves an alphabet-only pattern unchanged. -/
lemma pyUpper_alpha : ∀ {p : List Char}, (∀ x ∈ p, x ∈ ALPHABET) → pyUpper p = p := by
  intro p
  induction p with
  | nil => intro h; rfl
  | cons a as ih =>
    intro h
    rw [pyUpper, List.map_cons, alpha_toUpper (h a (List.mem_cons_self _ _))]
    have has := ih (fun x hx => h x (List.mem_cons_of_mem _ hx))
    rw [pyUpper] at has
    rw [has]

/-- A nonempty alphabet-only pattern parses to one literal token. -/
lemma parse_alpha {p : List Char} (hne : p ≠ []) (h : ∀ x ∈ p, x ∈ ALPHABET) :
    parse_pattern_with_gaps p = Except.ok [Tok.seq p] := by
  rw [parse_pattern_with_gaps, pyStrip_alpha h, pyUpper_alpha h]
  cases p with
  | nil => exact absurd rfl hne
  | cons c cs =>
    rw [List.length_cons, parseLoop_succ_cons,
      if_pos (h c (List.mem_cons_self _ _))]
    have hdw : cs.dropWhile (· ∈ ALPHABET) = [] := by
      rw [List.dropWhile_eq_nil_iff]
      intro x hx
      simpa using h x (List.mem_cons_of_mem _ hx)
    have htw : cs.takeWhile (· ∈ ALPHABET) = cs := by
      have hsplit := List.takeWhile_append_dropWhile
        (p := fun x => decide (x ∈ ALPHABET)) (l := cs)
      rw [hdw, List.append_nil] at hsplit
      exact hsplit
    rw [hdw, htw]
    have h0 : parseLoop cs.length ([] : List Char) = Except.ok [] := by
      cases cs.length with
      | zero => rfl
      | succ n => rfl
    rw [h0]
    rfl

/-- Parsing a list of nonempty alphabet-only patterns succeeds with one
literal token each. -/
lemma parseAll_alpha : ∀ (patterns : List (List Char)),
    (∀ p ∈ patterns, p ≠ []) → (∀ p ∈ patterns, ∀ x ∈ p, x ∈ ALPHABET) →
    parseAll patterns = Except.ok (patterns.map (fun p => [Tok.seq p])) := by
  intro patterns
  induction patterns with
  | nil =>
    intro h1 h2
    rfl
  | cons p ps ih =>
    intro h1 h2
    rw [parseAll, parse_alpha (h1 p (List.mem_cons_self _ _))
      (h2 p (List.mem_cons_self _ _)),
      ih (fun q hq => h1 q (List.mem_cons_of_mem _ hq))
        (fun q hq => h2 q (List.mem_cons_of_mem _ hq))]
    rfl

/-- A single nonempty literal token yields exactly one seed insertion, with
offset zero and the literal length. -/
lemma gapInserts_seq {p : List Char} (hne : p ≠ []) (msl : Nat) :
    gapInserts [Tok.seq p] msl = [(p, (⟨0, p.length⟩ : SeedMeta))] := by
  have hseeds : build_seeds_from_pattern [Tok.seq p] msl =
      if msl ≤ p.length then [(p, 0)] else [] := by
    rw [build_seeds_from_pattern, List.foldl_cons, List.foldl_nil]
    by_cases hm : msl ≤ p.length
    · rw [if_pos hm]
      show (if msl ≤ p.length then [] ++ [(p, 0)] else []) = [(p, 0)]
      rw [if_pos hm, List.nil_append]
    · rw [if_neg hm]
      show (if msl ≤ p.length then [] ++ [(p, 0)] else []) = []
      rw [if_neg hm]
  rw [gapInserts]
  show (if build_seeds_from_pattern [Tok.seq p] msl = [] then _ else _) = _
  rw [hseeds]
  by_cases hm : msl ≤ p.length
  · rw [if_pos hm, if_neg (by simp)]
    rfl
  · rw [if_neg hm, if_pos rfl]
    rw [List.find?_cons_of_pos _ (by
      show (!p.isEmpty) = true
      cases p with
      | nil => exact absurd rfl hne
      | cons a as => rfl)]

/-- Enumeration commutes with mapping the values. -/
lemma enumFrom_map {β γ : Type} (f : β → γ) :
    ∀ (l : List β) (k : Nat),
      enumFrom k (l.map f) = (enumFrom k l).map (fun pr => (pr.1, f pr.2)) := by
  intro l
  induction l with
  | nil => intro k; rfl
  | cons b bs ih =>
    intro k
    rw [List.map_cons, enumFrom, enumFrom, List.map_cons, ih]

/-- The value of an enumerated entry belongs to the list. -/
lemma enumFrom_snd_mem {β : Type} (l : List β) (k : Nat) (pr : Nat × β)
    (h : pr ∈ enumFrom k l) : pr.2 ∈ l := by
  obtain ⟨j, hj, hjb⟩ := (enumFrom_mem l k pr).mp h
  exact List.getElem?_mem hjb

/-- Folds of functions that agree on the elements agree. -/
lemma foldl_congr_mem {β γ : Type} :
    ∀ (l : List γ) (f g : β → γ → β) (b : β),
      (∀ b2 : β, ∀ x ∈ l, f b2 x = g b2 x) → l.foldl f b = l.foldl g b := by
  intro l
  induction l with
  | nil =>
    intro f g b h
    rfl
  | cons x xs ih =>
    intro f g b h
    rw [List.foldl_cons, List.foldl_cons, h b x (List.mem_cons_self _ _)]
    exact ih f g _ (fun b2 y hy => h b2 y (List.mem_cons_of_mem _ hy))

/-- On nonempty alphabet-only patterns, the seed automaton of
`search_with_gaps` is the plain build of the patterns themselves, each
carrying its index and the trivial seed metadata. -/
lemma gapAutomaton_alpha (patterns : List (List Char)) (msl : Nat)
    (hne : ∀ p ∈ patterns, p ≠ []) :
    gapAutomaton (patterns.map (fun p => [Tok.seq p])) msl =
      buildFrom ((enumFrom 0 patterns).map
        (fun pr => (pr.2, (pr.1, (⟨0, pr.2.length⟩ : SeedMeta))))) := by
  rw [gapAutomaton, buildFrom, addAll]
  congr 1
  rw [enumFrom_map, List.foldl_map, List.foldl_map]
  apply foldl_congr_mem
  intro ac pt hpt
  have hp : pt.2 ≠ [] := hne pt.2 (enumFrom_snd_mem patterns 0 pt hpt)
  show (gapInserts [Tok.seq pt.2] msl).foldl
      (fun ac2 sm => ac2.add sm.1 (pt.1, sm.2)) ac = _
  rw [gapInserts_seq hp, List.foldl_cons, List.foldl_nil]

/-- The text slice at the anchored position of a suffix match is the
pattern itself. -/
lemma slice_of_suffix_take {text p : List Char} {e : Nat} (he : e ≤ text.length)
    (hp : p <:+ text.take e) :
    (text.drop (e - p.length)).take p.length = p := by
  obtain ⟨q, hq⟩ := hp
  have hlen : q.length + p.length = e := by
    have hl := congrArg List.length hq
    rw [List.length_append, List.length_take] at hl
    omega
  have h2 : text = (q ++ p) ++ text.drop e := by
    conv_lhs => rw [← List.take_append_drop e text]
    rw [hq]
  have hdrop : text.drop (e - p.length) = p ++ text.drop e := by
    have h3 : e - p.length = q.length := by omega
    conv_lhs => rw [h2]
    rw [h3, List.append_assoc, List.drop_left]
  rw [hdrop, List.take_left]

/-- Appending a match interval appends it to that pattern's list. -/
lemma matchesFor_addMatch_self :
    ∀ (acc : List (Nat × List (Int × Int))) (pid : Nat) (iv : Int × Int),
      matchesFor (addMatch acc pid iv) pid = matchesFor acc pid ++ [iv] := by
  intro acc
  induction acc with
  | nil =>
    intro pid iv
    show matchesFor [(pid, [iv])] pid = _
    rw [matchesFor, matchesFor, List.find?_cons_of_pos _ (by simp)]
    rfl
  | cons kl rest ih =>
    intro pid iv
    obtain ⟨k, l⟩ := kl
    rw [addMatch]
    by_cases hk : k = pid
    · subst hk
      rw [if_pos rfl, matchesFor, matchesFor, List.find?_cons_of_pos _ (by simp),
        List.find?_cons_of_pos _ (by simp)]
      rfl
    · rw [if_neg hk, matchesFor, matchesFor,
        List.find?_cons_of_neg _ (by simp [hk]), List.find?_cons_of_neg _ (by simp [hk])]
      exact ih pid iv

/-- Folding the hit handler over hits that all pass the guard and the
verification appends, per pattern, exactly the intervals of that pattern's
hits in order. -/
lemma matchesFor_fold_add (text : List Char) (metaList : List (List Tok × Nat))
    (f : Nat × (Nat × SeedMeta) → Int × Int) :
    ∀ (hits : List (Nat × (Nat × SeedMeta))) (acc : List (Nat × List (Int × Int))),
      (∀ h ∈ hits, ∀ acc2, gapHitStep text metaList acc2 h = addMatch acc2 h.2.1 (f h)) →
      ∀ pid, matchesFor (hits.foldl (gapHitStep text metaList) acc) pid =
        matchesFor acc pid ++ (hits.filter (fun h => h.2.1 = pid)).map f := by
  intro hits
  induction hits with
  | nil =>
    intro acc hgood pid
    rw [List.foldl_nil, List.filter_nil, List.map_nil, List.append_nil]
  | cons h hs ih =>
    intro acc hgood pid
    rw [List.foldl_cons, hgood h (List.mem_cons_self _ _) acc]
    rw [ih (addMatch acc h.2.1 (f h))
      (fun h2 hh2 => hgood h2 (List.mem_cons_of_mem _ hh2)) pid]
    by_cases hpid : h.2.1 = pid
    · rw [List.filter_cons_of_pos (by simp [hpid]), List.map_cons]
      rw [← hpid, matchesFor_addMatch_self]
      rw [List.append_assoc, List.singleton_append]
    · rw [List.filter_cons_of_neg (by simp [hpid]),
        matchesFor_addMatch_ne acc h.2.1 (f h) pid (fun hx => hpid hx.symm)]

/-- Membership in the output chain of the scan state: exactly the inserted
identifiers of patterns that are suffixes of the text read so far. -/
lemma outChain_mem {pats : List (List Char × α)}
    (hne : ∀ pr ∈ pats, pr.1 ≠ [])
    (halpha : ∀ pr ∈ pats, ∀ x ∈ pr.1, x ∈ ALPHABET) (w : List Char) (o : α) :
    o ∈ outChain pats (sigma pats (cleanSuffix w)) ↔
      ∃ pr ∈ pats, pr.1 <:+ w ∧ o = pr.2 := by
  rw [(outChain_perm hne _).mem_iff, List.mem_map]
  constructor
  · rintro ⟨pr, hpr, rfl⟩
    rw [List.mem_filter] at hpr
    refine ⟨pr, hpr.1, ?_, rfl⟩
    have hsf := List.isSuffixOf_iff_suffix.mp hpr.2
    exact hsf.trans ((sigma_suffix pats _).trans (cleanSuffix_suffix w))
  · rintro ⟨pr, hpr, hsf, rfl⟩
    refine ⟨pr, ?_, rfl⟩
    rw [List.mem_filter]
    refine ⟨hpr, ?_⟩
    rw [List.isSuffixOf_iff_suffix]
    exact sigma_chain pats (cleanSuffix w) pr.1
      (suffix_cleanSuffix hsf (halpha pr hpr)) (hne pr hpr)
      (inTrie_self (p := pr.1) (i := pr.2) (by rw [Prod.mk.eta]; exact hpr))

/-- Position-indexed membership in the string-level scan hit list. -/
lemma sgSpec_mem {pats : List (List Char × α)} (hne : ∀ pr ∈ pats, pr.1 ≠ []) :
    ∀ (text u : List Char) (idx : Nat) (pr : Nat × α),
      pr ∈ sgSpec pats (sigma pats (cleanSuffix u)) idx text ↔
        ∃ i, i < text.length ∧ pr.1 = idx + i ∧
          pr.2 ∈ outChain pats (sigma pats (cleanSuffix (u ++ text.take (i + 1)))) := by
  intro text
  induction text with
  | nil =>
    intro u idx pr
    constructor
    · intro h
      rw [sgSpec] at h
      cases h
    · rintro ⟨i, hi, h2⟩
      simp at hi
  | cons c rest ih =>
    intro u idx pr
    by_cases hc : c ∈ ALPHABET
    · rw [sgSpec, if_pos hc]
      have hstate : sigma pats (sigma pats (cleanSuffix u) ++ [c]) =
          sigma pats (cleanSuffix (u ++ [c])) := by
        rw [cleanSuffix_snoc_alpha hc, sigma_snoc, sigma_snoc, sigma_idem]
      rw [hstate, List.mem_append, List.mem_map, ih (u ++ [c]) (idx + 1) pr]
      constructor
      · rintro (⟨o, ho, rfl⟩ | ⟨i, hi, hidx, hmem⟩)
        · exact ⟨0, by simp, rfl, ho⟩
        · refine ⟨i + 1, by simp only [List.length_cons]; omega, by omega, ?_⟩
          have heq2 : u ++ (c :: rest).take (i + 1 + 1) = (u ++ [c]) ++ rest.take (i + 1) := by
            rw [List.take_succ_cons, List.append_cons]
          rw [heq2]
          exact hmem
      · rintro ⟨i, hi, hidx, hmem⟩
        cases i with
        | zero =>
          left
          exact ⟨pr.2, hmem, Prod.ext hidx.symm rfl⟩
        | succ i =>
          right
          refine ⟨i, by simp only [List.length_cons] at hi; omega, by omega, ?_⟩
          have heq2 : u ++ (c :: rest).take (i + 1 + 1) = (u ++ [c]) ++ rest.take (i + 1) := by
            rw [List.take_succ_cons, List.append_cons]
          rw [heq2] at hmem
          exact hmem
    · rw [sgSpec, if_neg hc]
      have hstate : sigma pats (cleanSuffix (u ++ [c])) = [] := by
        rw [cleanSuffix_snoc_bad hc]
        rfl
      have h0 : sgSpec pats ([] : List Char) (idx + 1) rest =
          sgSpec pats (sigma pats (cleanSuffix (u ++ [c]))) (idx + 1) rest := by
        rw [hstate]
      rw [h0, ih (u ++ [c]) (idx + 1) pr]
      constructor
      · rintro ⟨i, hi, hidx, hmem⟩
        refine ⟨i + 1, by simp only [List.length_cons]; omega, by omega, ?_⟩
        have heq2 : u ++ (c :: rest).take (i + 1 + 1) = (u ++ [c]) ++ rest.take (i + 1) := by
          rw [List.take_succ_cons, List.append_cons]
        rw [heq2]
        exact hmem
      · rintro ⟨i, hi, hidx, hmem⟩
        cases i with
        | zero =>
          exfalso
          rw [show u ++ (c :: rest).take (0 + 1) = u ++ [c] from rfl, hstate,
            outChain_nil hne] at hmem
          cases hmem
        | succ i =>
          refine ⟨i, by simp only [List.length_cons] at hi; omega, by omega, ?_⟩
          have heq2 : u ++ (c :: rest).take (i + 1 + 1) = (u ++ [c]) ++ rest.take (i + 1) := by
            rw [List.take_succ_cons, List.append_cons]
          rw [heq2] at hmem
          exact hmem

/-- A seed hit whose seed is the whole pattern anchored at offset zero
passes the bounds guard and the replay, and records the anchored
interval. -/
lemma gapHitStep_good (text : List Char) (metaList : List (List Tok × Nat))
    {i j : Nat} {p : List Char}
    (hmeta : metaList.getD j ([], 0) = ([Tok.seq p], p.length))
    (hlp1 : 1 ≤ p.length) (hlp2 : p.length ≤ i + 1) (hi : i < text.length)
    (hsuf : p <:+ text.take (i + 1))
    (acc : List (Nat × List (Int × Int))) :
    gapHitStep text metaList acc (i, (j, ⟨0, p.length⟩)) =
      addMatch acc j ((i : Int) + 1 - (p.length : Int), (i : Int) + 1) := by
  have hver2 : ∀ t : Nat, t = i + 1 - p.length → verifyTokens text t [Tok.seq p] = true := by
    intro t ht
    subst ht
    rw [verifyTokens, if_pos (slice_of_suffix_take (by omega) hsuf)]
    rfl
  rw [gapHitStep, hmeta]
  dsimp only
  split
  · rename_i hcond
    exfalso
    rcases hcond with hlt | hgt
    · omega
    · omega
  · split
    · congr 1
      rw [Prod.mk.injEq]
      exact ⟨by omega, by omega⟩
    · rename_i hver
      exfalso
      apply hver
      exact hver2 _ (by omega)

/-- Claim C2 (amended: restricted to nonempty patterns over the ACGTN
alphabet — these parse to themselves as single literal tokens and are in
particular gap-free; for general gap-free patterns the claim fails because
the parser silently skips foreign characters, see the counterexample): for
such pattern lists `search_with_gaps` succeeds, and pattern index `pid`
holds interval `(s, e)` exactly when the exact-match scanner over the same
identified patterns reports a match for `pid` ending at position `e - 1`,
with `s` one pattern length earlier. -/
theorem c2_gap_free_matches_exact (patterns : List (List Char)) (text : List Char)
    (msl : Nat) (hne : ∀ p ∈ patterns, p ≠ [])
    (halpha : ∀ p ∈ patterns, ∀ x ∈ p, x ∈ ALPHABET) :
    ∃ res ms,
      search_with_gaps text patterns msl = Except.ok res ∧
      (buildFrom ((enumFrom 0 patterns).map (fun pr => (pr.2, pr.1)))).search text true =
        (ms.length, some ms) ∧
      (∀ pid : Nat, ∀ iv : Int × Int,
        iv ∈ matchesFor res pid ↔
          ∃ idx : Nat, (idx, pid) ∈ ms ∧
            iv = ((idx : Int) + 1 - ((patterns.getD pid []).length : Int),
              (idx : Int) + 1)) := by
  set pats1 : List (List Char × Nat) :=
    (enumFrom 0 patterns).map (fun pr => (pr.2, pr.1)) with hpats1
  set pats2 : List (List Char × (Nat × SeedMeta)) := (enumFrom 0 patterns).map
    (fun pr => (pr.2, (pr.1, (⟨0, pr.2.length⟩ : SeedMeta)))) with hpats2
  have hne1 : ∀ pr ∈ pats1, pr.1 ≠ [] := by
    intro pr hpr
    rw [hpats1, List.mem_map] at hpr
    obtain ⟨pt, hpt, rfl⟩ := hpr
    exact hne pt.2 (enumFrom_snd_mem patterns 0 pt hpt)
  have halpha1 : ∀ pr ∈ pats1, ∀ x ∈ pr.1, x ∈ ALPHABET := by
    intro pr hpr
    rw [hpats1, List.mem_map] at hpr
    obtain ⟨pt, hpt, rfl⟩ := hpr
    exact halpha pt.2 (enumFrom_snd_mem patterns 0 pt hpt)
  have hne2 : ∀ pr ∈ pats2, pr.1 ≠ [] := by
    intro pr hpr
    rw [hpats2, List.mem_map] at hpr
    obtain ⟨pt, hpt, rfl⟩ := hpr
    exact hne pt.2 (enumFrom_snd_mem patterns 0 pt hpt)
  have halpha2 : ∀ pr ∈ pats2, ∀ x ∈ pr.1, x ∈ ALPHABET := by
    intro pr hpr
    rw [hpats2, List.mem_map] at hpr
    obtain ⟨pt, hpt, rfl⟩ := hpr
    exact halpha pt.2 (enumFrom_snd_mem patterns 0 pt hpt)
  set toksList := patterns.map (fun p => [Tok.seq p]) with htoks
  set metaList := toksList.map (fun t => (t, patternSpan t)) with hmeta
  have hok := search_with_gaps_ok text patterns msl toksList
    (parseAll_alpha patterns hne halpha)
  have hga := gapAutomaton_alpha patterns msl hne
  have hsg2 : (gapAutomaton toksList msl).search_generator text =
      sgSpec pats2 [] 0 text := by
    rw [hga]
    exact buildFrom_sg pats2 text
  rw [hsg2] at hok
  set hits := sgSpec pats2 [] 0 text with hhits
  have hps : ∀ q : List Char, patternSpan [Tok.seq q] = q.length := by
    intro q
    rw [patternSpan]
    simp [tokSpan]
  have hmetaget : ∀ j p, patterns[j]? = some p →
      metaList.getD j ([], 0) = ([Tok.seq p], p.length) := by
    intro j p hj
    rw [hmeta, htoks, List.getD_eq_getElem?_getD, List.getElem?_map, List.getElem?_map, hj]
    show ([Tok.seq p], patternSpan [Tok.seq p]) = _
    rw [hps]
  have hhit_char : ∀ h : Nat × (Nat × SeedMeta), h ∈ hits ↔
      ∃ i p, i < text.length ∧ h.1 = i ∧ patterns[h.2.1]? = some p ∧
        h.2.2 = (⟨0, p.length⟩ : SeedMeta) ∧ p <:+ text.take (i + 1) := by
    intro h
    rw [hhits]
    rw [show sgSpec pats2 ([] : List Char) 0 text =
      sgSpec pats2 (sigma pats2 (cleanSuffix [])) 0 text from rfl]
    rw [sgSpec_mem hne2 text [] 0 h]
    constructor
    · rintro ⟨i, hi, hpos, hoc⟩
      obtain ⟨pr, hpr, hsuf, hval⟩ := (outChain_mem hne2 halpha2 _ _).mp hoc
      rw [List.nil_append] at hsuf
      rw [hpats2, List.mem_map] at hpr
      obtain ⟨pt, hpt, hpr_eq⟩ := hpr
      obtain ⟨j, hj1, hj2⟩ := (enumFrom_mem patterns 0 pt).mp hpt
      rw [Nat.zero_add] at hj1 hpos
      refine ⟨i, pt.2, hi, hpos, ?_, ?_, ?_⟩
      · have hq : h.2.1 = pt.1 := by rw [hval, ← hpr_eq]
        rw [hq, hj1]
        exact hj2
      · rw [hval, ← hpr_eq]
      · have hq : pr.1 = pt.2 := by rw [← hpr_eq]
        rw [← hq]
        exact hsuf
    · rintro ⟨i, p, hi, hpos, hj, hm, hsuf⟩
      refine ⟨i, hi, by rw [Nat.zero_add]; exact hpos, ?_⟩
      apply (outChain_mem hne2 halpha2 _ _).mpr
      refine ⟨(p, (h.2.1, (⟨0, p.length⟩ : SeedMeta))), ?_, ?_, ?_⟩
      · rw [hpats2, List.mem_map]
        refine ⟨(h.2.1, p), ?_, rfl⟩
        apply (enumFrom_mem patterns 0 _).mpr
        exact ⟨h.2.1, by rw [Nat.zero_add], hj⟩
      · rw [List.nil_append]
        exact hsuf
      · show h.2 = (h.2.1, (⟨0, p.length⟩ : SeedMeta))
        rw [← hm]
  have hgood : ∀ h ∈ hits, ∀ acc2,
      gapHitStep text metaList acc2 h = addMatch acc2 h.2.1
        ((fun h : Nat × (Nat × SeedMeta) =>
          ((h.1 : Int) + 1 - ((patterns.getD h.2.1 []).length : Int), (h.1 : Int) + 1)) h) := by
    intro h hh acc2
    obtain ⟨i, p, hi, hpos, hj, hm, hsuf⟩ := (hhit_char h).mp hh
    have hgd : patterns.getD h.2.1 [] = p := by
      rw [List.getD_eq_getElem?_getD, hj]
      rfl
    have hplen : 1 ≤ p.length := by
      have hpne : p ≠ [] := hne p (List.getElem?_mem hj)
      exact List.length_pos.mpr hpne
    have hlp2 : p.length ≤ i + 1 := by
      have hl := hsuf.length_le
      rw [List.length_take] at hl
      omega
    have hform : h = (i, (h.2.1, (⟨0, p.length⟩ : SeedMeta))) := by
      rw [← hpos, ← hm]
    show gapHitStep text metaList acc2 h = addMatch acc2 h.2.1
      ((h.1 : Int) + 1 - ((patterns.getD h.2.1 []).length : Int), (h.1 : Int) + 1)
    calc gapHitStep text metaList acc2 h
        = gapHitStep text metaList acc2 (i, (h.2.1, (⟨0, p.length⟩ : SeedMeta))) := by
          rw [← hform]
      _ = addMatch acc2 h.2.1 ((i : Int) + 1 - (p.length : Int), (i : Int) + 1) :=
          gapHitStep_good text metaList (hmetaget h.2.1 p hj) hplen hlp2 hi hsuf acc2
      _ = addMatch acc2 h.2.1
          ((h.1 : Int) + 1 - ((patterns.getD h.2.1 []).length : Int), (h.1 : Int) + 1) := by
          rw [hgd, hpos]
  have hfold := matchesFor_fold_add text metaList
    (fun h : Nat × (Nat × SeedMeta) =>
      ((h.1 : Int) + 1 - ((patterns.getD h.2.1 []).length : Int), (h.1 : Int) + 1))
    hits [] hgood
  have hms := buildFrom_search_some pats1 text
  set ms := sgSpec pats1 [] 0 text with hmsdef
  have hms_char : ∀ idx pid : Nat, (idx, pid) ∈ ms ↔
      ∃ i p, i < text.length ∧ idx = i ∧ patterns[pid]? = some p ∧
        p <:+ text.take (i + 1) := by
    intro idx pid
    rw [hmsdef]
    rw [show sgSpec pats1 ([] : List Char) 0 text =
      sgSpec pats1 (sigma pats1 (cleanSuffix [])) 0 text from rfl]
    rw [sgSpec_mem hne1 text [] 0 (idx, pid)]
    constructor
    · rintro ⟨i, hi, hpos, hoc⟩
      obtain ⟨pr, hpr, hsuf, hval⟩ := (outChain_mem hne1 halpha1 _ _).mp hoc
      rw [List.nil_append] at hsuf
      rw [hpats1, List.mem_map] at hpr
      obtain ⟨pt, hpt, hpr_eq⟩ := hpr
      obtain ⟨j, hj1, hj2⟩ := (enumFrom_mem patterns 0 pt).mp hpt
      rw [Nat.zero_add] at hj1 hpos
      refine ⟨i, pt.2, hi, hpos, ?_, ?_⟩
      · have hpid : pid = pt.1 := by
          rw [show pid = ((idx, pid) : Nat × Nat).2 from rfl, hval, ← hpr_eq]
        rw [hpid, hj1]
        exact hj2
      · have hq : pr.1 = pt.2 := by rw [← hpr_eq]
        rw [← hq]
        exact hsuf
    · rintro ⟨i, p, hi, hpos, hj, hsuf⟩
      refine ⟨i, hi, by rw [Nat.zero_add]; exact hpos, ?_⟩
      apply (outChain_mem hne1 halpha1 _ _).mpr
      refine ⟨(p, pid), ?_, ?_, rfl⟩
      · rw [hpats1, List.mem_map]
        exact ⟨(pid, p), (enumFrom_mem patterns 0 _).mpr
          ⟨pid, by rw [Nat.zero_add], hj⟩, rfl⟩
      · rw [List.nil_append]
        exact hsuf
  refine ⟨hits.foldl (gapHitStep text metaList) [], ms, hok, hms, ?_⟩
  intro pid iv
  rw [hfold pid, show matchesFor [] pid = [] from rfl, List.nil_append, List.mem_map]
  constructor
  · rintro ⟨h, hhf, rfl⟩
    rw [List.mem_filter] at hhf
    obtain ⟨hh, hpid⟩ := hhf
    rw [decide_eq_true_eq] at hpid
    obtain ⟨i, p, hi, hpos, hj, hm, hsuf⟩ := (hhit_char h).mp hh
    refine ⟨i, ?_, ?_⟩
    · apply (hms_char i pid).mpr
      refine ⟨i, p, hi, rfl, ?_, hsuf⟩
      rw [← hpid]
      exact hj
    · show ((h.1 : Int) + 1 - ((patterns.getD h.2.1 []).length : Int), (h.1 : Int) + 1) = _
      rw [hpos, hpid]
  · rintro ⟨idx, hmem, hiv⟩
    obtain ⟨i, p, hi, hpos, hj, hsuf⟩ := (hms_char idx pid).mp hmem
    subst hpos
    refine ⟨(idx, (pid, (⟨0, p.length⟩ : SeedMeta))), ?_, ?_⟩
    · rw [List.mem_filter]
      constructor
      · apply (hhit_char _).mpr
        exact ⟨idx, p, hi, rfl, hj, rfl, hsuf⟩
      · simp
    · show ((idx : Int) + 1 - ((patterns.getD pid []).length : Int), (idx : Int) + 1) = iv
      rw [hiv]

/-- Witness for C2: the single pattern AC against text AC with threshold 3
(forcing the fallback insertion path). -/
theorem c2_gap_free_matches_exact_witness :
    (∀ p ∈ ["AC".toList], p ≠ []) ∧
    ∃ res ms,
      search_with_gaps "AC".toList ["AC".toList] 3 = Except.ok res ∧
      (buildFrom ((enumFrom 0 ["AC".toList]).map (fun pr => (pr.2, pr.1)))).search
        "AC".toList true = (ms.length, some ms) ∧
      (∀ pid : Nat, ∀ iv : Int × Int,
        iv ∈ matchesFor res pid ↔
          ∃ idx : Nat, (idx, pid) ∈ ms ∧
            iv = ((idx : Int) + 1 - ((["AC".toList].getD pid []).length : Int),
              (idx : Int) + 1)) := by
  exact ⟨by decide, c2_gap_free_matches_exact ["AC".toList] "AC".toList 3
    (by decide) (by decide)⟩
